import Mathlib

/-!
Verification of the `regexp` crate (parser / compiler / Pike-VM engine).

This file gives a shallow embedding, in Lean, of the Rust sources
`src/parse.rs`, `src/compile.rs`, `src/vm.rs` and `src/re.rs`, and proves
properties of the embedded code.  Each Lean definition mirrors one Rust item
and keeps its name where Lean's syntax allows it.  Rust's `uint` byte offsets
become `Nat`; `&str` text becomes `List Char` (byte offsets computed from the
UTF-8 width of each character); fallible Rust code returns `Except`/`Option`.
Mutation is replaced by explicit state passing: a Rust function that mutates a
struct becomes a Lean function from the old struct to the new one.
-/

namespace Regexp

/-! ### UTF-8 byte arithmetic

Rust strings are UTF-8 and all positions in the engine are byte offsets.
`csize c` is Rust's `char::len_utf8`; `utf8C c` the standard UTF-8 encoding
of a scalar value; `byteLen` the Rust `str::len` of a decoded string. -/

def csize (c : Char) : Nat :=
  if c.val < 0x80 then 1
  else if c.val < 0x800 then 2
  else if c.val < 0x10000 then 3
  else 4

def utf8C (c : Char) : List Nat :=
  let v := c.val.toNat
  if v < 0x80 then [v]
  else if v < 0x800 then [0xC0 + v / 0x40, 0x80 + v % 0x40]
  else if v < 0x10000 then
    [0xE0 + v / 0x1000, 0x80 + v / 0x40 % 0x40, 0x80 + v % 0x40]
  else
    [0xF0 + v / 0x40000, 0x80 + v / 0x1000 % 0x40,
     0x80 + v / 0x40 % 0x40, 0x80 + v % 0x40]

def byteLen (text : List Char) : Nat :=
  (text.map csize).sum

/-- All UTF-8 bytes of a string (`str::as_bytes`). -/
def allBytes (text : List Char) : List Nat :=
  (text.map utf8C).flatten

/-- `str::slice_from` at byte offset `ic`, viewed as raw bytes. -/
def bytesFrom (text : List Char) (ic : Nat) : List Nat :=
  (allBytes text).drop ic

/-- Drop the chars that occupy the first `n` bytes (byte positions are only
ever at codepoint boundaries in the engine). -/
def bsDrop : List Char → Nat → List Char
  | text, 0 => text
  | [], _ + 1 => []
  | c :: rest, n + 1 => bsDrop rest (n + 1 - csize c)

/-- Take the chars that occupy the first `n` bytes. -/
def bsTake : List Char → Nat → List Char
  | _, 0 => []
  | [], _ + 1 => []
  | c :: rest, n + 1 => c :: bsTake rest (n + 1 - csize c)

/-- Rust `str::slice(s, e)` on byte offsets. -/
def byteSlice (text : List Char) (s e : Nat) : List Char :=
  bsTake (bsDrop text s) (e - s)

/-- Decode the character starting at byte offset `ic`; returns the character
and the offset just past it (Rust `str::char_range_at`).  `none` when `ic` is
at or past the end (or not a boundary, which the engine never produces). -/
def charAtB (text : List Char) (ic : Nat) : Option (Char × Nat) :=
  go text 0
where
  go : List Char → Nat → Option (Char × Nat)
    | [], _ => none
    | c :: rest, pos =>
      if ic = pos then some (c, pos + csize c) else go rest (pos + csize c)

/-- The character that ends at byte offset `ic`
(Rust `str::char_range_at_reverse(ic).ch`). -/
def charBeforeB (text : List Char) (ic : Nat) : Option Char :=
  go text 0
where
  go : List Char → Nat → Option Char
    | [], _ => none
    | c :: rest, pos =>
      if ic = pos + csize c then some c else go rest (pos + csize c)

/-! ### Digit strings

`natChars n` renders `n` in decimal (the digits a pattern would contain) and
`parseUInt` models Rust's `from_str::<uint>`: all characters must be decimal
digits and the string must be non-empty. -/

def digitChar (d : Nat) : Char := Char.ofNat (48 + d)

def natChars (n : Nat) : List Char :=
  if n < 10 then [digitChar n]
  else natChars (n / 10) ++ [digitChar (n % 10)]
decreasing_by exact Nat.div_lt_self (by omega) (by omega)

/-- `10 ^ (number of decimal digits of n)`. -/
def tenPow (n : Nat) : Nat :=
  if n < 10 then 10 else tenPow (n / 10) * 10
decreasing_by exact Nat.div_lt_self (by omega) (by omega)

def parseUIntAux : List Char → Nat → Option Nat
  | [], acc => some acc
  | c :: rest, acc =>
    if '0' ≤ c ∧ c ≤ '9' then
      parseUIntAux rest (acc * 10 + (c.toNat - '0'.toNat))
    else none

def parseUInt (s : List Char) : Option Nat :=
  if s.isEmpty then none else parseUIntAux s 0

/-! ### `parse.rs`: the AST -/

/-- `parse::Repeater`. -/
inductive Repeater where
  | ZeroOne | ZeroMore | OneMore
deriving DecidableEq

/-- `parse::Greed`. -/
inductive Greed where
  | Greedy | Ungreedy
deriving DecidableEq

/-- `parse::Ast`.  The constructor `Cls` is Rust's `Class` (renamed only
because of Lean lexical restrictions); its fields are the merged ranges, the
negation flag and the case-insensitive flag, exactly as in the source. -/
inductive Ast where
  | Nothing : Ast
  | Literal (c : Char) (casei : Bool) : Ast
  | Dot (dotnl : Bool) : Ast
  | Cls (ranges : List (Char × Char)) (negated : Bool) (casei : Bool) : Ast
  | Begin (multi : Bool) : Ast
  | End (multi : Bool) : Ast
  | WordBoundary (isb : Bool) : Ast
  | Capture (idx : Nat) (name : Option (List Char)) (x : Ast) : Ast
  | Cat (x y : Ast) : Ast
  | Alt (x y : Ast) : Ast
  | Rep (x : Ast) (r : Repeater) (g : Greed) : Ast
deriving DecidableEq

def Greed.is_greedy : Greed → Bool
  | .Greedy => true
  | .Ungreedy => false

/-- `Greed::swap`. -/
def Greed.swap (g : Greed) (swapped : Bool) : Greed :=
  if !swapped then g
  else match g with
    | .Greedy => .Ungreedy
    | .Ungreedy => .Greedy

/-- `parse::should_merge`: two ranges overlap or abut. -/
def should_merge (a : Char × Char) (x : Char × Char) : Bool :=
  (max a.1 x.1).val ≤ (min a.2 x.2).val + 1

/-- One pass of the inner loop of `combine_ranges`: find the first range in
`ordered` that `should_merge` with the incoming range, widen the incoming
range by it and replace it in place; if none merges, push at the end. -/
def combineOne (ordered : List (Char × Char)) (r : Char × Char) :
    List (Char × Char) :=
  go ordered
where
  go : List (Char × Char) → List (Char × Char)
    | [] => [r]
    | o :: rest =>
      if should_merge r o then
        (min r.1 o.1, max r.2 o.2) :: rest
      else o :: go rest

/-- Rust `Vec::sort` on `(char, char)` orders pairs lexicographically; it is
a stable sort, and a stable sort's output is uniquely determined, so a
stable insertion sort denotes the same function. -/
def pairLe (a b : Char × Char) : Prop :=
  a.1 < b.1 ∨ (a.1 = b.1 ∧ a.2 ≤ b.2)

instance : DecidableRel pairLe := fun a b => by
  unfold pairLe; infer_instance

instance : IsTotal (Char × Char) pairLe :=
  ⟨fun a b => by
    unfold pairLe
    rcases lt_trichotomy a.1 b.1 with h | h | h
    · exact Or.inl (Or.inl h)
    · rcases le_total a.2 b.2 with h2 | h2
      · exact Or.inl (Or.inr ⟨h, h2⟩)
      · exact Or.inr (Or.inr ⟨h.symm, h2⟩)
    · exact Or.inr (Or.inl h)⟩

instance : IsTrans (Char × Char) pairLe :=
  ⟨fun a b c hab hbc => by
    unfold pairLe at *
    rcases hab with h1 | ⟨h1, h1'⟩ <;> rcases hbc with h2 | ⟨h2, h2'⟩
    · exact Or.inl (h1.trans h2)
    · exact Or.inl (h2 ▸ h1)
    · exact Or.inl (h1 ▸ h2)
    · exact Or.inr ⟨h1.trans h2, h1'.trans h2'⟩⟩

def sortPairs (l : List (Char × Char)) : List (Char × Char) :=
  l.insertionSort pairLe

/-- `parse::combine_ranges`.  Each unordered range is merged into the first
range of the accumulator it overlaps or abuts (or appended), and the result
is sorted at the end.  (The `assert!(us <= ue)` of the source always holds
for parser-produced ranges and is not represented.) -/
def combine_ranges (unordered : List (Char × Char)) : List (Char × Char) :=
  sortPairs (unordered.foldl combineOne [])

/-- `parse::is_punct`. -/
def is_punct (c : Char) : Bool :=
  c = '\\' || c = '.' || c = '+' || c = '*' || c = '?' || c = '(' ||
  c = ')' || c = '|' || c = '[' || c = ']' || c = '\x7b' || c = '\x7d' ||
  c = '^' || c = '$'

/-- `parse::is_valid_cap`. -/
def is_valid_cap (c : Char) : Bool :=
  c = '_' || ('0' ≤ c && c ≤ '9') || ('a' ≤ c && c ≤ 'z') ||
  ('A' ≤ c && c ≤ 'Z')

/-! ### `parse.rs`: flags and errors -/

/-- `parse::Flag` values (`Flags` is a `uint` bitset, modelled as `Nat`). -/
def FLAG_EMPTY : Nat := 0

def FLAG_NOCASE : Nat := 1

def FLAG_MULTI : Nat := 2

def FLAG_DOTNL : Nat := 4

def FLAG_SWAP_GREED : Nat := 8

def FLAG_NEGATED : Nat := 16

def flagIsSet (flags f : Nat) : Bool := flags &&& f > 0

/-- `ErrorKind`; `BadSyn` is the source's `BadSyntax` (renamed for Lean
lexical reasons). -/
inductive ErrorKind where
  | Bug | BadSyn
deriving DecidableEq

/-- `parse::Error` (messages abbreviated; no claim inspects them). -/
structure Error where
  pos : Nat
  kind : ErrorKind
  msg : String
deriving DecidableEq

/-! ### `parse.rs`: the shunting-yard parser -/

/-- `parse::BuildAst`: a work-stack entry. -/
inductive BuildAst where
  | Ast (x : Regexp.Ast)
  | Paren (flags : Nat) (cap : Nat) (name : List Char)
  | Bar
deriving DecidableEq

def BuildAst.isParen : BuildAst → Bool
  | .Paren _ _ _ => true
  | _ => false

def BuildAst.isBar : BuildAst → Bool
  | .Bar => true
  | _ => false

/-- `BuildAst::capture`. -/
def BuildAst.capture : BuildAst → Option Nat
  | .Paren _ 0 _ => none
  | .Paren _ c _ => some c
  | _ => none

/-- `BuildAst::capture_name`. -/
def BuildAst.captureName : BuildAst → Option (List Char)
  | .Paren _ 0 _ => none
  | .Paren _ _ name => if name.length = 0 then none else some name
  | _ => none

/-- `BuildAst::flags`. -/
def BuildAst.parenFlags : BuildAst → Nat
  | .Paren f _ _ => f
  | _ => 0

/-- The parser state (`struct Parser`).  The work stack is stored with its
top as the head of the list (Rust pushes and pops at the end of a `Vec`). -/
structure Parser where
  chars : List Char
  chari : Nat
  stack : List BuildAst
  flags : Nat
  caps : Nat
deriving DecidableEq

def Parser.err (p : Parser) (k : ErrorKind) (msg : String) :
    Except Error α :=
  .error { pos := p.chari, kind := k, msg := msg }

def Parser.synerr (p : Parser) (msg : String) : Except Error α :=
  p.err .BadSyn msg

def Parser.cur (p : Parser) : Char :=
  p.chars.getD p.chari default

def Parser.nextChar (p : Parser) : Parser :=
  { p with chari := p.chari + 1 }

def Parser.peek (p : Parser) (offset : Nat) : Option Char :=
  if p.chari + offset ≥ p.chars.length then none
  else some (p.chars.getD (p.chari + offset) default)

def Parser.peekIs (p : Parser) (offset : Nat) (c : Char) : Bool :=
  p.peek offset = some c

/-- `Parser::slice` (indices are char positions, not bytes). -/
def Parser.slice (p : Parser) (s e : Nat) : List Char :=
  (p.chars.take e).drop s

/-- `Parser::pos`: first occurrence of `c` at or after `chari`. -/
def Parser.pos (p : Parser) (c : Char) : Option Nat :=
  ((p.chars.drop p.chari).findIdx? (· = c)).map (p.chari + ·)

def Parser.push (p : Parser) (x : Ast) : Parser :=
  { p with stack := .Ast x :: p.stack }

/-- `Parser::pop_ast`.  Popping an empty stack models the source's
`Option::unwrap` panic as a `Bug` error; popping a non-AST entry is the
source's `BuildAst::unwrap` error (position 0). -/
def Parser.popAst (p : Parser) : Except Error (Ast × Parser) :=
  match p.stack with
  | .Ast x :: rest => .ok (x, { p with stack := rest })
  | _ :: _ => .error { pos := 0, kind := .Bug, msg := "non-AST item" }
  | [] => .error { pos := 0, kind := .Bug, msg := "empty stack pop" }

/-- `Parser::pos_last`: the index (counted from the bottom of the stack) just
above the topmost entry satisfying `pred`; `0` when there is none and
`allow_start` holds. -/
def Parser.posLast (p : Parser) (allowStart : Bool)
    (pred : BuildAst → Bool) : Except Error Nat :=
  match p.stack.findIdx? pred with
  | some i => .ok (p.stack.length - i)
  | none =>
    if allowStart then .ok 0
    else p.synerr "No matching opening parenthesis."

/-- The loop of `Parser::build_from`: pop `n` entries, folding AST entries
into `comb` with `mk` and ignoring markers. -/
def buildFromLoop (mk : Ast → Ast → Ast) :
    List BuildAst → Nat → Ast → Ast × List BuildAst
  | s, 0, comb => (comb, s)
  | [], _ + 1, comb => (comb, [])
  | .Ast x :: rest, n + 1, comb => buildFromLoop mk rest n (mk x comb)
  | _ :: rest, n + 1, comb => buildFromLoop mk rest n comb

/-- `Parser::build_from`. -/
def Parser.buildFrom (p : Parser) (from' : Nat) (mk : Ast → Ast → Ast) :
    Except Error (Ast × Parser) := do
  if from' ≥ p.stack.length then
    p.synerr "Empty group or alternate not allowed."
  else
    let (combined, p') ← p.popAst
    let n := p'.stack.length - from'
    let (c, st) := buildFromLoop mk p'.stack n combined
    .ok (c, { p' with stack := st })

/-- `Parser::concat`. -/
def Parser.concat (p : Parser) (from' : Nat) : Except Error Parser := do
  let (ast, p') ← p.buildFrom from' .Cat
  .ok (p'.push ast)

/-- `Parser::alternate`. -/
def Parser.alternate (p : Parser) (from' : Nat) : Except Error Parser := do
  let f := if from' > 0 then from' - 1 else from'
  let (ast, p') ← p.buildFrom f .Alt
  .ok (p'.push ast)

/-- `Parser::get_next_greedy`. -/
def Parser.getNextGreedy (p : Parser) : Greed × Parser :=
  let (g, p') :=
    if p.peekIs 1 '?' then (Greed.Ungreedy, p.nextChar) else (Greed.Greedy, p)
  (g.swap (flagIsSet p.flags FLAG_SWAP_GREED), p')

/-- `Parser::parse_uint` (Rust `from_str::<uint>`). -/
def Parser.parseUIntM (p : Parser) (s : List Char) : Except Error Nat :=
  match parseUInt s with
  | some i => .ok i
  | none => p.synerr "Expected an unsigned integer."

/-- `Parser::char_from_u32` (Rust `char::from_u32` rejects surrogates and
out-of-range scalars, which is exactly `Nat.isValidChar`). -/
def Parser.charFromU32 (p : Parser) (n : Nat) : Except Error Char :=
  if h : n.isValidChar then .ok (Char.ofNatAux n h)
  else p.synerr "Could not decode to unicode character."

/-- Rust `num::from_str_radix::<u32>` for radixes 8 and 16. -/
def digitVal (c : Char) : Option Nat :=
  if '0' ≤ c ∧ c ≤ '9' then some (c.toNat - '0'.toNat)
  else if 'a' ≤ c ∧ c ≤ 'f' then some (c.toNat - 'a'.toNat + 10)
  else if 'A' ≤ c ∧ c ≤ 'F' then some (c.toNat - 'A'.toNat + 10)
  else none

def fromStrRadixAux (radix : Nat) : List Char → Nat → Option Nat
  | [], acc => some acc
  | c :: rest, acc =>
    match digitVal c with
    | some d => if d < radix then fromStrRadixAux radix rest (acc * radix + d)
                else none
    | none => none

def fromStrRadix (s : List Char) (radix : Nat) : Option Nat :=
  if s.isEmpty then none else fromStrRadixAux radix s 0

/-! ### `parse.rs`: static class tables -/

def strL (s : String) : List Char := s.data

/-- `parse::ASCII_CLASSES`. -/
def ASCII_CLASSES : List (List Char × List (Char × Char)) :=
  [ (strL "alnum", [('0', '9'), ('A', 'Z'), ('a', 'z')]),
    (strL "alpha", [('A', 'Z'), ('a', 'z')]),
    (strL "ascii", [('\x00', '\x7F')]),
    (strL "blank", [(' ', ' '), ('\t', '\t')]),
    (strL "cntrl", [('\x00', '\x1F'), ('\x7F', '\x7F')]),
    (strL "digit", [('0', '9')]),
    (strL "graph", [('!', '~')]),
    (strL "lower", [('a', 'z')]),
    (strL "print", [(' ', '~')]),
    (strL "punct", [('!', '/'), (':', '@'), ('[', '`'), ('\x7b', '~')]),
    (strL "space", [('\t', '\t'), ('\n', '\n'), ('\x0B', '\x0B'),
                    ('\x0C', '\x0C'), ('\r', '\r'), (' ', ' ')]),
    (strL "upper", [('A', 'Z')]),
    (strL "word", [('0', '9'), ('A', 'Z'), ('a', 'z'), ('_', '_')]),
    (strL "xdigit", [('0', '9'), ('A', 'F'), ('a', 'f')]) ]

/-- `parse::PERL_CLASSES`. -/
def PERL_CLASSES : List (List Char × List (Char × Char)) :=
  [ (strL "d", [('0', '9')]),
    (strL "s", [('\t', '\t'), ('\n', '\n'), ('\x0C', '\x0C'),
                ('\r', '\r'), (' ', ' ')]),
    (strL "w", [('0', '9'), ('A', 'Z'), ('a', 'z'), ('_', '_')]) ]

/-- Modelled from the spec: the table `unicode::UNICODE_CLASSES` lives in
`src/parse/unicode.rs`, which is not part of the provided sources.  No claim
exercises `\p`-classes, so the missing static table is modelled as empty
(every `\p{Name}` lookup fails). -/
def UNICODE_CLASSES : List (List Char × List (Char × Char)) := []

/-- `parse::find_class`: a binary search over a sorted static table of
distinct names returns exactly the unique matching entry, so a linear
lookup denotes the same function. -/
def find_class (classes : List (List Char × List (Char × Char)))
    (name : List Char) : Option (List (Char × Char)) :=
  (classes.find? (fun e => e.1 = name)).map (·.2)

/-- `Parser::parse_octal`. -/
def Parser.parseOctal (p : Parser) : Except Error (Ast × Parser) := do
  let start := p.chari
  let d2ok := match p.peek 1 with
    | some c => '0' ≤ c && c ≤ '7'
    | none => false
  let d3ok := match p.peek 2 with
    | some c => '0' ≤ c && c ≤ '7'
    | none => false
  let (p, endi) :=
    if d2ok then
      if d3ok then (p.nextChar.nextChar, start + 3) else (p.nextChar, start + 2)
    else (p, start + 1)
  let s := p.slice start endi
  match fromStrRadix s 8 with
  | some n => do
    let c ← p.charFromU32 n
    .ok (Ast.Literal c false, p)
  | none => p.synerr "Could not parse as octal number."

/-- `Parser::parse_hex_digits`. -/
def Parser.parseHexDigits (p : Parser) (s : List Char) :
    Except Error (Ast × Parser) :=
  match fromStrRadix s 16 with
  | some n => do
    let c ← p.charFromU32 n
    .ok (Ast.Literal c false, p)
  | none => p.synerr "Could not parse as hex number."

/-- `Parser::parse_hex_two`. -/
def Parser.parseHexTwo (p : Parser) : Except Error (Ast × Parser) := do
  let (start, endi) := (p.chari, p.chari + 2)
  if endi > p.chars.length then
    p.synerr "Invalid hex escape sequence."
  else
    (p.nextChar).parseHexDigits (p.slice start endi)

/-- `Parser::parse_hex`. -/
def Parser.parseHex (p : Parser) : Except Error (Ast × Parser) := do
  if !p.peekIs 1 '\x7b' then
    p.nextChar.parseHexTwo
  else
    let start := p.chari + 2
    match p.pos '\x7d' with
    | none => p.synerr "Missing closing brace for unclosed brace."
    | some closer =>
      ({ p with chari := closer }).parseHexDigits (p.slice start closer)

/-- `Parser::parse_unicode_name`. -/
def Parser.parseUnicodeName (p : Parser) : Except Error (Ast × Parser) := do
  let negated := p.cur = 'P'
  let (name, p) ← do
    if p.peekIs 1 '\x7b' then
      let p := p.nextChar
      match p.pos '\x7d' with
      | none => p.synerr "Missing closing brace for unclosed brace."
      | some closer =>
        -- The source guards `closer - chari + 1 == 0`, which can never hold
        -- for unsigned arithmetic; it is kept verbatim.
        if closer - p.chari + 1 = 0 then
          p.synerr "No Unicode class name found."
        else
          .ok (p.slice (p.chari + 1) closer, { p with chari := closer })
    else
      if p.chari + 1 ≥ p.chars.length then
        p.synerr "No single letter Unicode class name found."
      else
        .ok (p.slice (p.chari + 1) (p.chari + 2),
             { p with chari := p.chari + 1 })
  match find_class UNICODE_CLASSES name with
  | none => p.synerr "Could not find Unicode class."
  | some ranges =>
    let casei := flagIsSet p.flags FLAG_NOCASE
    .ok (Ast.Cls ranges negated casei, p)

/-- `Parser::parse_escape` (assumes the backslash has been consumed). -/
def Parser.parseEscape (p : Parser) : Except Error (Ast × Parser) := do
  let p := p.nextChar
  let c := p.cur
  if is_punct c then
    .ok (Ast.Literal c false, p)
  else
  match c with
  | 'a' => .ok (Ast.Literal '\x07' false, p)
  | 'f' => .ok (Ast.Literal '\x0C' false, p)
  | 't' => .ok (Ast.Literal '\t' false, p)
  | 'n' => .ok (Ast.Literal '\n' false, p)
  | 'r' => .ok (Ast.Literal '\r' false, p)
  | 'v' => .ok (Ast.Literal '\x0B' false, p)
  | 'A' => .ok (Ast.Begin false, p)
  | 'z' => .ok (Ast.End false, p)
  | 'b' => .ok (Ast.WordBoundary true, p)
  | 'B' => .ok (Ast.WordBoundary false, p)
  | '0' | '1' | '2' | '3' | '4' | '5' | '6' | '7' => p.parseOctal
  | 'x' => p.parseHex
  | 'p' | 'P' => p.parseUnicodeName
  | 'd' | 'D' | 's' | 'S' | 'w' | 'W' =>
    let name := [c.toLower]
    match find_class PERL_CLASSES name with
    | none => p.err .Bug "Could not find Perl class."
    | some ranges =>
      let negated := c.isUpper
      let casei := flagIsSet p.flags FLAG_NOCASE
      .ok (Ast.Cls (combine_ranges ranges) negated casei, p)
  | _ => p.synerr "Invalid escape sequence."

/-- `parse::MAX_REPEAT`. -/
def MAX_REPEAT : Nat := 1000

/-- `Parser::parse_counted` (assumes the opening brace has been consumed). -/
def Parser.parseCounted (p : Parser) : Except Error Parser := do
  let start := p.chari
  match p.pos '\x7d' with
  | none => p.synerr "No closing brace for counted repetition."
  | some closer =>
    let p := { p with chari := closer }
    let (greed, p) := p.getNextGreedy
    let inner := p.slice (start + 1) closer
    let (min, max) ← do
      if !inner.contains ',' then
        let min ← p.parseUIntM inner
        pure (min, some min)
      else
        let smin := inner.takeWhile (· ≠ ',')
        let smax := inner.drop (smin.length + 1)
        if smin.length = 0 then
          p.synerr "Max repetitions cannot be specified without min."
        else
          let min ← p.parseUIntM smin
          let max ← do
            if smax.length = 0 then pure none
            else do
              let m ← p.parseUIntM smax
              pure (some m)
          pure (min, max)
    if min > MAX_REPEAT then
      p.synerr "Exceeds maximum allowed repetitions (min)."
    else if max.isSome ∧ max.getD 0 > MAX_REPEAT then
      p.synerr "Exceeds maximum allowed repetitions (max)."
    else if max.isSome ∧ max.getD 0 < min then
      p.synerr "Max repetitions cannot be smaller than min."
    else if min > 0 ∧ max = none then
      let (ast, p) ← p.popAst
      let p := { p with stack :=
        (BuildAst.Ast (Ast.Rep ast .ZeroMore greed)) ::
          (List.replicate min (BuildAst.Ast ast) ++ p.stack) }
      .ok p
    else
      let (ast, p) ← p.popAst
      let p := { p with stack :=
        (List.replicate min (BuildAst.Ast ast)) ++ p.stack }
      let p :=
        match max with
        | some m =>
          { p with stack :=
            (List.replicate (m - min)
              (BuildAst.Ast (Ast.Rep ast .ZeroOne greed))) ++ p.stack }
        | none => p
      if min = 0 ∧ (max = none ∨ max = some 0) then
        .ok (p.push Ast.Nothing)
      else
        .ok p

instance : Inhabited BuildAst := ⟨.Bar⟩

/-- `Parser::try_parse_ascii`. -/
def Parser.tryParseAscii (p : Parser) : Option (Ast × Parser) := do
  if !p.peekIs 1 ':' then none
  else
  match p.pos ']' with
  | none => none
  | some closer =>
    if p.chars.getD (closer - 1) default ≠ ':' then none
    else if closer - p.chari ≤ 3 then none
    else
      let negated := p.peekIs 2 '^'
      let nameStart := p.chari + 2 + (if negated then 1 else 0)
      let name := p.slice nameStart (closer - 1)
      match find_class ASCII_CLASSES name with
      | none => none
      | some ranges =>
        let casei := flagIsSet p.flags FLAG_NOCASE
        some (Ast.Cls (combine_ranges ranges) negated casei,
              { p with chari := closer })

/-- The scan for leading dashes in `Parser::parse_class`
(`while self.peek_is(1, '-')`), fuelled: the fuel argument only bounds the
recursion and any value at least `chars.length + 1` gives the loop's
behaviour. -/
def Parser.classDashes : Nat → Parser → List (Char × Char) →
    Parser × List (Char × Char)
  | 0, p, ranges => (p, ranges)
  | fuel + 1, p, ranges =>
    if p.peekIs 1 '-' then p.nextChar.classDashes fuel (ranges ++ [('-', '-')])
    else (p, ranges)

/-- The body of the main loop of `Parser::parse_class`, applied to the
current character `c` after the escape / nested-class cases fell through. -/
def Parser.classRangeStep (p : Parser) (c : Char)
    (ranges : List (Char × Char)) :
    Except Error (Parser × List (Char × Char)) :=
  if p.peekIs 1 '-' && !(p.peekIs 2 ']') then
    let p := p.nextChar.nextChar
    let c2 := p.cur
    if c2 < c then p.synerr "Invalid character class range."
    else .ok (p, ranges ++ [(c, p.cur)])
  else .ok (p, ranges ++ [(c, c)])

/-- The main loop of `Parser::parse_class`, fuelled as `classDashes`. -/
def Parser.parseClassLoop (negated : Bool) :
    Nat → Parser → List (Char × Char) → List Ast → Except Error Parser
  | 0, p, _, _ => p.err .Bug "out of fuel"
  | fuel + 1, p, ranges, alts =>
    if p.chari < p.chars.length then
      let c := p.cur
      let nested : Except Error (Option (Parser × List Ast) × Char × Parser) :=
        match c with
        | '[' =>
          match p.tryParseAscii with
          | some (Ast.Cls asciis neg casei, p') =>
            .ok (some (p'.nextChar, alts ++ [Ast.Cls asciis (neg ^^ negated) casei]),
                 c, p)
          | some _ => p.err .Bug "Expected Class AST"
          | none => .ok (none, c, p)
        | '\\' => do
          let (ast, p') ← p.parseEscape
          match ast with
          | Ast.Cls asciis neg casei =>
            .ok (some (p'.nextChar, alts ++ [Ast.Cls asciis (neg ^^ negated) casei]),
                 c, p')
          | Ast.Literal c2 _ => .ok (none, c2, p')
          | Ast.Begin _ => p'.synerr "escape not valid inside character class"
          | Ast.End _ => p'.synerr "escape not valid inside character class"
          | Ast.WordBoundary _ =>
            p'.synerr "escape not valid inside character class"
          | _ => p'.err .Bug "Unexpected AST item"
        | _ => .ok (none, c, p)
      match nested with
      | .error e => .error e
      | .ok (some (p', alts'), _, _) => p'.parseClassLoop negated fuel ranges alts'
      | .ok (none, c, p) =>
        if c = ']' then
          let ast :=
            if ranges.length > 0 then
              Ast.Cls (combine_ranges ranges) negated
                (flagIsSet p.flags FLAG_NOCASE)
            else Ast.Nothing
          let ast := alts.foldl (fun acc alt => Ast.Alt alt acc) ast
          .ok (p.push ast)
        else
          match p.classRangeStep c ranges with
          | .error e => .error e
          | .ok (p, ranges) => p.nextChar.parseClassLoop negated fuel ranges alts
    else p.synerr "Could not find closing bracket for character class."

/-- `Parser::parse_class` (assumes `chari` is at the opening bracket). -/
def Parser.parseClass (p : Parser) : Except Error Parser :=
  let negated := p.peekIs 1 '^'
  let p := if negated then p.nextChar else p
  let (p, ranges) := p.classDashes (p.chars.length + 1) []
  let (p, ranges) :=
    if p.peekIs 1 ']' then (p.nextChar, ranges ++ [(']', ']')])
    else (p, ranges)
  let p := p.nextChar
  p.parseClassLoop negated (p.chars.length + 1) ranges []

/-- `Parser::parse_named_capture`. -/
def Parser.parseNamedCapture (p : Parser) : Except Error Parser := do
  let p := { p with chari := p.chari + 2 }
  match p.pos '>' with
  | none => p.synerr "Capture name must end with a closing angle."
  | some closer =>
    if closer - p.chari = 0 then
      p.synerr "Capture names must have at least 1 character."
    else
      let name := p.slice p.chari closer
      if !name.all is_valid_cap then
        p.synerr "Capture names can only have underscores and alphanumerics."
      else
        .ok { p with
                chari := closer
                caps := p.caps + 1
                stack := (BuildAst.Paren p.flags (p.caps + 1) name) :: p.stack }

/-- The flag-scanning loop of `Parser::parse_group_opts`, fuelled. -/
def Parser.groupOptsLoop :
    Nat → Parser → Nat → Bool → Bool → Except Error Parser
  | 0, p, _, _, _ => p.err .Bug "out of fuel"
  | fuel + 1, p, flags, negSign, sawFlag =>
    if p.chari < p.chars.length then
      match p.cur with
      | 'i' => p.nextChar.groupOptsLoop fuel (flags ||| FLAG_NOCASE) negSign true
      | 'm' => p.nextChar.groupOptsLoop fuel (flags ||| FLAG_MULTI) negSign true
      | 's' => p.nextChar.groupOptsLoop fuel (flags ||| FLAG_DOTNL) negSign true
      | 'U' =>
        p.nextChar.groupOptsLoop fuel (flags ||| FLAG_SWAP_GREED) negSign true
      | '-' =>
        if negSign then p.synerr "Cannot negate flags twice."
        else p.nextChar.groupOptsLoop fuel (flags ^^^ flags) true false
      | ':' =>
        if negSign ∧ !sawFlag then
          p.synerr "A valid flag does not follow negation."
        else
          let flags := if negSign then flags ^^^ flags else flags
          let p := { p with stack := .Paren p.flags 0 [] :: p.stack }
          .ok { p with flags := flags }
      | ')' =>
        if negSign ∧ !sawFlag then
          p.synerr "A valid flag does not follow negation."
        else
          let flags := if negSign then flags ^^^ flags else flags
          .ok { p with flags := flags }
      | _ => p.synerr "Unrecognized flag."
    else p.synerr "Invalid flags."

/-- `Parser::parse_group_opts` (assumes the group's opening `(?` has been
consumed). -/
def Parser.parseGroupOpts (p : Parser) : Except Error Parser :=
  if p.cur = 'P' && p.peekIs 1 '<' then p.parseNamedCapture
  else p.groupOptsLoop (p.chars.length + 1) p.flags false false

/-- `Parser::push_literal`. -/
def Parser.pushLiteral (p : Parser) (c : Char) : Except Error Parser :=
  match c with
  | '.' => .ok (p.push (Ast.Dot (flagIsSet p.flags FLAG_DOTNL)))
  | '^' => .ok (p.push (Ast.Begin (flagIsSet p.flags FLAG_MULTI)))
  | '$' => .ok (p.push (Ast.End (flagIsSet p.flags FLAG_MULTI)))
  | _ => .ok (p.push (Ast.Literal c (flagIsSet p.flags FLAG_NOCASE)))

/-- `Parser::push_repeater`. -/
def Parser.pushRepeater (p : Parser) (c : Char) : Except Error Parser := do
  if p.stack.length = 0 then
    p.synerr "A repeat operator must be preceded by a valid expression."
  else
    let rep ← match c with
      | '?' => .ok Repeater.ZeroOne
      | '*' => .ok Repeater.ZeroMore
      | '+' => .ok Repeater.OneMore
      | _ => p.err .Bug "Not a valid repeater operator."
    match p.peek 1 with
    | some '*' => p.synerr "Double repeat operators are not supported."
    | some '+' => p.synerr "Double repeat operators are not supported."
    | _ => do
      let (ast, p) ← p.popAst
      let (greed, p) := p.getNextGreedy
      .ok (p.push (Ast.Rep ast rep greed))

/-- The `')'` arm of the main parser loop. -/
def Parser.closeParen (p : Parser) : Except Error Parser := do
  let catfrom ← p.posLast false (fun x => x.isParen || x.isBar)
  let p ← p.concat catfrom
  let altfrom ← p.posLast false BuildAst.isParen
  -- Bottom index `altfrom - 1` is top index `stack.length - altfrom`.
  let paren := p.stack.getD (p.stack.length - altfrom) default
  let cap := paren.capture
  let capName := paren.captureName
  let oldflags := paren.parenFlags
  let p ← p.alternate altfrom
  let p := { p with flags := oldflags }
  match cap with
  | some c => do
    let (ast, p) ← p.popAst
    .ok (p.push (Ast.Capture c capName ast))
  | none => .ok p

/-- The `'|'` arm of the main parser loop. -/
def Parser.pushBar (p : Parser) : Except Error Parser := do
  let catfrom ← p.posLast true (fun x => x.isParen || x.isBar)
  let p ← p.concat catfrom
  .ok { p with stack := .Bar :: p.stack }

/-- The main loop of `Parser::parse`, fuelled: fuel at least
`chars.length + 1 - chari` reproduces the source loop, which advances
`chari` by at least one per iteration. -/
def Parser.parseLoop : Nat → Parser → Except Error Parser
  | 0, p => p.err .Bug "out of fuel"
  | fuel + 1, p =>
    if p.chari < p.chars.length then
      let step : Except Error Parser :=
        match p.cur with
        | '?' => p.pushRepeater p.cur
        | '*' => p.pushRepeater p.cur
        | '+' => p.pushRepeater p.cur
        | '\\' => do
          let (ast, p') ← p.parseEscape
          .ok (p'.push ast)
        | '\x7b' => p.parseCounted
        | '[' =>
          match p.tryParseAscii with
          | none => p.parseClass
          | some (cls, p') => .ok (p'.push cls)
        | '(' =>
          if p.peekIs 1 '?' then p.nextChar.nextChar.parseGroupOpts
          else .ok { p with
                       caps := p.caps + 1
                       stack := (BuildAst.Paren p.flags (p.caps + 1) []) :: p.stack }
        | ')' => p.closeParen
        | '|' => p.pushBar
        | c => p.pushLiteral c
      match step with
      | .error e => .error e
      | .ok p' => p'.nextChar.parseLoop fuel
    else .ok p

/-- The epilogue of `Parser::parse` (after the loop has consumed the whole
pattern). -/
def Parser.parseFinish (p : Parser) : Except Error Ast := do
  if p.stack.any BuildAst.isParen then
    p.synerr "Unclosed parenthesis."
  else
    let catfrom ← p.posLast true BuildAst.isBar
    let p ← p.concat catfrom
    let p ← p.alternate 0
    let (ast, _) ← p.popAst
    .ok ast

/-- `parse::parse`. -/
def parse (s : List Char) : Except Error Ast := do
  let p : Parser :=
    { chars := s, chari := 0, stack := [], flags := FLAG_EMPTY, caps := 0 }
  let p ← p.parseLoop (s.length + 1)
  p.parseFinish

/-! ### `compile.rs`

The provided `parse.rs` stores flags as separate `bool`s on each AST node
while `compile.rs`/`vm.rs` exchange a `Flags` bitset; the compiler below
bridges the two: each node's `bool`s become the corresponding bit of §`Flag`
(`multi ↦ FLAG_MULTI`, `casei ↦ FLAG_NOCASE`, `dotnl ↦ FLAG_DOTNL`,
`negated ↦ FLAG_NEGATED`; a `WordBoundary` node's `true` means a real
boundary, i.e. the `NEGATED` bit clear).  `parse.rs`'s `Cat` is binary where
`compile.rs` iterates a list; compiling the two children in order is the same
instruction sequence. -/

/-- `compile::Inst`.  `MaybeStatic` range storage is just a list here. -/
inductive Inst where
  | Match
  | OneChar (c : Char) (flags : Nat)
  | CharClass (ranges : List (Char × Char)) (flags : Nat)
  | Any (flags : Nat)
  | EmptyBegin (flags : Nat)
  | EmptyEnd (flags : Nat)
  | EmptyWordBoundary (flags : Nat)
  | Save (slot : Nat)
  | Jump (target : Nat)
  | Split (x y : Nat)
deriving DecidableEq

def boolFlag (b : Bool) (f : Nat) : Nat := if b then f else 0

/-- `compile::Compiler`. -/
structure Compiler where
  insts : List Inst
  names : List (Option (List Char))
deriving DecidableEq

/-- `Compiler::push`. -/
def Compiler.push (c : Compiler) (x : Inst) : Compiler :=
  { c with insts := c.insts ++ [x] }

/-- `Compiler::empty_split`: push `Split(0,0)` and return its index. -/
def Compiler.emptySplit (c : Compiler) : Compiler × Nat :=
  (c.push (Inst.Split 0 0), c.insts.length)

/-- `Compiler::set_split`.  Patching a non-`Split` is the source's
`fail!("BUG: Invalid split index.")`; it leaves the program unchanged here
and is proved unreachable where it matters. -/
def Compiler.setSplit (c : Compiler) (i pc1 pc2 : Nat) : Compiler :=
  match c.insts.getD i Inst.Match with
  | Inst.Split _ _ => { c with insts := c.insts.set i (Inst.Split pc1 pc2) }
  | _ => c

/-- `Compiler::empty_jump`. -/
def Compiler.emptyJump (c : Compiler) : Compiler × Nat :=
  (c.push (Inst.Jump 0), c.insts.length)

/-- `Compiler::set_jump`. -/
def Compiler.setJump (c : Compiler) (i pc : Nat) : Compiler :=
  match c.insts.getD i Inst.Match with
  | Inst.Jump _ => { c with insts := c.insts.set i (Inst.Jump pc) }
  | _ => c

/-- `Compiler::compile`. -/
def Compiler.compile (c : Compiler) : Ast → Compiler
  | .Nothing => c
  | .Literal cc casei => c.push (Inst.OneChar cc (boolFlag casei FLAG_NOCASE))
  | .Dot nl => c.push (Inst.Any (boolFlag nl FLAG_DOTNL))
  | .Cls ranges neg casei =>
    c.push (Inst.CharClass ranges
      (boolFlag neg FLAG_NEGATED ||| boolFlag casei FLAG_NOCASE))
  | .Begin multi => c.push (Inst.EmptyBegin (boolFlag multi FLAG_MULTI))
  | .End multi => c.push (Inst.EmptyEnd (boolFlag multi FLAG_MULTI))
  | .WordBoundary isb =>
    c.push (Inst.EmptyWordBoundary (boolFlag (!isb) FLAG_NEGATED))
  | .Capture cap name x =>
    let len := c.names.length
    let names :=
      if cap ≥ len then c.names ++ List.replicate (10 + cap - len) none
      else c.names
    let names := names.set cap name
    let c := { c with names := names }
    let c := c.push (Inst.Save (2 * cap))
    let c := c.compile x
    c.push (Inst.Save (2 * cap + 1))
  | .Cat x y => (c.compile x).compile y
  | .Alt x y =>
    let (c, split) := c.emptySplit
    let j1 := c.insts.length
    let c := c.compile x
    let (c, jmp) := c.emptyJump
    let j2 := c.insts.length
    let c := c.compile y
    let j3 := c.insts.length
    let c := c.setSplit split j1 j2
    c.setJump jmp j3
  | .Rep x .ZeroOne g =>
    let (c, split) := c.emptySplit
    let j1 := c.insts.length
    let c := c.compile x
    let j2 := c.insts.length
    if g.is_greedy then c.setSplit split j1 j2
    else c.setSplit split j2 j1
  | .Rep x .ZeroMore g =>
    let j1 := c.insts.length
    let (c, split) := c.emptySplit
    let j2 := c.insts.length
    let c := c.compile x
    let (c, jmp) := c.emptyJump
    let j3 := c.insts.length
    let c := c.setJump jmp j1
    if g.is_greedy then c.setSplit split j2 j3
    else c.setSplit split j3 j2
  | .Rep x .OneMore g =>
    let j1 := c.insts.length
    let c := c.compile x
    let (c, split) := c.emptySplit
    let j2 := c.insts.length
    if g.is_greedy then c.setSplit split j1 j2
    else c.setSplit split j2 j1

/-- `compile::Program` (the unused `regex` copy of the pattern is elided). -/
structure Program where
  insts : List Inst
  names : List (Option (List Char))
  prefixLit : List Char
deriving DecidableEq

/-- The literal-prefix scan in `Program::new`: walk from instruction 1 and
collect characters while the instruction is `OneChar` with empty flags. -/
def prefixScan : List Inst → List Char
  | Inst.OneChar c 0 :: rest => c :: prefixScan rest
  | _ => []

/-- `Program::new`. -/
def Program.new (ast : Ast) : Program :=
  let c : Compiler := { insts := [], names := [] }
  let c := c.push (Inst.Save 0)
  let c := c.compile ast
  let c := c.push (Inst.Save 1)
  let c := c.push Inst.Match
  { insts := c.insts, names := c.names, prefixLit := prefixScan (c.insts.drop 1) }

/-- `Program::num_captures`. -/
def Program.num_captures (p : Program) : Nat :=
  (p.insts.foldl (fun n inst =>
    match inst with
    | Inst.Save c => max n (c + 1)
    | _ => n) 0) / 2

/-! ### `vm.rs` -/

/-- `vm::MatchKind`. -/
inductive MatchKind where
  | Exists | Location | Submatches
deriving DecidableEq

/-- `vm::CharReader` (the borrowed input string is passed to `set` and
`advance` explicitly). -/
structure CharReader where
  prev : Option Char
  cur : Option Char
  next : Nat
deriving DecidableEq

/-- `CharReader::set`: position the reader at byte offset `ic`; returns the
new reader and the returned next-position. -/
def charsSet (input : List Char) (ic : Nat) : CharReader × Nat :=
  if byteLen input = 0 then ({ prev := none, cur := none, next := 0 }, 1)
  else
    let prev := if ic > 0 then charBeforeB input (min ic (byteLen input))
                else none
    if ic < byteLen input then
      match charAtB input ic with
      | some (c, nxt) => ({ prev := prev, cur := some c, next := nxt }, nxt)
      | none =>
        -- `ic` inside a codepoint: the source would decode garbage here; the
        -- engine only ever supplies boundary offsets.
        ({ prev := prev, cur := none, next := 0 }, byteLen input + 1)
    else ({ prev := prev, cur := none, next := 0 }, byteLen input + 1)

/-- `CharReader::advance`. -/
def charsAdvance (input : List Char) (cr : CharReader) : CharReader × Nat :=
  let prev := cr.cur
  if cr.next < byteLen input then
    match charAtB input cr.next with
    | some (c, nxt) => ({ prev := prev, cur := some c, next := nxt }, nxt)
    | none =>
      ({ prev := prev, cur := none, next := byteLen input + 1 },
       byteLen input + 1)
  else
    ({ prev := prev, cur := none, next := byteLen input + 1 },
     byteLen input + 1)

/-- `vm::Thread`. -/
structure Thread where
  pc : Nat
  groups : List (Option Nat)
deriving DecidableEq

instance : Inhabited Thread := ⟨⟨0, []⟩⟩

/-- `vm::Threads`: the sparse-set thread queue. -/
structure Threads where
  which : MatchKind
  queue : List Thread
  sparse : List Nat
  size : Nat
deriving DecidableEq

/-- `Threads::new`. -/
def Threads.new (which : MatchKind) (numInsts numCaps : Nat) : Threads :=
  { which := which
    queue := List.replicate numInsts ⟨0, List.replicate (numCaps * 2) none⟩
    sparse := List.replicate numInsts 0
    size := 0 }

/-- `Threads::add`.  The queue slot at index `size` is reused: its stale
capture groups are kept except for the slots the match kind copies.  The
source indexes `queue[size]` unconditionally; `size < queue.len()` always
holds (the sparse set never holds duplicates), so the guard below never
fires on reachable states. -/
def Threads.add (t : Threads) (pc : Nat) (groups : List (Option Nat))
    (empty : Bool) : Threads :=
  if t.size < t.queue.length then
    let old := t.queue.getD t.size default
    let g :=
      match empty, t.which with
      | _, .Exists => old.groups
      | true, _ => old.groups
      | false, .Location =>
        (old.groups.set 0 (groups.getD 0 none)).set 1 (groups.getD 1 none)
      | false, .Submatches => groups
    { t with
        queue := t.queue.set t.size ⟨pc, g⟩
        sparse := t.sparse.set pc t.size
        size := t.size + 1 }
  else t

/-- `Threads::contains`. -/
def Threads.contains (t : Threads) (pc : Nat) : Bool :=
  let s := t.sparse.getD pc 0
  s < t.size && (t.queue.getD s default).pc == pc

/-- `Threads::empty`. -/
def Threads.empty (t : Threads) : Threads := { t with size := 0 }

/-- `Threads::pc`. -/
def Threads.pcAt (t : Threads) (i : Nat) : Nat := (t.queue.getD i default).pc

/-- `Threads::groups`. -/
def Threads.groupsAt (t : Threads) (i : Nat) : List (Option Nat) :=
  (t.queue.getD i default).groups

/-- `vm::StepState`. -/
inductive StepState where
  | StepMatchEarlyReturn | StepMatch | StepContinue
deriving DecidableEq

/-- `Nfa::is_word`. -/
def is_word (oc : Option Char) : Bool :=
  match oc with
  | none => false
  | some c =>
    c = '_' || ('0' ≤ c && c ≤ '9') || ('a' ≤ c && c ≤ 'z') ||
    ('A' ≤ c && c ≤ 'Z')

/-- `Nfa::char_eq`.  `Char.toUpper` models the simple uppercase mapping the
source uses (`char::to_uppercase`); no claim depends on folding outside
ASCII. -/
def char_eq (casei : Bool) (textc : Option Char) (regc : Char) : Bool :=
  match textc with
  | none => false
  | some t => regc = t || (casei && regc.toUpper = t.toUpper)

/-- `Nfa::char_is`. -/
def char_is (textc : Option Char) (regc : Char) : Bool :=
  textc = some regc

/-- `vm::class_cmp`. -/
def class_cmp (casei : Bool) (textc : Char) (rc : Char × Char) : Ordering :=
  let (textc, start, stop) :=
    if casei then (textc.toUpper, rc.1.toUpper, rc.2.toUpper)
    else (textc, rc.1, rc.2)
  if start ≤ textc ∧ textc ≤ stop then .eq
  else if start > textc then .gt
  else .lt

/-- Rust `slice::bsearch` with a three-way comparator. -/
def bsearchAux [Inhabited α] (l : List α) (f : α → Ordering) :
    Nat → Nat → Option Nat
  | lo, hi =>
    if h : lo < hi then
      let mid := (lo + hi) / 2
      match f (l.getD mid default) with
      | .eq => some mid
      | .lt => bsearchAux l f (mid + 1) hi
      | .gt => bsearchAux l f lo mid
    else none
termination_by lo hi => hi - lo
decreasing_by
  · omega
  · omega

def bsearch [Inhabited α] (l : List α) (f : α → Ordering) : Option Nat :=
  bsearchAux l f 0 l.length

/-- `vm::find_prefix` (renamed for Lean lexical reasons): first occurrence
of `needle` in `haystack`, byte-wise. -/
def findPrefixPos (needle haystack : List Nat) : Option Nat :=
  if needle.length > haystack.length || needle.length = 0 then none
  else go 0
where
  go (hayi : Nat) : Option Nat :=
    if hayi > haystack.length - needle.length then none
    else if needle.isPrefixOf (haystack.drop hayi) then some hayi
    else go (hayi + 1)
  termination_by haystack.length + 1 - hayi

/-- The borrowed fields of `vm::Nfa` (the mutable `ic` and `chars` are
threaded through the loop state instead). -/
structure Nfa where
  which : MatchKind
  insts : List Inst
  prefixLit : List Char
  input : List Char
  start : Nat
  endP : Nat
deriving DecidableEq

/-- `Nfa::is_begin`. -/
def isBegin (chars : CharReader) : Bool := chars.prev = none

/-- `Nfa::is_end`. -/
def isEnd (chars : CharReader) : Bool := chars.cur = none

/-- `Nfa::is_word_boundary`. -/
def is_word_boundary (chars : CharReader) : Bool :=
  if isBegin chars then is_word chars.cur
  else if isEnd chars then is_word chars.prev
  else
    (is_word chars.cur && !is_word chars.prev) ||
    (is_word chars.prev && !is_word chars.cur)

/-- `Nfa::add`, fuelled.  The recursion always inserts `pc` into the sparse
set before recursing, so its depth is bounded by the number of free queue
slots; any fuel of at least `queue.length + 1` computes the source's
epsilon closure (`nfaAddF_fuel` below).  A `Save` restores the overwritten
slot after recursing in the source, which is exactly passing the updated
group list only to the recursive call here. -/
def nfaAddF (n : Nfa) (chars : CharReader) (ic : Nat) :
    Nat → Threads → Nat → List (Option Nat) → Threads
  | 0, nlist, _, _ => nlist
  | fuel + 1, nlist, pc, groups =>
    if nlist.contains pc then nlist
    else
      match n.insts.getD pc Inst.Match with
      | Inst.EmptyBegin flags =>
        let multi := flags &&& FLAG_MULTI > 0
        let nlist := nlist.add pc groups true
        if isBegin chars || (multi && char_is chars.prev '\n') then
          nfaAddF n chars ic fuel nlist (pc + 1) groups
        else nlist
      | Inst.EmptyEnd flags =>
        let multi := flags &&& FLAG_MULTI > 0
        let nlist := nlist.add pc groups true
        if isEnd chars || (multi && char_is chars.cur '\n') then
          nfaAddF n chars ic fuel nlist (pc + 1) groups
        else nlist
      | Inst.EmptyWordBoundary flags =>
        let nlist := nlist.add pc groups true
        if is_word_boundary chars = !(flags &&& FLAG_NEGATED > 0) then
          nfaAddF n chars ic fuel nlist (pc + 1) groups
        else nlist
      | Inst.Save slot =>
        let nlist := nlist.add pc groups true
        match n.which with
        | .Location =>
          if slot ≤ 1 then
            nfaAddF n chars ic fuel nlist (pc + 1) (groups.set slot (some ic))
          else
            nfaAddF n chars ic fuel nlist (pc + 1) groups
        | .Submatches =>
          nfaAddF n chars ic fuel nlist (pc + 1) (groups.set slot (some ic))
        | .Exists =>
          nfaAddF n chars ic fuel nlist (pc + 1) groups
      | Inst.Jump target =>
        let nlist := nlist.add pc groups true
        nfaAddF n chars ic fuel nlist target groups
      | Inst.Split x y =>
        let nlist := nlist.add pc groups true
        let nlist := nfaAddF n chars ic fuel nlist x groups
        nfaAddF n chars ic fuel nlist y groups
      | _ =>
        -- `Match | OneChar | CharClass | Any`: a real consuming thread.
        nlist.add pc groups false

/-- `Nfa::add`. -/
def Nfa.add (n : Nfa) (chars : CharReader) (ic : Nat) (nlist : Threads)
    (pc : Nat) (groups : List (Option Nat)) : Threads :=
  nfaAddF n chars ic (nlist.queue.length + 1) nlist pc groups

/-- `Nfa::step`. -/
def Nfa.step (n : Nfa) (chars : CharReader) (ic : Nat)
    (groups : List (Option Nat)) (nlist : Threads)
    (caps : List (Option Nat)) (pc : Nat) :
    StepState × List (Option Nat) × Threads :=
  match n.insts.getD pc Inst.Match with
  | Inst.Match =>
    match n.which with
    | .Exists => (.StepMatchEarlyReturn, groups, nlist)
    | .Location =>
      (.StepMatch,
       (groups.set 0 (caps.getD 0 none)).set 1 (caps.getD 1 none), nlist)
    | .Submatches => (.StepMatch, caps, nlist)
  | Inst.OneChar c flags =>
    if char_eq (flags &&& FLAG_NOCASE > 0) chars.prev c then
      (.StepContinue, groups, n.add chars ic nlist (pc + 1) caps)
    else (.StepContinue, groups, nlist)
  | Inst.CharClass ranges flags =>
    match chars.prev with
    | some c =>
      let negate := flags &&& FLAG_NEGATED > 0
      let casei := flags &&& FLAG_NOCASE > 0
      let found := (bsearch ranges (class_cmp casei c)).isSome
      if (found && !negate) || (!found && negate) then
        (.StepContinue, groups, n.add chars ic nlist (pc + 1) caps)
      else (.StepContinue, groups, nlist)
    | none => (.StepContinue, groups, nlist)
  | Inst.Any flags =>
    if flags &&& FLAG_DOTNL > 0 || !char_eq false chars.prev '\n' then
      (.StepContinue, groups, n.add chars ic nlist (pc + 1) caps)
    else (.StepContinue, groups, nlist)
  | _ => (.StepContinue, groups, nlist)

/-- The inner thread loop of `Nfa::run` (`while i < clist.size`).  Returns
`(early, clist, nlist, groups, matched)` where `early` signals
`StepMatchEarlyReturn`. -/
def stepAll (n : Nfa) (chars : CharReader) (ic : Nat) :
    Nat → Threads → Threads → List (Option Nat) → Bool →
    Bool × Threads × Threads × List (Option Nat) × Bool
  | i, clist, nlist, groups, matched =>
    if h : i < clist.size then
      let pc := clist.pcAt i
      let caps := clist.groupsAt i
      let (ss, groups, nlist) := n.step chars ic groups nlist caps pc
      match ss with
      | .StepMatchEarlyReturn => (true, clist, nlist, groups, matched)
      | .StepMatch => stepAll n chars ic (i + 1) clist.empty nlist groups true
      | .StepContinue => stepAll n chars ic (i + 1) clist nlist groups matched
    else (false, clist, nlist, groups, matched)
termination_by i clist => clist.size - i
decreasing_by
  · simp [Threads.empty]; omega
  · omega

/-- `startAddCond c a m` is the test guarding the addition of the start
state at pc 0 in `Nfa::run`: `clist.size == 0 || (!prefix_anchor &&
!matched)`. -/
def startAddCond (size : Nat) (anchor matched : Bool) : Bool :=
  size == 0 || (!anchor && !matched)

/-- The `prefix_anchor` computation of `Nfa::run`: `insts[1]` is an
`EmptyBegin` whose flags exclude `MULTI`. -/
def prefixAnchor (insts : List Inst) : Bool :=
  match insts.getD 1 Inst.Match with
  | Inst.EmptyBegin flags => flags &&& FLAG_MULTI == 0
  | _ => false

/-- The loop state of `Nfa::run`. -/
structure RunSt where
  clist : Threads
  nlist : Threads
  groups : List (Option Nat)
  matched : Bool
  ic : Nat
  nextIc : Nat
  chars : CharReader
deriving DecidableEq

/-- The tail of `Nfa::run` after the loop. -/
def runFinish (which : MatchKind) (matched : Bool)
    (groups : List (Option Nat)) : List (Option Nat) :=
  match which with
  | .Exists => if matched then [some 0, some 0] else [none, none]
  | _ => groups

/-- The main loop of `Nfa::run`.  In every reachable state the byte index
strictly increases per iteration (`set`/`advance` return an offset past the
current one), which the final guard makes structural; its `else` branch is
unreachable. -/
def runLoop (n : Nfa) (st : RunSt) : List (Option Nat) :=
  if st.ic ≤ n.endP then
    if st.clist.size = 0 ∧ st.matched then runFinish n.which st.matched st.groups
    else
      let pfx : Option (Nat × Nat × CharReader) :=
        if st.clist.size = 0 ∧ n.prefixLit.length > 0 then
          match findPrefixPos (allBytes n.prefixLit) (bytesFrom n.input st.ic) with
          | none => none
          | some i =>
            let ic := st.ic + i
            let (chars, nIc) := charsSet n.input ic
            some (ic, nIc, chars)
        else some (st.ic, st.nextIc, st.chars)
      match pfx with
      | none => runFinish n.which st.matched st.groups
      | some (ic0, nextIc0, chars0) =>
        let clist :=
          if startAddCond st.clist.size (prefixAnchor n.insts) st.matched then
            n.add chars0 ic0 st.clist 0 st.groups
          else st.clist
        let ic1 := nextIc0
        let (chars1, nextIc1) := charsAdvance n.input chars0
        let (early, clist1, nlist1, groups1, matched1) :=
          stepAll n chars1 ic1 0 clist st.nlist st.groups st.matched
        if early then [some 0, some 0]
        else
          let st' : RunSt :=
            { clist := nlist1, nlist := clist1.empty, groups := groups1
              matched := matched1, ic := ic1, nextIc := nextIc1
              chars := chars1 }
          if h : st.ic < ic1 then runLoop n st'
          else runFinish n.which matched1 groups1
  else runFinish n.which st.matched st.groups
termination_by n.endP + 1 - st.ic
decreasing_by omega

def matchKindCaps (which : MatchKind) (prog : Program) : Nat :=
  match which with
  | .Exists => 0
  | .Location => 1
  | .Submatches => prog.num_captures

/-- `Nfa::run`. -/
def nfaRun (which : MatchKind) (prog : Program) (input : List Char)
    (start endp : Nat) : List (Option Nat) :=
  let numCaps := matchKindCaps which prog
  let n : Nfa :=
    { which := which, insts := prog.insts, prefixLit := prog.prefixLit
      input := input, start := start, endP := endp }
  let clist := Threads.new which prog.insts.length numCaps
  let nlist := Threads.new which prog.insts.length numCaps
  let groups := List.replicate (numCaps * 2) none
  let (chars, nextIc) := charsSet input start
  runLoop n
    { clist := clist, nlist := nlist, groups := groups, matched := false
      ic := start, nextIc := nextIc, chars := chars }

/-- `vm::unflatten_capture_locations`: `none` models the `fail!` on a pair
that is not both-`Some` / both-`None` (and on a trailing odd slot, where the
source would index past the chunk). -/
def unflatten_capture_locations :
    List (Option Nat) → Option (List (Option (Nat × Nat)))
  | [] => some []
  | some s :: some e :: rest =>
    (unflatten_capture_locations rest).map (some (s, e) :: ·)
  | none :: none :: rest =>
    (unflatten_capture_locations rest).map (none :: ·)
  | _ => none

/-- `vm::run`. -/
def vmRun (which : MatchKind) (prog : Program) (input : List Char)
    (start endp : Nat) : Option (List (Option (Nat × Nat))) :=
  unflatten_capture_locations (nfaRun which prog input start endp)

/-! ### `re.rs`

The surface layer.  In this source snapshot `re.rs` consumes the flat
capture locations (`CaptureLocs`) that `Nfa::run` produces, so the functions
below are built on `nfaRun`; `unflatten_capture_locations` is the separate
pairing step of `vm::run`.  Only the dynamic (`Dynamic(Program)`) arm of
`MaybeNative` exists here, and the unused `original` pattern copy is
elided. -/

/-- `re::quote`. -/
def quote : List Char → List Char
  | [] => []
  | c :: rest => (if is_punct c then ['\\', c] else [c]) ++ quote rest

/-- `re::Regexp` (named `Regex` in Lean to avoid clashing with this
namespace). -/
structure Regex where
  names : List (Option (List Char))
  prog : Program
deriving DecidableEq

/-- `Regexp::new`. -/
def Regex.new (re : List Char) : Except Error Regex := do
  let ast ← parse re
  let prog := Program.new ast
  .ok { names := prog.names, prog := prog }

/-- `re::exec_slice`. -/
def Regex.execSlice (re : Regex) (which : MatchKind) (input : List Char)
    (s e : Nat) : List (Option Nat) :=
  nfaRun which re.prog input s e

/-- `re::exec`. -/
def Regex.exec (re : Regex) (which : MatchKind) (input : List Char) :
    List (Option Nat) :=
  re.execSlice which input 0 (byteLen input)

/-- `re::has_match`. -/
def has_match (caps : List (Option Nat)) : Bool :=
  caps.length ≥ 2 && (caps.getD 0 none).isSome && (caps.getD 1 none).isSome

/-- `Regexp::is_match`. -/
def Regex.is_match (re : Regex) (text : List Char) : Bool :=
  has_match (re.exec .Exists text)

/-- `Regexp::find`. -/
def Regex.find (re : Regex) (text : List Char) : Option (Nat × Nat) :=
  let caps := re.exec .Location text
  if has_match caps then
    some ((caps.getD 0 none).getD 0, (caps.getD 1 none).getD 0)
  else none

/-- `re::FindMatches`. -/
structure FindMatches where
  re : Regex
  search : List Char
  last_match : Option Nat
  last_end : Nat
deriving DecidableEq

/-- `Regexp::find_iter`. -/
def Regex.find_iter (re : Regex) (text : List Char) : FindMatches :=
  { re := re, search := text, last_match := none, last_end := 0 }

/-- `FindMatches::next`.  The mutated iterator is returned alongside the
yielded item. -/
def FindMatches.next (f : FindMatches) : Option (Nat × Nat) × FindMatches :=
  if f.last_end > byteLen f.search then (none, f)
  else
    let caps := f.re.execSlice .Location f.search f.last_end (byteLen f.search)
    if has_match caps then
      let s := (caps.getD 0 none).getD 0
      let e := (caps.getD 1 none).getD 0
      if e - s = 0 ∧ some f.last_end = f.last_match then
        FindMatches.next { f with last_end := f.last_end + 1 }
      else
        ((some (s, e)), { f with last_end := e, last_match := some e })
    else (none, f)
termination_by byteLen f.search + 1 - f.last_end
decreasing_by omega

/-- `re::RegexpSplits`. -/
structure RegexpSplits where
  finder : FindMatches
  last : Nat
deriving DecidableEq

/-- `Regexp::split`. -/
def Regex.split (re : Regex) (text : List Char) : RegexpSplits :=
  { finder := re.find_iter text, last := 0 }

/-- `RegexpSplits::next`. -/
def RegexpSplits.next (s : RegexpSplits) :
    Option (List Char) × RegexpSplits :=
  let text := s.finder.search
  let (r, finder) := s.finder.next
  let s := { s with finder := finder }
  match r with
  | none =>
    if s.last ≥ byteLen text then (none, s)
    else
      ((some (byteSlice text s.last (byteLen text))),
       { s with last := byteLen text })
  | some (st, e) =>
    ((some (byteSlice text s.last st)), { s with last := e })

/-- `re::RegexpSplitsN`. -/
structure RegexpSplitsN where
  splits : RegexpSplits
  cur : Nat
  limit : Nat
deriving DecidableEq

/-- `Regexp::splitn`. -/
def Regex.splitn (re : Regex) (text : List Char) (limit : Nat) :
    RegexpSplitsN :=
  { splits := re.split text, cur := 0, limit := limit }

/-- `RegexpSplitsN::next`. -/
def RegexpSplitsN.next (sn : RegexpSplitsN) :
    Option (List Char) × RegexpSplitsN :=
  let text := sn.splits.finder.search
  if sn.cur ≥ sn.limit then (none, sn)
  else
    let sn := { sn with cur := sn.cur + 1 }
    if sn.cur ≥ sn.limit then
      ((some (byteSlice text sn.splits.last (byteLen text))), sn)
    else
      let (r, splits) := sn.splits.next
      (r, { sn with splits := splits })

/-- Run `RegexpSplitsN::next` `k` times, collecting the yielded items. -/
def splitsNIter (sn : RegexpSplitsN) :
    Nat → List (Option (List Char)) × RegexpSplitsN
  | 0 => ([], sn)
  | k + 1 =>
    let (r, sn') := sn.next
    let (rs, sn'') := splitsNIter sn' k
    (r :: rs, sn'')

/-- `re::Captures` (the named-group hash map is not needed by any claim and
is elided). -/
structure Captures where
  text : List Char
  locs : List (Option Nat)
deriving DecidableEq

/-- `Captures::pos`.  After the guard, both slots are `Some` whenever the VM
invariant holds; `getD 0` stands for the source's `unwrap`. -/
def Captures.pos (c : Captures) (i : Nat) : Option (Nat × Nat) :=
  let s := i * 2
  let e := i * 2 + 1
  if e ≥ c.locs.length ∨ (c.locs.getD s none) = none then none
  else some ((c.locs.getD s none).getD 0, (c.locs.getD e none).getD 0)

/-- `Captures::at` (named `atStr`: `at` is a Lean keyword). -/
def Captures.atStr (c : Captures) (i : Nat) : List Char :=
  match c.pos i with
  | none => []
  | some (s, e) => byteSlice c.text s e

/-- `Captures::len` (the `Container` impl). -/
def Captures.len (c : Captures) : Nat := c.locs.length / 2

/-! ### Verification-side definitions

Predicates and reference functions used to state and prove the claims; they
are not part of the embedded program. -/

/-- The sparse-set invariant of a `Threads` queue: the two arrays have the
same length, `size` slots of the dense queue are populated, and every
populated slot holds a valid pc whose sparse entry points back at it (which
makes `contains` exact and the populated pcs pairwise distinct). -/
def ThreadsWF (t : Threads) : Prop :=
  t.sparse.length = t.queue.length ∧
  t.size ≤ t.queue.length ∧
  ∀ i, i < t.size →
    (t.queue.getD i default).pc < t.queue.length ∧
    t.sparse.getD ((t.queue.getD i default).pc) 0 = i

/-- Instruction `pc` of `insts` has valid control-flow targets: `Jump` and
`Split` point below `len(insts)`, and the non-consuming instructions that
fall through (`Empty*`, `Save`) have a following instruction (in compiled
programs `Match` is last, so this always holds). -/
def instTargetsOk (insts : List Inst) (pc : Nat) : Bool :=
  match insts.getD pc Inst.Match with
  | .Jump t => t < insts.length
  | .Split x y => decide (x < insts.length) && decide (y < insts.length)
  | .EmptyBegin _ => pc + 1 < insts.length
  | .EmptyEnd _ => pc + 1 < insts.length
  | .EmptyWordBoundary _ => pc + 1 < insts.length
  | .Save _ => pc + 1 < insts.length
  | _ => true

def validTargets (insts : List Inst) : Prop :=
  ∀ pc, pc < insts.length → instTargetsOk insts pc = true

instance (t : Threads) : Decidable (ThreadsWF t) := by
  unfold ThreadsWF; infer_instance

instance (insts : List Inst) : Decidable (validTargets insts) := by
  unfold validTargets; infer_instance

/-- The populated program counters of a thread queue, in queue order. -/
def densePcs (t : Threads) : List Nat :=
  (t.queue.take t.size).map Thread.pc

/-- The parser result is a `BadSyntax` error. -/
def isBadSyn : Except Error Parser → Bool
  | .error e => e.kind = .BadSyn
  | .ok _ => false

/-- The text between the braces of a counted repetition `{n}`, `{n,}` or
`{n,m}`; the second component encodes which of the three forms is used. -/
def innerOf (n : Nat) (form : Option (Option Nat)) : List Char :=
  natChars n ++ (match form with
    | none => []
    | some none => [',']
    | some (some m) => ',' :: natChars m)

/-- The bounds conditions under which the claim expects `parse_counted` to
reject the repetition. -/
def badBounds (n : Nat) (form : Option (Option Nat)) : Prop :=
  MAX_REPEAT < n ∨ (match form with
    | some (some m) => MAX_REPEAT < m ∨ m < n
    | _ => False)

/-- The number of instructions `Compiler::compile` emits for an AST. -/
def bLen : Ast → Nat
  | .Nothing => 0
  | .Literal _ _ => 1
  | .Dot _ => 1
  | .Cls _ _ _ => 1
  | .Begin _ => 1
  | .End _ => 1
  | .WordBoundary _ => 1
  | .Capture _ _ x => bLen x + 2
  | .Cat x y => bLen x + bLen y
  | .Alt x y => bLen x + bLen y + 2
  | .Rep x .ZeroOne _ => bLen x + 1
  | .Rep x .ZeroMore _ => bLen x + 2
  | .Rep x .OneMore _ => bLen x + 1

/-- The instruction block `Compiler::compile` emits for an AST when the
block starts at absolute position `L` (all `Jump`/`Split` targets are
absolute), with the back-patched targets written out. -/
def emit : Ast → Nat → List Inst
  | .Nothing, _ => []
  | .Literal c casei, _ => [Inst.OneChar c (boolFlag casei FLAG_NOCASE)]
  | .Dot nl, _ => [Inst.Any (boolFlag nl FLAG_DOTNL)]
  | .Cls r neg casei, _ =>
    [Inst.CharClass r (boolFlag neg FLAG_NEGATED ||| boolFlag casei FLAG_NOCASE)]
  | .Begin m, _ => [Inst.EmptyBegin (boolFlag m FLAG_MULTI)]
  | .End m, _ => [Inst.EmptyEnd (boolFlag m FLAG_MULTI)]
  | .WordBoundary isb, _ =>
    [Inst.EmptyWordBoundary (boolFlag (!isb) FLAG_NEGATED)]
  | .Capture k _ x, L =>
    Inst.Save (2 * k) :: (emit x (L + 1) ++ [Inst.Save (2 * k + 1)])
  | .Cat x y, L => emit x L ++ emit y (L + bLen x)
  | .Alt x y, L =>
    Inst.Split (L + 1) (L + 2 + bLen x) ::
      (emit x (L + 1) ++
        (Inst.Jump (L + 2 + bLen x + bLen y) :: emit y (L + 2 + bLen x)))
  | .Rep x .ZeroOne g, L =>
    (if g.is_greedy then Inst.Split (L + 1) (L + 1 + bLen x)
     else Inst.Split (L + 1 + bLen x) (L + 1)) :: emit x (L + 1)
  | .Rep x .ZeroMore g, L =>
    (if g.is_greedy then Inst.Split (L + 1) (L + 2 + bLen x)
     else Inst.Split (L + 2 + bLen x) (L + 1)) ::
      (emit x (L + 1) ++ [Inst.Jump L])
  | .Rep x .OneMore g, L =>
    emit x L ++
      [if g.is_greedy then Inst.Split L (L + 1 + bLen x)
       else Inst.Split (L + 1 + bLen x) L]

/-- The open-capture annotation of the block `emit x _`, one `Finset` per
emitted instruction: the set of capture groups whose opening `Save(2k)`
dominates the instruction while the closing `Save(2k+1)` is still ahead.
`o` is the ambient open set of the enclosing context. -/
def annots : Ast → Finset Nat → List (Finset Nat)
  | .Nothing, _ => []
  | .Literal _ _, o => [o]
  | .Dot _, o => [o]
  | .Cls _ _ _, o => [o]
  | .Begin _, o => [o]
  | .End _, o => [o]
  | .WordBoundary _, o => [o]
  | .Capture k _ x, o => o :: (annots x (insert k o) ++ [insert k o])
  | .Cat x y, o => annots x o ++ annots y o
  | .Alt x y, o => o :: (annots x o ++ (o :: annots y o))
  | .Rep x .ZeroOne _, o => o :: annots x o
  | .Rep x .ZeroMore _, o => o :: (annots x o ++ [o])
  | .Rep x .OneMore _, o => annots x o ++ [o]

def annAt (ann : List (Finset Nat)) (pc : Nat) : Finset Nat := ann.getD pc ∅

/-- The local verification condition tying the annotation to the control
edges of one instruction: every control successor carries the open set the
instruction hands over (a `Save(2k)` inserts `k`, a `Save(2k+1)` removes a
`k` that must be open, and `Match` requires everything closed). -/
def instEdgeOk (ann : List (Finset Nat)) (len pc : Nat) : Inst → Prop
  | .Match => annAt ann pc = ∅
  | .OneChar _ _ => pc + 1 < len ∧ annAt ann (pc + 1) = annAt ann pc
  | .CharClass _ _ => pc + 1 < len ∧ annAt ann (pc + 1) = annAt ann pc
  | .Any _ => pc + 1 < len ∧ annAt ann (pc + 1) = annAt ann pc
  | .EmptyBegin _ => pc + 1 < len ∧ annAt ann (pc + 1) = annAt ann pc
  | .EmptyEnd _ => pc + 1 < len ∧ annAt ann (pc + 1) = annAt ann pc
  | .EmptyWordBoundary _ => pc + 1 < len ∧ annAt ann (pc + 1) = annAt ann pc
  | .Save s =>
    pc + 1 < len ∧
      (if s % 2 = 0 then annAt ann (pc + 1) = insert (s / 2) (annAt ann pc)
       else (s / 2) ∈ annAt ann pc ∧
         annAt ann (pc + 1) = (annAt ann pc).erase (s / 2))
  | .Jump t => t < len ∧ annAt ann t = annAt ann pc
  | .Split a b =>
    a < len ∧ b < len ∧ annAt ann a = annAt ann pc ∧ annAt ann b = annAt ann pc

def EdgeOk (insts : List Inst) (ann : List (Finset Nat)) (pc : Nat) : Prop :=
  instEdgeOk ann insts.length pc (insts.getD pc Inst.Match)

def OkAnnot (insts : List Inst) (ann : List (Finset Nat)) : Prop :=
  ann.length = insts.length ∧ ∀ pc, pc < insts.length → EdgeOk insts ann pc

/-- Balance of a capture array relative to an open set: open groups have
their start slot filled; groups not open have both slots filled or neither. -/
def Bal (o : Finset Nat) (g : List (Option Nat)) : Prop :=
  ∀ k, 2 * k + 1 < g.length →
    (k ∈ o → (g.getD (2 * k) none).isSome) ∧
    (k ∉ o → ((g.getD (2 * k) none).isSome ↔ (g.getD (2 * k + 1) none).isSome))

/-- Both slots of every pair are filled or neither is. -/
def Paired (g : List (Option Nat)) : Prop :=
  ∀ k, 2 * k + 1 < g.length →
    ((g.getD (2 * k) none).isSome ↔ (g.getD (2 * k + 1) none).isSome)

/-- The instructions stored in the queue with a capture snapshot (the
`Match | OneChar | CharClass | Any` arm of `Nfa::add`). -/
def isSnapshot : Inst → Bool
  | .Match => true
  | .OneChar _ _ => true
  | .CharClass _ _ => true
  | .Any _ => true
  | _ => false

def snapshotInst (insts : List Inst) (pc : Nat) : Bool :=
  isSnapshot (insts.getD pc Inst.Match)

/-- The queue invariant for claim C1: the populated prefix fits the queue,
every queue slot's capture array has the fixed length `glen`, and every
populated snapshot-carrying thread is balanced at its pc's annotation. -/
def QBal (insts : List Inst) (ann : List (Finset Nat)) (glen : Nat)
    (t : Threads) : Prop :=
  t.size ≤ t.queue.length ∧
  (∀ i, i < t.queue.length → (t.queue.getD i default).groups.length = glen) ∧
  (∀ i, i < t.size →
    snapshotInst insts ((t.queue.getD i default).pc) = true →
    Bal (annAt ann ((t.queue.getD i default).pc))
      ((t.queue.getD i default).groups))

/-- Capture indices are distinct along every nesting chain (parser-produced
ASTs satisfy this: a nested group always gets a strictly larger index).
`anc` is the chain of indices of enclosing groups. -/
def wfCapsB : Ast → List Nat → Bool
  | .Capture k _ x, anc => !anc.contains k && wfCapsB x (k :: anc)
  | .Cat x y, anc => wfCapsB x anc && wfCapsB y anc
  | .Alt x y, anc => wfCapsB x anc && wfCapsB y anc
  | .Rep x _ _, anc => wfCapsB x anc
  | _, _ => true

/-- The annotation of the whole program `Program.new` builds: the body block
sits at positions `1 .. 1 + bLen ast`, bracketed by `Save 0` (opens group 0),
`Save 1` (closes it) and `Match`. -/
def progAnn (ast : Ast) : List (Finset Nat) :=
  ∅ :: (annots ast {0} ++ [{0}, ∅])

/-- Every set capture offset is at least `s` (used for claim C6: the VM only
records byte offsets at or after the search start). -/
def GrpGE (s : Nat) (g : List (Option Nat)) : Prop :=
  ∀ k v, g.getD k none = some v → s ≤ v

/-- Every capture array in the queue satisfies `GrpGE s`. -/
def QGE (s : Nat) (t : Threads) : Prop :=
  ∀ i, i < t.queue.length → GrpGE s (t.queue.getD i default).groups

/-! ### Fuelled evaluators

The loops of `Nfa::run` and `FindMatches::next` are defined above by
well-founded recursion, which the kernel cannot reduce on concrete inputs.
The fuelled copies below recurse structurally on an explicit fuel argument
and agree with the loop definitions whenever the fuel exceeds the loop
measure (proved below), so concrete runs can be computed by `decide`. -/

/-- Fuelled copy of `stepAll`. -/
def stepAllF (n : Nfa) (chars : CharReader) (ic : Nat) :
    Nat → Nat → Threads → Threads → List (Option Nat) → Bool →
    Bool × Threads × Threads × List (Option Nat) × Bool
  | 0, _, clist, nlist, groups, matched => (false, clist, nlist, groups, matched)
  | fuel + 1, i, clist, nlist, groups, matched =>
    if i < clist.size then
      let pc := clist.pcAt i
      let caps := clist.groupsAt i
      let (ss, groups, nlist) := n.step chars ic groups nlist caps pc
      match ss with
      | .StepMatchEarlyReturn => (true, clist, nlist, groups, matched)
      | .StepMatch => stepAllF n chars ic fuel (i + 1) clist.empty nlist groups true
      | .StepContinue => stepAllF n chars ic fuel (i + 1) clist nlist groups matched
    else (false, clist, nlist, groups, matched)

/-- Fuelled copy of `runLoop`. -/
def runLoopF (n : Nfa) : Nat → RunSt → List (Option Nat)
  | 0, st => runFinish n.which st.matched st.groups
  | fuel + 1, st =>
    if st.ic ≤ n.endP then
      if st.clist.size = 0 ∧ st.matched then runFinish n.which st.matched st.groups
      else
        let pfx : Option (Nat × Nat × CharReader) :=
          if st.clist.size = 0 ∧ n.prefixLit.length > 0 then
            match findPrefixPos (allBytes n.prefixLit) (bytesFrom n.input st.ic) with
            | none => none
            | some i =>
              let ic := st.ic + i
              let (chars, nIc) := charsSet n.input ic
              some (ic, nIc, chars)
          else some (st.ic, st.nextIc, st.chars)
        match pfx with
        | none => runFinish n.which st.matched st.groups
        | some (ic0, nextIc0, chars0) =>
          let clist :=
            if startAddCond st.clist.size (prefixAnchor n.insts) st.matched then
              n.add chars0 ic0 st.clist 0 st.groups
            else st.clist
          let ic1 := nextIc0
          let (chars1, nextIc1) := charsAdvance n.input chars0
          let (early, clist1, nlist1, groups1, matched1) :=
            stepAllF n chars1 ic1 (clist.size + 1) 0 clist st.nlist st.groups st.matched
          if early then [some 0, some 0]
          else
            let st' : RunSt :=
              { clist := nlist1, nlist := clist1.empty, groups := groups1
                matched := matched1, ic := ic1, nextIc := nextIc1
                chars := chars1 }
            if st.ic < ic1 then runLoopF n fuel st'
            else runFinish n.which matched1 groups1
    else runFinish n.which st.matched st.groups

/-- Fuelled copy of `nfaRun`: the fuel `endp + 2` always exceeds the loop
measure, so this copy agrees with `nfaRun` unconditionally. -/
def nfaRunF (which : MatchKind) (prog : Program) (input : List Char)
    (start endp : Nat) : List (Option Nat) :=
  let numCaps := matchKindCaps which prog
  let n : Nfa :=
    { which := which, insts := prog.insts, prefixLit := prog.prefixLit
      input := input, start := start, endP := endp }
  let clist := Threads.new which prog.insts.length numCaps
  let nlist := Threads.new which prog.insts.length numCaps
  let groups := List.replicate (numCaps * 2) none
  let (chars, nextIc) := charsSet input start
  runLoopF n (endp + 2)
    { clist := clist, nlist := nlist, groups := groups, matched := false
      ic := start, nextIc := nextIc, chars := chars }

/-- Fuelled copy of `FindMatches.next`. -/
def fmNextF : Nat → FindMatches → Option (Nat × Nat) × FindMatches
  | 0, f => (none, f)
  | fuel + 1, f =>
    if f.last_end > byteLen f.search then (none, f)
    else
      let caps := nfaRunF .Location f.re.prog f.search f.last_end (byteLen f.search)
      if has_match caps then
        let s := (caps.getD 0 none).getD 0
        let e := (caps.getD 1 none).getD 0
        if e - s = 0 ∧ some f.last_end = f.last_match then
          fmNextF fuel { f with last_end := f.last_end + 1 }
        else
          ((some (s, e)), { f with last_end := e, last_match := some e })
      else (none, f)

/-- A concrete `a*` matcher used to exercise the iterator lemmas. -/
def progStar : Program :=
  Program.new (Ast.Rep (Ast.Literal 'a' false) Repeater.ZeroMore Greed.Greedy)

/-- The `a*` matcher as a `Regexp` value. -/
def reStar : Regex := { names := progStar.names, prog := progStar }

/-- `reStar.find_iter` over the text `ab`. -/
def fmStar0 : FindMatches := Regex.find_iter reStar ['a', 'b']

/-- The iterator state after the first yield of `fmStar0`. -/
def fmStar1 : FindMatches := { fmStar0 with last_end := 1, last_match := some 1 }

/-- The iterator state after the second yield of `fmStar0`. -/
def fmStar2 : FindMatches := { fmStar0 with last_end := 2, last_match := some 2 }

/-- The work stack produced by parsing an escaped literal string: one
`Ast.Literal c false` entry per character, most recent on top. -/
def litStack : List Char → List BuildAst → List BuildAst
  | [], st => st
  | c :: rest, st => litStack rest (BuildAst.Ast (Ast.Literal c false) :: st)

/-- The right-nested concatenation of case-sensitive literals that `parse`
produces for a quoted (escaped) string. -/
def litCat : List Char → Ast
  | [] => Ast.Nothing
  | [c] => Ast.Literal c false
  | c :: rest => Ast.Cat (Ast.Literal c false) (litCat rest)

/-- The instruction list compiled from `litCat S`. -/
def litInsts (S : List Char) : List Inst :=
  Inst.Save 0 :: (S.map (fun c => Inst.OneChar c 0) ++ [Inst.Save 1, Inst.Match])

/-- Shape invariant on a thread queue: the right match kind, a queue array
of the full program length, an in-bounds size, and every queue slot holding
a group array of length `glen`. -/
def LiveOk (numI glen : Nat) (w : MatchKind) (t : Threads) : Prop :=
  t.which = w ∧ t.queue.length = numI ∧ t.size ≤ numI ∧
  ∀ i, i < numI → ((t.queue.getD i default).groups).length = glen

/-! ### Theorems -/

/-- C2, counterexample: on the class `[a-be-fc-d]` the parser's
`combine_ranges` merges `c-d` into `a-b` (the first overlapping entry) but
never revisits `e-f`, leaving the abutting ranges `(a,d)` and `(e,f)`: the
adjacent-pair condition `lo[i+1] > hi[i]+1` fails since `e = d + 1`. -/
theorem claim_C2_counterexample :
    parse (strL "[a-be-fc-d]") =
      .ok (Ast.Cls [('a', 'd'), ('e', 'f')] false false) ∧
    combine_ranges [('a', 'b'), ('e', 'f'), ('c', 'd')] =
      [('a', 'd'), ('e', 'f')] ∧
    ¬ (('e' : Char).val > ('d' : Char).val + 1) := by
  refine ⟨by rfl, by rfl, by decide⟩

/-- C2, amended: the range list `combine_ranges` produces for a parsed class
is sorted ascending by lower bound, but adjacent output ranges may still
overlap or abut — each incoming range is merged with only the first
previously collected range it overlaps or abuts. -/
theorem claim_C2 (unordered : List (Char × Char)) :
    List.Pairwise (fun a b : Char × Char => a.1 ≤ b.1)
      (combine_ranges unordered) := by
  have hs : List.Sorted pairLe (combine_ranges unordered) :=
    List.sorted_insertionSort pairLe _
  exact hs.imp (fun h => by
    rcases h with h | ⟨h, _⟩
    · exact le_of_lt h
    · exact le_of_eq h)

/-- C5: the code reduces `a{0,}` to `Nothing`, dropping the repeated
subexpression entirely, where the desugaring rule (`e{n,}` is `n` copies
followed by `e*`) requires `Rep(Literal a, ZeroMore, Greedy)`.  The guard
`min > 0 && max.is_none()` in `parse_counted` routes `min = 0, max = None`
into the branch that pushes a bare `Nothing`. -/
theorem claim_C5_code_bug :
    parse (strL "a\x7b0,\x7d") = .ok Ast.Nothing ∧
    Ast.Nothing ≠ Ast.Rep (Ast.Literal 'a' false) .ZeroMore .Greedy := by
  refine ⟨by rfl, by decide⟩

/-- C9: for a `Captures` record and any out-of-range group index
(`i` at least the number of groups, which is `locs.length / 2`), `pos`
returns `none` and `at` returns the empty string. -/
theorem claim_C9 (c : Captures) (i : Nat) (h : c.len ≤ i) :
    c.pos i = none ∧ c.atStr i = [] := by
  have he : i * 2 + 1 ≥ c.locs.length := by
    have : c.locs.length / 2 ≤ i := h
    omega
  have hp : c.pos i = none := by
    unfold Captures.pos
    exact if_pos (Or.inl he)
  refine ⟨hp, ?_⟩
  unfold Captures.atStr
  rw [hp]

/-- Witness for C9 at a concrete two-slot record and index 1. -/
theorem claim_C9_witness :
    (Captures.mk (strL "ab") [some 0, some 1]).len ≤ 1 ∧
    ((Captures.mk (strL "ab") [some 0, some 1]).pos 1 = none ∧
     (Captures.mk (strL "ab") [some 0, some 1]).atStr 1 = []) :=
  ⟨by decide, claim_C9 (Captures.mk (strL "ab") [some 0, some 1]) 1 (by decide)⟩

/-- C4: `prefixAnchor` (the VM's `prefix_anchor`) holds exactly when
`insts[1]` is an `EmptyBegin` whose flags exclude `MULTI`, and
`startAddCond` (the guard under which `Nfa::run` adds the start state at
pc 0 to `current`) holds exactly when the current queue is empty or the
program is not `^`-anchored and no match has been recorded. -/
theorem claim_C4 :
    (∀ insts : List Inst,
      (prefixAnchor insts = true ↔
        ∃ flags, insts.getD 1 Inst.Match = Inst.EmptyBegin flags ∧
          flags &&& FLAG_MULTI = 0)) ∧
    (∀ (size : Nat) (anchor matched : Bool),
      (startAddCond size anchor matched = true ↔
        (size = 0 ∨ (anchor = false ∧ matched = false)))) := by
  constructor
  · intro insts
    unfold prefixAnchor
    cases h : insts.getD 1 Inst.Match <;> simp_all
  · intro size anchor matched
    unfold startAddCond
    cases anchor <;> cases matched <;> simp [Nat.beq_eq_true_eq]

theorem fmNext_state (f : FindMatches) :
    (f.next).2.search = f.search ∧ (f.next).2.re = f.re := by
  unfold FindMatches.next
  split
  · exact ⟨rfl, rfl⟩
  · dsimp only
    split
    · split
      · exact fmNext_state _
      · exact ⟨rfl, rfl⟩
    · exact ⟨rfl, rfl⟩
termination_by byteLen f.search + 1 - f.last_end
decreasing_by omega

theorem splitsNext_search (s : RegexpSplits) :
    (s.next).2.finder.search = s.finder.search := by
  have h := (fmNext_state s.finder).1
  unfold RegexpSplits.next
  rcases hn : s.finder.next with ⟨r, finder⟩
  rw [hn] at h
  simp only at h
  cases r
  · dsimp only
    split
    · simpa using h
    · simpa using h
  · simpa using h

theorem snNext_stuck (sn : RegexpSplitsN) (h : sn.cur ≥ sn.limit) :
    sn.next = (none, sn) := by
  unfold RegexpSplitsN.next
  exact if_pos h

theorem splitsNIter_succ (sn : RegexpSplitsN) (k : Nat) :
    splitsNIter sn (k + 1) =
      ((sn.next).1 :: (splitsNIter (sn.next).2 k).1,
       (splitsNIter (sn.next).2 k).2) := by
  simp only [splitsNIter]

theorem snNext_state (sn : RegexpSplitsN) (hc : sn.cur < sn.limit) :
    (sn.next).2.limit = sn.limit ∧
    (sn.next).2.splits.finder.search = sn.splits.finder.search ∧
    (sn.next).2.cur = sn.cur + 1 := by
  unfold RegexpSplitsN.next
  rw [if_neg (by omega)]
  dsimp only
  by_cases h2 : sn.cur + 1 ≥ sn.limit
  · rw [if_pos h2]
    exact ⟨rfl, rfl, rfl⟩
  · rw [if_neg h2]
    rcases hs : ({ sn with cur := sn.cur + 1 } : RegexpSplitsN).splits.next
      with ⟨r, splits⟩
    have hss := splitsNext_search
      ({ sn with cur := sn.cur + 1 } : RegexpSplitsN).splits
    rw [hs] at hss
    simp only at hss
    simp [hss]

theorem splitsNIter_state (k : Nat) (sn : RegexpSplitsN) :
    (splitsNIter sn k).2.limit = sn.limit ∧
    (splitsNIter sn k).2.splits.finder.search = sn.splits.finder.search ∧
    (sn.cur ≤ sn.limit →
      (splitsNIter sn k).2.cur = min (sn.cur + k) sn.limit) := by
  induction k generalizing sn with
  | zero =>
    refine ⟨rfl, rfl, fun h => ?_⟩
    show sn.cur = min (sn.cur + 0) sn.limit
    omega
  | succ k ih =>
    rw [splitsNIter_succ]
    by_cases hc : sn.cur ≥ sn.limit
    · rw [snNext_stuck sn hc]
      obtain ⟨h1, h2, h3⟩ := ih sn
      refine ⟨h1, h2, fun hle => ?_⟩
      have hq : sn.cur = sn.limit := le_antisymm hle hc
      rw [h3 hle]
      omega
    · push_neg at hc
      have hnext := snNext_state sn hc
      obtain ⟨h1, h2, h3⟩ := ih (sn.next).2
      refine ⟨h1.trans hnext.1, h2.trans hnext.2.1, fun hle => ?_⟩
      rw [h3 (by omega), hnext.2.2, hnext.1]
      omega

/-- C10: `splitn` with limit `0` never yields anything, and for a positive
limit `L` the `L`-th call of the iterator yields exactly the unsplit
remainder of the text (the slice from the iterator's split position to the
end of the text). -/
theorem claim_C10 (re : Regex) (text : List Char) :
    (∀ k, ((splitsNIter (re.splitn text 0) k).1).all (fun o => o.isNone)) ∧
    (∀ L, 0 < L →
      ((splitsNIter (re.splitn text L) (L - 1)).2.next).1 =
        some (byteSlice text
          ((splitsNIter (re.splitn text L) (L - 1)).2.splits.last)
          (byteLen text))) := by
  constructor
  · intro k
    have stuck : ∀ (sn : RegexpSplitsN), sn.cur ≥ sn.limit →
        ∀ j, ((splitsNIter sn j).1).all (fun o => o.isNone) := by
      intro sn hge j
      induction j generalizing sn with
      | zero => simp [splitsNIter]
      | succ j ih =>
        show (((sn.next).1 :: (splitsNIter (sn.next).2 j).1).all _) = true
        rw [snNext_stuck sn hge]
        simp only [List.all_cons]
        exact (by simp : (Option.isNone (α := List Char) none) = true) ▸
          (by simpa using ih sn hge)
    exact stuck (re.splitn text 0) (le_refl 0) k
  · intro L hL
    obtain ⟨h1, h2, h3⟩ := splitsNIter_state (L - 1) (re.splitn text L)
    have hlim : (re.splitn text L).limit = L := rfl
    have hcur : (re.splitn text L).cur = 0 := rfl
    have hsearch : (re.splitn text L).splits.finder.search = text := rfl
    set snB := (splitsNIter (re.splitn text L) (L - 1)).2 with hsnB
    have hbl : snB.limit = L := by rw [h1, hlim]
    have hbs : snB.splits.finder.search = text := by rw [h2, hsearch]
    have hbc : snB.cur = L - 1 := by
      rw [h3 (by rw [hcur, hlim]; omega), hcur, hlim]; omega
    unfold RegexpSplitsN.next
    rw [if_neg (by omega), hbs]
    have hge : snB.cur + 1 ≥ snB.limit := by omega
    simp [hge]

/-- Witness for C10 with limit 1 on a two-byte text: the first call yields
the whole text. -/
theorem claim_C10_witness :
    (0 : Nat) < 1 ∧
    ((splitsNIter ((Regex.mk [] (Program.mk [] [] [])).splitn (strL "ab") 1)
        (1 - 1)).2.next).1 =
      some (byteSlice (strL "ab")
        ((splitsNIter ((Regex.mk [] (Program.mk [] [] [])).splitn (strL "ab") 1)
          (1 - 1)).2.splits.last) (byteLen (strL "ab"))) :=
  ⟨by decide, (claim_C10 (Regex.mk [] (Program.mk [] [] [])) (strL "ab")).2 1
    (by decide)⟩

theorem getD_set_self {α : Type _} (l : List α) (i : Nat) (a d : α)
    (h : i < l.length) : (l.set i a).getD i d = a := by
  induction l generalizing i with
  | nil => simp at h
  | cons x xs ih =>
    cases i with
    | zero => rfl
    | succ n =>
      show (xs.set n a).getD n d = a
      exact ih n (by simpa using h)

theorem getD_set_ne {α : Type _} (l : List α) {i j : Nat} (a d : α)
    (h : i ≠ j) : (l.set i a).getD j d = l.getD j d := by
  induction l generalizing i j with
  | nil => simp
  | cons x xs ih =>
    cases i with
    | zero =>
      cases j with
      | zero => exact absurd rfl h
      | succ m => rfl
    | succ n =>
      cases j with
      | zero => rfl
      | succ m =>
        show (xs.set n a).getD m d = xs.getD m d
        exact ih (fun he => h (by rw [he]))

theorem contains_iff (t : Threads) (hwf : ThreadsWF t) (pc : Nat) :
    t.contains pc = true ↔
      ∃ i, i < t.size ∧ (t.queue.getD i default).pc = pc := by
  obtain ⟨hsl, hsz, hq⟩ := hwf
  unfold Threads.contains
  constructor
  · intro h
    rw [Bool.and_eq_true, decide_eq_true_eq, beq_iff_eq] at h
    exact ⟨t.sparse.getD pc 0, h.1, h.2⟩
  · rintro ⟨i, hi, hpc⟩
    have := (hq i hi).2
    rw [hpc] at this
    rw [Bool.and_eq_true, decide_eq_true_eq, beq_iff_eq, this]
    exact ⟨hi, hpc⟩

theorem wf_size_lt (t : Threads) (hwf : ThreadsWF t) (pc : Nat)
    (hpc : pc < t.queue.length) (hnc : t.contains pc = false) :
    t.size < t.queue.length := by
  obtain ⟨hsl, hsz, hq⟩ := hwf
  rcases Nat.lt_or_ge t.size t.queue.length with h | h
  · exact h
  · exfalso
    have hfull : t.size = t.queue.length := le_antisymm hsz h
    -- With a full queue of pairwise-distinct valid pcs, every valid pc is
    -- present, contradicting `contains pc = false`.
    let f : Fin t.size → Fin t.queue.length := fun i =>
      ⟨(t.queue.getD i default).pc, (hq i i.2).1⟩
    have hinj : Function.Injective f := by
      intro i j hij
      have hi := (hq i i.2).2
      have hj := (hq j j.2).2
      apply Fin.ext
      have hpceq : (t.queue.getD i default).pc = (t.queue.getD j default).pc :=
        congrArg Fin.val hij
      rw [hpceq] at hi
      rw [hi] at hj
      exact hj
    have hsurj : Function.Surjective f :=
      (Finite.injective_iff_surjective_of_equiv (finCongr hfull)).1 hinj
    obtain ⟨i, hfi⟩ := hsurj ⟨pc, hpc⟩
    have : t.contains pc = true :=
      (contains_iff t ⟨hsl, hsz, hq⟩ pc).2
        ⟨i, i.2, congrArg Fin.val hfi⟩
    rw [this] at hnc
    exact Bool.noConfusion hnc

theorem threadsAdd_wf (t : Threads) (hwf : ThreadsWF t) (pc : Nat)
    (hpc : pc < t.queue.length) (hnc : t.contains pc = false)
    (groups : List (Option Nat)) (empty : Bool) :
    ThreadsWF (t.add pc groups empty) ∧
    (t.add pc groups empty).queue.length = t.queue.length ∧
    (t.add pc groups empty).size = t.size + 1 := by
  have hlt : t.size < t.queue.length := wf_size_lt t hwf pc hpc hnc
  obtain ⟨hsl, hsz, hq⟩ := hwf
  unfold ThreadsWF Threads.add
  rw [if_pos hlt]
  dsimp only
  simp only [List.length_set]
  refine ⟨⟨hsl, by omega, ?_⟩, by trivial, by trivial⟩
  intro i hi
  rcases Nat.lt_or_ge i t.size with hlt' | hge
  · -- an old slot: untouched by the two `set`s
    have hne : t.size ≠ i := by omega
    have hqi := getD_set_ne t.queue (Thread.mk pc
      (match empty, t.which with
        | _, .Exists => (t.queue.getD t.size default).groups
        | true, _ => (t.queue.getD t.size default).groups
        | false, .Location =>
          (((t.queue.getD t.size default).groups.set 0
            (groups.getD 0 none)).set 1 (groups.getD 1 none))
        | false, .Submatches => groups)) default hne
    rw [hqi]
    obtain ⟨h1, h2⟩ := hq i hlt'
    refine ⟨h1, ?_⟩
    have hnepc : pc ≠ (t.queue.getD i default).pc := by
      intro he
      have : t.contains pc = true :=
        (contains_iff t ⟨hsl, hsz, hq⟩ pc).2 ⟨i, hlt', he.symm⟩
      rw [this] at hnc
      exact Bool.noConfusion hnc
    rw [getD_set_ne t.sparse t.size 0 hnepc, h2]
  · -- the new slot `i = size`
    have hieq : i = t.size := by omega
    subst hieq
    rw [getD_set_self t.queue t.size _ _ hlt]
    exact ⟨hpc, getD_set_self t.sparse pc t.size 0 (by omega)⟩

theorem nfaAddF_size (n : Nfa) (chars : CharReader) (ic : Nat) :
    ∀ (fuel : Nat) (nlist : Threads) (pc : Nat) (groups : List (Option Nat)),
      nlist.size ≤ (nfaAddF n chars ic fuel nlist pc groups).size ∧
      (nfaAddF n chars ic fuel nlist pc groups).queue.length =
        nlist.queue.length := by
  have hadd : ∀ (t : Threads) (pc : Nat) (groups : List (Option Nat))
      (empty : Bool), t.size ≤ (t.add pc groups empty).size ∧
      (t.add pc groups empty).queue.length = t.queue.length := by
    intro t pc groups empty
    unfold Threads.add
    split
    · simp only [List.length_set]
      exact ⟨by omega, by trivial⟩
    · exact ⟨le_refl _, rfl⟩
  intro fuel
  induction fuel with
  | zero => intro nlist pc groups; exact ⟨le_refl _, rfl⟩
  | succ fuel ih =>
    intro nlist pc groups
    rw [nfaAddF]
    by_cases hc : nlist.contains pc
    · rw [if_pos hc]
      exact ⟨le_refl _, rfl⟩
    · rw [if_neg hc]
      have comb : ∀ (t : Threads) (p q : Nat) (g g' : List (Option Nat)),
          t.size ≤ (nfaAddF n chars ic fuel (t.add p g true) q g').size ∧
          (nfaAddF n chars ic fuel (t.add p g true) q g').queue.length =
            t.queue.length := by
        intro t p q g g'
        obtain ⟨h1, h2⟩ := hadd t p g true
        obtain ⟨h3, h4⟩ := ih (t.add p g true) q g'
        exact ⟨h1.trans h3, h4.trans h2⟩
      cases hinst : n.insts.getD pc Inst.Match
      · exact hadd nlist pc groups false
      · exact hadd nlist pc groups false
      · exact hadd nlist pc groups false
      · exact hadd nlist pc groups false
      · dsimp only
        split
        · exact comb nlist pc (pc + 1) groups groups
        · exact hadd nlist pc groups true
      · dsimp only
        split
        · exact comb nlist pc (pc + 1) groups groups
        · exact hadd nlist pc groups true
      · dsimp only
        split
        · exact comb nlist pc (pc + 1) groups groups
        · exact hadd nlist pc groups true
      · next slot =>
        dsimp only
        cases n.which
        · exact comb nlist pc (pc + 1) groups groups
        · dsimp only
          split
          · exact comb nlist pc (pc + 1) groups (groups.set slot (some ic))
          · exact comb nlist pc (pc + 1) groups groups
        · exact comb nlist pc (pc + 1) groups (groups.set slot (some ic))
      · next target => exact comb nlist pc target groups groups
      · next x y =>
        dsimp only
        obtain ⟨h1, h2⟩ := comb nlist pc x groups groups
        obtain ⟨h3, h4⟩ := ih
          (nfaAddF n chars ic fuel (nlist.add pc groups true) x groups) y groups
        exact ⟨h1.trans h3, h4.trans h2⟩

theorem threadsAdd_full (t : Threads) (pc : Nat) (groups : List (Option Nat))
    (empty : Bool) (h : t.queue.length ≤ t.size) :
    t.add pc groups empty = t := by
  unfold Threads.add
  rw [if_neg (by omega)]

theorem threadsAdd_size_lt (t : Threads) (pc : Nat)
    (groups : List (Option Nat)) (empty : Bool) (h : t.size < t.queue.length) :
    (t.add pc groups empty).size = t.size + 1 ∧
    (t.add pc groups empty).queue.length = t.queue.length := by
  unfold Threads.add
  rw [if_pos h]
  simp [List.length_set]

theorem nfaAddF_full (n : Nfa) (chars : CharReader) (ic : Nat) :
    ∀ (fuel : Nat) (t : Threads) (pc : Nat) (groups : List (Option Nat)),
      t.queue.length ≤ t.size → nfaAddF n chars ic fuel t pc groups = t := by
  intro fuel
  induction fuel with
  | zero => intro t pc groups h; rfl
  | succ fuel ih =>
    intro t pc groups h
    rw [nfaAddF]
    by_cases hc : t.contains pc
    · rw [if_pos hc]
    · rw [if_neg hc]
      cases hinst : n.insts.getD pc Inst.Match
      · exact threadsAdd_full t pc groups false h
      · exact threadsAdd_full t pc groups false h
      · exact threadsAdd_full t pc groups false h
      · exact threadsAdd_full t pc groups false h
      · dsimp only
        rw [threadsAdd_full t pc groups true h]
        split
        · exact ih t (pc + 1) groups h
        · rfl
      · dsimp only
        rw [threadsAdd_full t pc groups true h]
        split
        · exact ih t (pc + 1) groups h
        · rfl
      · dsimp only
        rw [threadsAdd_full t pc groups true h]
        split
        · exact ih t (pc + 1) groups h
        · rfl
      · next slot =>
        dsimp only
        rw [threadsAdd_full t pc groups true h]
        cases n.which
        · exact ih t (pc + 1) groups h
        · dsimp only
          split
          · exact ih t (pc + 1) (groups.set slot (some ic)) h
          · exact ih t (pc + 1) groups h
        · exact ih t (pc + 1) (groups.set slot (some ic)) h
      · next target =>
        dsimp only
        rw [threadsAdd_full t pc groups true h]
        exact ih t target groups h
      · next x y =>
        dsimp only
        rw [threadsAdd_full t pc groups true h]
        rw [ih t x groups h]
        exact ih t y groups h

theorem nfaAddF_fuel_succ (n : Nfa) (chars : CharReader) (ic : Nat) :
    ∀ (fuel : Nat) (nlist : Threads) (pc : Nat) (groups : List (Option Nat)),
      nlist.queue.length + 1 - nlist.size ≤ fuel →
      nfaAddF n chars ic (fuel + 1) nlist pc groups =
        nfaAddF n chars ic fuel nlist pc groups := by
  intro fuel
  induction fuel with
  | zero =>
    intro nlist pc groups h
    have hfull : nlist.queue.length ≤ nlist.size := by omega
    rw [nfaAddF_full n chars ic 1 nlist pc groups hfull,
        nfaAddF_full n chars ic 0 nlist pc groups hfull]
  | succ fuel ih =>
    intro nlist pc groups h
    by_cases hfull : nlist.queue.length ≤ nlist.size
    · rw [nfaAddF_full n chars ic (fuel + 2) nlist pc groups hfull,
          nfaAddF_full n chars ic (fuel + 1) nlist pc groups hfull]
    · push_neg at hfull
      have hstep : ∀ (q : Nat) (g' : List (Option Nat)),
          nfaAddF n chars ic (fuel + 1) (nlist.add pc groups true) q g' =
            nfaAddF n chars ic fuel (nlist.add pc groups true) q g' := by
        intro q g'
        obtain ⟨hs, hl⟩ := threadsAdd_size_lt nlist pc groups true hfull
        exact ih (nlist.add pc groups true) q g' (by omega)
      rw [nfaAddF, nfaAddF]
      by_cases hc : nlist.contains pc
      · rw [if_pos hc, if_pos hc]
      · rw [if_neg hc, if_neg hc]
        cases hinst : n.insts.getD pc Inst.Match
        · rfl
        · rfl
        · rfl
        · rfl
        · dsimp only
          split
          · exact hstep (pc + 1) groups
          · rfl
        · dsimp only
          split
          · exact hstep (pc + 1) groups
          · rfl
        · dsimp only
          split
          · exact hstep (pc + 1) groups
          · rfl
        · next slot =>
          dsimp only
          cases n.which
          · exact hstep (pc + 1) groups
          · dsimp only
            split
            · exact hstep (pc + 1) (groups.set slot (some ic))
            · exact hstep (pc + 1) groups
          · exact hstep (pc + 1) (groups.set slot (some ic))
        · next target => exact hstep target groups
        · next x y =>
          dsimp only
          rw [hstep x groups]
          obtain ⟨hs, hl⟩ := threadsAdd_size_lt nlist pc groups true hfull
          obtain ⟨hs2, hl2⟩ :=
            nfaAddF_size n chars ic fuel (nlist.add pc groups true) x groups
          exact ih (nfaAddF n chars ic fuel (nlist.add pc groups true) x groups)
            y groups (by omega)

theorem nfaAddF_fuel_ge (n : Nfa) (chars : CharReader) (ic : Nat) :
    ∀ (k fuel : Nat) (nlist : Threads) (pc : Nat) (groups : List (Option Nat)),
      nlist.queue.length + 1 - nlist.size ≤ fuel →
      nfaAddF n chars ic (fuel + k) nlist pc groups =
        nfaAddF n chars ic fuel nlist pc groups := by
  intro k
  induction k with
  | zero => intro fuel nlist pc groups h; rfl
  | succ k ih =>
    intro fuel nlist pc groups h
    have h1 : nfaAddF n chars ic (fuel + k + 1) nlist pc groups =
        nfaAddF n chars ic (fuel + k) nlist pc groups :=
      nfaAddF_fuel_succ n chars ic (fuel + k) nlist pc groups (by omega)
    rw [show fuel + (k + 1) = fuel + k + 1 by omega, h1]
    exact ih fuel nlist pc groups h

/-- Any fuel of at least `queue.length + 1` computes the epsilon closure:
the recursion of `Nfa::add` terminates because every recursive call first
records its pc in the sparse set. -/
theorem nfaAddF_eq_add (n : Nfa) (chars : CharReader) (ic : Nat)
    (fuel : Nat) (nlist : Threads) (pc : Nat) (groups : List (Option Nat))
    (h : nlist.queue.length + 1 ≤ fuel) :
    nfaAddF n chars ic fuel nlist pc groups =
      n.add chars ic nlist pc groups := by
  unfold Nfa.add
  have h1 := nfaAddF_fuel_ge n chars ic (fuel - (nlist.queue.length + 1))
    (nlist.queue.length + 1) nlist pc groups (by omega)
  rw [show fuel = nlist.queue.length + 1 + (fuel - (nlist.queue.length + 1))
    by omega]
  exact h1

theorem nfaAddF_wf (n : Nfa) (chars : CharReader) (ic : Nat)
    (hv : validTargets n.insts) :
    ∀ (fuel : Nat) (nlist : Threads) (pc : Nat) (groups : List (Option Nat)),
      ThreadsWF nlist → nlist.queue.length = n.insts.length →
      pc < n.insts.length →
      ThreadsWF (nfaAddF n chars ic fuel nlist pc groups) ∧
      (nfaAddF n chars ic fuel nlist pc groups).queue.length =
        n.insts.length := by
  intro fuel
  induction fuel with
  | zero => intro nlist pc groups hwf hlen hpc; exact ⟨hwf, hlen⟩
  | succ fuel ih =>
    intro nlist pc groups hwf hlen hpc
    rw [nfaAddF]
    by_cases hc : nlist.contains pc
    · rw [if_pos hc]; exact ⟨hwf, hlen⟩
    · rw [if_neg hc]
      have hpcq : pc < nlist.queue.length := by omega
      have hcons : ∀ (g : List (Option Nat)) (empty : Bool),
          ThreadsWF (nlist.add pc g empty) ∧
          (nlist.add pc g empty).queue.length = n.insts.length := by
        intro g empty
        obtain ⟨h1, h2, _⟩ := threadsAdd_wf nlist hwf pc hpcq
          (Bool.not_eq_true _ ▸ eq_false_of_ne_true hc) g empty
        exact ⟨h1, h2.trans hlen⟩
      have comb : ∀ (q : Nat) (g' : List (Option Nat)), q < n.insts.length →
          ThreadsWF (nfaAddF n chars ic fuel (nlist.add pc groups true) q g') ∧
          (nfaAddF n chars ic fuel (nlist.add pc groups true) q g').queue.length
            = n.insts.length := by
        intro q g' hq
        obtain ⟨h1, h2⟩ := hcons groups true
        exact ih (nlist.add pc groups true) q g' h1 h2 hq
      have htv := hv pc hpc
      rw [instTargetsOk] at htv
      cases hinst : n.insts.getD pc Inst.Match
      · exact hcons groups false
      · exact hcons groups false
      · exact hcons groups false
      · exact hcons groups false
      · next flags =>
        rw [hinst] at htv
        have ht : pc + 1 < n.insts.length := by
          simpa using htv
        dsimp only
        split
        · exact comb (pc + 1) groups ht
        · exact hcons groups true
      · next flags =>
        rw [hinst] at htv
        have ht : pc + 1 < n.insts.length := by
          simpa using htv
        dsimp only
        split
        · exact comb (pc + 1) groups ht
        · exact hcons groups true
      · next flags =>
        rw [hinst] at htv
        have ht : pc + 1 < n.insts.length := by
          simpa using htv
        dsimp only
        split
        · exact comb (pc + 1) groups ht
        · exact hcons groups true
      · next slot =>
        rw [hinst] at htv
        have ht : pc + 1 < n.insts.length := by
          simpa using htv
        dsimp only
        cases n.which
        · exact comb (pc + 1) groups ht
        · dsimp only
          split
          · exact comb (pc + 1) (groups.set slot (some ic)) ht
          · exact comb (pc + 1) groups ht
        · exact comb (pc + 1) (groups.set slot (some ic)) ht
      · next target =>
        rw [hinst] at htv
        have ht : target < n.insts.length := by
          simpa using htv
        exact comb target groups ht
      · next x y =>
        rw [hinst] at htv
        have htx : x < n.insts.length ∧ y < n.insts.length := by
          simpa using htv
        dsimp only
        obtain ⟨h1, h2⟩ := comb x groups htx.1
        exact ih (nfaAddF n chars ic fuel (nlist.add pc groups true) x groups)
          y groups h1 h2 htx.2

theorem wf_nodup (t : Threads) (hwf : ThreadsWF t) : (densePcs t).Nodup := by
  obtain ⟨hsl, hsz, hq⟩ := hwf
  rw [List.nodup_iff_injective_get]
  intro i j hij
  have hlen : (densePcs t).length = t.size := by
    unfold densePcs
    simp [List.length_take]
    omega
  have hget : ∀ (k : Fin (densePcs t).length),
      (densePcs t).get k = (t.queue.getD k default).pc := by
    intro k
    unfold densePcs
    have hk : (k : Nat) < t.size := by omega
    have hkq : (k : Nat) < t.queue.length := by omega
    simp [List.get_eq_getElem, List.getElem_take, List.getD,
      List.getElem?_eq_getElem hkq]
  have hi := (hq i (by have := i.2; omega)).2
  have hj := (hq j (by have := j.2; omega)).2
  rw [hget i, hget j] at hij
  rw [hij] at hi
  rw [hi] at hj
  exact Fin.ext hj

/-- C3: on any program whose `Jump`/`Split` targets (and fall-throughs of
non-consuming instructions) are valid indices, the epsilon closure `add`
terminates — any fuel of at least `queue.length + 1` computes it — and
preserves the sparse-set invariant, so the target queue holds each pc at
most once between clears, even on cyclic instruction graphs such as the
one compiled from `(a*)*`. -/
theorem claim_C3 (n : Nfa) (chars : CharReader) (ic : Nat) (t : Threads)
    (pc : Nat) (groups : List (Option Nat)) (hwf : ThreadsWF t)
    (hlen : t.queue.length = n.insts.length) (hv : validTargets n.insts)
    (hpc : pc < n.insts.length) :
    ThreadsWF (n.add chars ic t pc groups) ∧
    (densePcs (n.add chars ic t pc groups)).Nodup ∧
    (∀ fuel, t.queue.length + 1 ≤ fuel →
      nfaAddF n chars ic fuel t pc groups = n.add chars ic t pc groups) := by
  obtain ⟨h1, _⟩ := nfaAddF_wf n chars ic hv (t.queue.length + 1) t pc groups
    hwf hlen hpc
  rw [nfaAddF_eq_add n chars ic (t.queue.length + 1) t pc groups (le_refl _)]
    at h1
  exact ⟨h1, wf_nodup _ h1,
    fun fuel hf => nfaAddF_eq_add n chars ic fuel t pc groups hf⟩

/-- Witness for C3 on the program compiled from `(a*)*`, whose instruction
graph is cyclic. -/
theorem claim_C3_witness :
    let prog := Program.new (Ast.Rep (Ast.Capture 1 none
      (Ast.Rep (Ast.Literal 'a' false) Repeater.ZeroMore Greed.Greedy))
      Repeater.ZeroMore Greed.Greedy)
    let n : Nfa := { which := .Location
                     insts := prog.insts
                     prefixLit := prog.prefixLit
                     input := strL "a"
                     start := 0
                     endP := 1 }
    let t := Threads.new .Location prog.insts.length 1
    let cr : CharReader := { prev := none, cur := some 'a', next := 1 }
    ThreadsWF t ∧ t.queue.length = n.insts.length ∧
    validTargets n.insts ∧ 0 < n.insts.length ∧
    (ThreadsWF (n.add cr 0 t 0 (List.replicate 2 none)) ∧
     (densePcs (n.add cr 0 t 0 (List.replicate 2 none))).Nodup ∧
     (∀ fuel, t.queue.length + 1 ≤ fuel →
       nfaAddF n cr 0 fuel t 0 (List.replicate 2 none) =
         n.add cr 0 t 0 (List.replicate 2 none))) := by
  intro prog n t cr
  refine ⟨by decide, by decide, by decide, by decide, ?_⟩
  exact claim_C3 n cr 0 t 0 (List.replicate 2 none)
    (by decide) (by decide) (by decide) (by decide)

theorem digitChar_spec (d : Nat) (h : d < 10) :
    ('0' ≤ digitChar d ∧ digitChar d ≤ '9') ∧ (digitChar d).toNat = 48 + d := by
  interval_cases d <;> exact ⟨by decide, by decide⟩

theorem natChars_digits (n : Nat) : ∀ c ∈ natChars n, '0' ≤ c ∧ c ≤ '9' := by
  induction n using Nat.strong_induction_on with
  | _ n ih =>
    rw [natChars]
    split
    · next h =>
      intro c hc
      simp only [List.mem_singleton] at hc
      subst hc
      exact (digitChar_spec n h).1
    · next h =>
      intro c hc
      rcases List.mem_append.1 hc with hm | hm
      · exact ih (n / 10) (Nat.div_lt_self (by omega) (by omega)) c hm
      · simp only [List.mem_singleton] at hm
        subst hm
        exact (digitChar_spec (n % 10) (Nat.mod_lt _ (by omega))).1

theorem natChars_ne_nil (n : Nat) : natChars n ≠ [] := by
  rw [natChars]
  split <;> simp

theorem natChars_no_comma (n : Nat) : ',' ∉ natChars n := by
  intro h
  have := natChars_digits n ',' h
  exact absurd this.1 (by decide)

theorem natChars_no_rbrace (n : Nat) : '\x7d' ∉ natChars n := by
  intro h
  have := natChars_digits n '\x7d' h
  exact absurd this.2 (by decide)

theorem parseUIntAux_append (s1 s2 : List Char) :
    ∀ acc, parseUIntAux (s1 ++ s2) acc =
      match parseUIntAux s1 acc with
      | some a => parseUIntAux s2 a
      | none => none := by
  induction s1 with
  | nil => intro acc; rfl
  | cons c s1 ih =>
    intro acc
    show parseUIntAux (c :: (s1 ++ s2)) acc = _
    rw [parseUIntAux, parseUIntAux]
    split
    · exact ih _
    · rfl

theorem parseUIntAux_natChars (n : Nat) :
    ∀ acc, parseUIntAux (natChars n) acc = some (acc * tenPow n + n) := by
  induction n using Nat.strong_induction_on with
  | _ n ih =>
    intro acc
    rw [natChars, tenPow]
    split
    · next h =>
      show parseUIntAux [digitChar n] acc = some (acc * 10 + n)
      rw [parseUIntAux]
      rw [if_pos (digitChar_spec n h).1]
      rw [parseUIntAux]
      have ht : (digitChar n).toNat = 48 + n := (digitChar_spec n h).2
      have hz : '0'.toNat = 48 := rfl
      have : (digitChar n).toNat - '0'.toNat = n := by
        rw [ht, hz]; omega
      rw [this]
    · next h =>
      rw [parseUIntAux_append]
      rw [ih (n / 10) (Nat.div_lt_self (by omega) (by omega)) acc]
      show parseUIntAux [digitChar (n % 10)] _ = _
      rw [parseUIntAux]
      rw [if_pos (digitChar_spec (n % 10) (Nat.mod_lt _ (by omega))).1]
      rw [parseUIntAux]
      have ht : (digitChar (n % 10)).toNat = 48 + n % 10 :=
        (digitChar_spec (n % 10) (Nat.mod_lt _ (by omega))).2
      have hz : '0'.toNat = 48 := rfl
      have h2 : (digitChar (n % 10)).toNat - '0'.toNat = n % 10 := by
        rw [ht, hz]; omega
      rw [h2]
      congr 1
      have : 10 * (n / 10) + n % 10 = n := Nat.div_add_mod n 10
      ring_nf
      omega

theorem parseUInt_natChars (n : Nat) : parseUInt (natChars n) = some n := by
  unfold parseUInt
  rw [if_neg (by simp [List.isEmpty_iff, natChars_ne_nil])]
  rw [parseUIntAux_natChars n 0]
  simp

theorem findIdx?_append_none {α : Type _} (p : α → Bool) (l1 l2 : List α)
    (h : ∀ c ∈ l1, p c = false) :
    (l1 ++ l2).findIdx? p = (l2.findIdx? p).map (fun i => l1.length + i) := by
  induction l1 with
  | nil =>
    cases hf : l2.findIdx? p <;> simp [hf]
  | cons a l1 ih =>
    have ha : p a = false := h a (List.mem_cons_self a l1)
    show (a :: (l1 ++ l2)).findIdx? p = _
    rw [List.findIdx?_cons, List.findIdx?_succ]
    simp only [ha, if_false]
    rw [ih (fun c hc => h c (List.mem_cons_of_mem a hc))]
    cases hf : l2.findIdx? p <;> simp [hf] <;> omega

theorem pos_at_brace (p : Parser) (pre inner post : List Char)
    (hchars : p.chars = pre ++ '\x7b' :: (inner ++ '\x7d' :: post))
    (hchari : p.chari = pre.length)
    (hinner : '\x7d' ∉ inner) :
    p.pos '\x7d' = some (pre.length + (inner.length + 1)) := by
  unfold Parser.pos
  rw [hchars, hchari, List.drop_left]
  have h1 : ('\x7b' :: (inner ++ '\x7d' :: post)).findIdx?
      (fun c => c = '\x7d') = some (inner.length + 1) := by
    rw [List.findIdx?_cons, List.findIdx?_succ]
    have hne : (decide (('\x7b' : Char) = '\x7d')) = false := by decide
    simp only [hne, if_false]
    rw [findIdx?_append_none _ inner ('\x7d' :: post)
      (fun c hc => by
        simp only [decide_eq_false_iff_not]
        intro he
        exact hinner (he ▸ hc))]
    rw [List.findIdx?_cons]
    simp
  rw [h1]
  rfl

theorem slice_between (p : Parser) (pre inner rest : List Char)
    (hchars : p.chars = pre ++ '\x7b' :: (inner ++ rest)) :
    p.slice (pre.length + 1) (pre.length + (inner.length + 1)) = inner := by
  unfold Parser.slice
  rw [hchars]
  have he : pre ++ '\x7b' :: (inner ++ rest) =
      ((pre ++ ['\x7b']) ++ inner) ++ rest := by simp
  rw [he]
  rw [List.take_left' (by simp)]
  rw [List.drop_left'
    (show (pre ++ ['\x7b'] : List Char).length = pre.length + 1 from
      by simp)]

theorem takeWhile_digits (l rest : List Char) (h : ',' ∉ l) :
    (l ++ ',' :: rest).takeWhile (fun c => c ≠ ',') = l := by
  induction l with
  | nil => simp [List.takeWhile]
  | cons c cl ih =>
    show List.takeWhile _ (c :: (cl ++ ',' :: rest)) = _
    rw [List.takeWhile]
    have hc : (decide ¬(c = ',')) = true := by
      simp only [decide_not, Bool.not_eq_true', decide_eq_false_iff_not]
      intro he
      exact h (he ▸ List.mem_cons_self c cl)
    simp only [hc]
    rw [ih (fun hm => h (List.mem_cons_of_mem c hm))]

theorem greedy_preserves (q : Parser) :
    (q.getNextGreedy).2.chars = q.chars ∧
    (q.getNextGreedy).2.stack = q.stack := by
  unfold Parser.getNextGreedy Parser.nextChar
  by_cases h : q.peekIs 1 '?' <;> simp [h]

theorem innerOf_no_rbrace (n : Nat) (form : Option (Option Nat)) :
    '\x7d' ∉ innerOf n form := by
  unfold innerOf
  intro h
  rcases List.mem_append.1 h with hm | hm
  · exact natChars_no_rbrace n hm
  · cases form with
    | none => simp at hm
    | some mm =>
      cases mm with
      | none =>
        have := List.mem_singleton.1 hm
        exact absurd this (by decide)
      | some m =>
        rcases List.mem_cons.1 hm with he | hm2
        · exact absurd he (by decide)
        · exact natChars_no_rbrace m hm2

/-- C8: for every counted repetition `{n}`, `{n,}` or `{n,m}` applied to an
expression on the parser stack, `parse_counted` returns a `BadSyntax` error
exactly when a bound exceeds `MAX_REPEAT = 1000` or `m < n`, and succeeds
otherwise; the error carries no partial AST (the `Except` error branch
returns before the stack is touched). -/
theorem claim_C8 (pre post : List Char) (stRest : List BuildAst) (e : Ast)
    (flags caps n : Nat) (form : Option (Option Nat)) :
    let p : Parser := { chars := pre ++ '\x7b' :: (innerOf n form ++ '\x7d' :: post)
                        chari := pre.length
                        stack := .Ast e :: stRest
                        flags := flags
                        caps := caps }
    (isBadSyn p.parseCounted = true ↔ badBounds n form) ∧
    ((p.parseCounted).isOk = true ↔ ¬ badBounds n form) := by
  intro p
  have hpos : p.pos '\x7d' = some (pre.length + ((innerOf n form).length + 1)) :=
    pos_at_brace p pre (innerOf n form) post rfl rfl (innerOf_no_rbrace n form)
  unfold Parser.parseCounted
  rw [hpos]
  dsimp only
  rcases hg : Parser.getNextGreedy
      { p with chari := pre.length + ((innerOf n form).length + 1) }
    with ⟨greed, p2⟩
  have hgp := greedy_preserves
    { p with chari := pre.length + ((innerOf n form).length + 1) }
  rw [hg] at hgp
  obtain ⟨hp2chars, hp2stack⟩ := hgp
  have hslice : p2.slice (pre.length + 1)
      (pre.length + ((innerOf n form).length + 1)) = innerOf n form :=
    slice_between p2 pre (innerOf n form) ('\x7d' :: post)
      (by rw [hp2chars])
  rw [hslice]
  have hpop : p2.popAst = .ok (e, { p2 with stack := stRest }) := by
    unfold Parser.popAst
    rw [show p2.stack = BuildAst.Ast e :: stRest from hp2stack]
  cases form with
  | none =>
    have hinner : innerOf n none = natChars n := by
      unfold innerOf; simp
    rw [hinner]
    have hcont : ((natChars n).contains ',') = false := by
      have := natChars_no_comma n
      simp [List.contains, List.elem_eq_mem, this]
    rw [hcont]
    have hui : p2.parseUIntM (natChars n) = .ok n := by
      unfold Parser.parseUIntM
      rw [parseUInt_natChars]
    simp only [Bool.not_false, if_pos rfl, hui, badBounds]
    by_cases hb : n > MAX_REPEAT
    · simp [hb, isBadSyn, Parser.synerr, Parser.err, Except.isOk, Except.toBool,
        bind, Except.bind, pure, Except.pure]
    · simp [hb, hpop, isBadSyn, Parser.synerr, Parser.err, Except.isOk,
        Except.toBool, bind, Except.bind, pure, Except.pure, Nat.lt_irrefl]
      by_cases hz : n = 0 <;> simp [hz, isBadSyn, Except.toBool]
  | some mm =>
    have hcont : ∀ rest : List Char,
        ((natChars n ++ ',' :: rest).contains ',') = true := by
      intro rest
      simp [List.contains, List.elem_eq_mem]
    have htw : ∀ rest : List Char,
        (natChars n ++ ',' :: rest).takeWhile (fun c => c ≠ ',') =
          natChars n := fun rest => takeWhile_digits _ rest (natChars_no_comma n)
    have hlen0 : ¬ (natChars n).length = 0 := by
      simp [natChars_ne_nil]
    have hdrop : ∀ rest : List Char,
        (natChars n ++ ',' :: rest).drop ((natChars n).length + 1) = rest := by
      intro rest
      rw [show natChars n ++ ',' :: rest = (natChars n ++ [',']) ++ rest by simp]
      exact List.drop_left' (by simp)
    have hui : p2.parseUIntM (natChars n) = .ok n := by
      unfold Parser.parseUIntM
      rw [parseUInt_natChars]
    cases mm with
    | none =>
      have hinner : innerOf n (some none) = natChars n ++ ',' :: [] := by
        unfold innerOf; simp
      rw [hinner, hcont []]
      simp only [Bool.not_true, Bool.false_eq_true, if_false, htw [], hui,
        badBounds]
      rw [if_neg hlen0]
      simp only [bind, Except.bind, hdrop []]
      by_cases hb : n > MAX_REPEAT
      · simp [hb, isBadSyn, Parser.synerr, Parser.err, Except.isOk,
          Except.toBool, pure, Except.pure]
      · simp [hb, hpop, isBadSyn, Parser.synerr, Parser.err, Except.isOk,
          Except.toBool, pure, Except.pure]
        by_cases hz : n = 0
        · simp [hz, isBadSyn, Except.toBool]
        · simp [hz, isBadSyn, Except.toBool, Nat.pos_of_ne_zero hz]
    | some m =>
      have hinner : innerOf n (some (some m)) = natChars n ++ ',' :: natChars m := by
        unfold innerOf; simp
      have huim : p2.parseUIntM (natChars m) = .ok m := by
        unfold Parser.parseUIntM
        rw [parseUInt_natChars]
      have hlenm : ¬ (natChars m).length = 0 := by
        simp [natChars_ne_nil]
      rw [hinner, hcont (natChars m)]
      simp only [Bool.not_true, Bool.false_eq_true, if_false,
        htw (natChars m), hui, badBounds]
      rw [if_neg hlen0]
      simp only [bind, Except.bind, hdrop (natChars m)]
      rw [if_neg hlenm]
      simp only [huim, pure, Except.pure]
      by_cases hb : n > MAX_REPEAT
      · simp [hb, isBadSyn, Parser.synerr, Parser.err, Except.isOk,
          Except.toBool]
      · by_cases hbm : m > MAX_REPEAT
        · simp [hb, hbm, isBadSyn, Parser.synerr, Parser.err, Except.isOk,
            Except.toBool]
        · by_cases hmn : m < n
          · simp [hb, hbm, hmn, isBadSyn, Parser.synerr, Parser.err,
              Except.isOk, Except.toBool]
          · simp [hb, hbm, hmn, hpop, isBadSyn, Parser.synerr, Parser.err,
              Except.isOk, Except.toBool]
            by_cases hz : n = 0 ∧ m = 0 <;>
              simp [hz, isBadSyn, Except.toBool]

/-! #### C1: capture-slot balance.

The development below characterises the instruction block `Compiler::compile`
emits (`emit`/`bLen`), annotates every instruction with the set of capture
groups open at that point (`annots`/`OkAnnot`), and propagates the balance
invariant `Bal` through `Nfa::add`, `Nfa::step` and the main loop to conclude
that `unflatten_capture_locations` always succeeds on the output of a run. -/

theorem getD_append_lt {α : Type _} (l1 l2 : List α) (d : α) (n : Nat)
    (h : n < l1.length) : (l1 ++ l2).getD n d = l1.getD n d := by
  induction l1 generalizing n with
  | nil => simp at h
  | cons x xs ih =>
    cases n with
    | zero => rfl
    | succ m => exact ih m (by simpa using h)

theorem getD_append_add {α : Type _} (l1 l2 : List α) (d : α) (k : Nat) :
    (l1 ++ l2).getD (l1.length + k) d = l2.getD k d := by
  induction l1 with
  | nil => simp
  | cons x xs ih =>
    have h : (x :: xs).length + k = (xs.length + k) + 1 := by
      simp only [List.length_cons]
      omega
    rw [h]
    show (xs ++ l2).getD (xs.length + k) d = l2.getD k d
    exact ih

theorem set_append_add {α : Type _} (l1 l2 : List α) (k : Nat) (v : α) :
    (l1 ++ l2).set (l1.length + k) v = l1 ++ l2.set k v := by
  induction l1 with
  | nil => simp
  | cons x xs ih =>
    have h : (x :: xs).length + k = (xs.length + k) + 1 := by
      simp only [List.length_cons]
      omega
    rw [h]
    show x :: (xs ++ l2).set (xs.length + k) v = x :: (xs ++ l2.set k v)
    rw [ih]

theorem emit_length (x : Ast) : ∀ L : Nat, (emit x L).length = bLen x := by
  induction x with
  | Nothing => intro L; rfl
  | Literal c casei => intro L; rfl
  | Dot nl => intro L; rfl
  | Cls r neg casei => intro L; rfl
  | Begin m => intro L; rfl
  | End m => intro L; rfl
  | WordBoundary b => intro L; rfl
  | Capture k name x ih => intro L; simp [emit, bLen, ih]; try omega
  | Cat x y ihx ihy => intro L; simp [emit, bLen, ihx, ihy]; try omega
  | Alt x y ihx ihy => intro L; simp [emit, bLen, ihx, ihy]; try omega
  | Rep x r g ih =>
    intro L
    cases r <;> simp [emit, bLen, ih] <;> split <;> simp [ih] <;> try omega

theorem annots_length (x : Ast) : ∀ o : Finset Nat,
    (annots x o).length = bLen x := by
  induction x with
  | Nothing => intro o; rfl
  | Literal c casei => intro o; rfl
  | Dot nl => intro o; rfl
  | Cls r neg casei => intro o; rfl
  | Begin m => intro o; rfl
  | End m => intro o; rfl
  | WordBoundary b => intro o; rfl
  | Capture k name x ih => intro o; simp [annots, bLen, ih]; try omega
  | Cat x y ihx ihy => intro o; simp [annots, bLen, ihx, ihy]; try omega
  | Alt x y ihx ihy => intro o; simp [annots, bLen, ihx, ihy]; try omega
  | Rep x r g ih =>
    intro o
    cases r <;> simp [annots, bLen, ih] <;> try omega

theorem annots_nil_of_bLen (x : Ast) : ∀ o : Finset Nat, bLen x = 0 →
    annots x o = [] := by
  induction x with
  | Nothing => intro o _; rfl
  | Literal c casei => intro o h; simp [bLen] at h
  | Dot nl => intro o h; simp [bLen] at h
  | Cls r neg casei => intro o h; simp [bLen] at h
  | Begin m => intro o h; simp [bLen] at h
  | End m => intro o h; simp [bLen] at h
  | WordBoundary b => intro o h; simp [bLen] at h
  | Capture k name x ih => intro o h; simp [bLen] at h
  | Cat x y ihx ihy =>
    intro o h
    simp [bLen] at h
    simp [annots, ihx o h.1, ihy o h.2]
  | Alt x y ihx ihy => intro o h; simp [bLen] at h
  | Rep x r g ih => intro o h; cases r <;> simp [bLen] at h

theorem annots_getD_zero (x : Ast) : ∀ o : Finset Nat, bLen x ≠ 0 →
    (annots x o).getD 0 ∅ = o := by
  induction x with
  | Nothing => intro o h; simp [bLen] at h
  | Literal c casei => intro o _; rfl
  | Dot nl => intro o _; rfl
  | Cls r neg casei => intro o _; rfl
  | Begin m => intro o _; rfl
  | End m => intro o _; rfl
  | WordBoundary b => intro o _; rfl
  | Capture k name x ih => intro o _; rfl
  | Cat x y ihx ihy =>
    intro o h
    by_cases hx : bLen x = 0
    · have hy : bLen y ≠ 0 := by
        simp [bLen, hx] at h ⊢
        exact h
      show (annots x o ++ annots y o).getD 0 ∅ = o
      rw [annots_nil_of_bLen x o hx, List.nil_append]
      exact ihy o hy
    · have h0 : 0 < (annots x o).length := by
        rw [annots_length]
        omega
      show (annots x o ++ annots y o).getD 0 ∅ = o
      rw [getD_append_lt _ _ _ _ h0]
      exact ihx o hx
  | Alt x y ihx ihy => intro o _; rfl
  | Rep x r g ih =>
    intro o h
    cases r with
    | ZeroOne => rfl
    | ZeroMore => rfl
    | OneMore =>
      by_cases hx : bLen x = 0
      · show (annots x o ++ [o]).getD 0 ∅ = o
        rw [annots_nil_of_bLen x o hx, List.nil_append]
        rfl
      · have h0 : 0 < (annots x o).length := by
          rw [annots_length]
          omega
        show (annots x o ++ [o]).getD 0 ∅ = o
        rw [getD_append_lt _ _ _ _ h0]
        exact ih o hx

/-- Patching a `Split` placeholder sitting right after a prefix of known
length. -/
theorem setSplit_eq (c : Compiler) (l1 rest : List Inst) (u v a b i : Nat)
    (hc : c.insts = l1 ++ Inst.Split u v :: rest) (hi : i = l1.length) :
    c.setSplit i a b = { c with insts := l1 ++ Inst.Split a b :: rest } := by
  subst hi
  unfold Compiler.setSplit
  rw [hc]
  have hg : (l1 ++ Inst.Split u v :: rest).getD l1.length Inst.Match =
      Inst.Split u v := by
    have h0 := getD_append_add l1 (Inst.Split u v :: rest) Inst.Match 0
    simpa using h0
  rw [hg]
  have hs : (l1 ++ Inst.Split u v :: rest).set l1.length (Inst.Split a b) =
      l1 ++ Inst.Split a b :: rest := by
    have h0 := set_append_add l1 (Inst.Split u v :: rest) 0 (Inst.Split a b)
    simpa using h0
  simp [hs]

/-- Patching a `Jump` placeholder sitting right after a prefix of known
length. -/
theorem setJump_eq (c : Compiler) (l1 rest : List Inst) (u a i : Nat)
    (hc : c.insts = l1 ++ Inst.Jump u :: rest) (hi : i = l1.length) :
    c.setJump i a = { c with insts := l1 ++ Inst.Jump a :: rest } := by
  subst hi
  unfold Compiler.setJump
  rw [hc]
  have hg : (l1 ++ Inst.Jump u :: rest).getD l1.length Inst.Match =
      Inst.Jump u := by
    have h0 := getD_append_add l1 (Inst.Jump u :: rest) Inst.Match 0
    simpa using h0
  rw [hg]
  have hs : (l1 ++ Inst.Jump u :: rest).set l1.length (Inst.Jump a) =
      l1 ++ Inst.Jump a :: rest := by
    have h0 := set_append_add l1 (Inst.Jump u :: rest) 0 (Inst.Jump a)
    simpa using h0
  simp [hs]

/-- `Compiler::compile` appends exactly the block `emit x L` at the current
write position `L = c.insts.length`, with all back-patched targets as
`emit` describes. -/
theorem compile_insts (x : Ast) : ∀ c : Compiler,
    (c.compile x).insts = c.insts ++ emit x c.insts.length := by
  induction x with
  | Nothing => intro c; simp [Compiler.compile, emit]
  | Literal cc casei => intro c; simp [Compiler.compile, emit, Compiler.push]
  | Dot nl => intro c; simp [Compiler.compile, emit, Compiler.push]
  | Cls r neg casei => intro c; simp [Compiler.compile, emit, Compiler.push]
  | Begin m => intro c; simp [Compiler.compile, emit, Compiler.push]
  | End m => intro c; simp [Compiler.compile, emit, Compiler.push]
  | WordBoundary b => intro c; simp [Compiler.compile, emit, Compiler.push]
  | Capture k name x ih =>
    intro c
    simp only [Compiler.compile, Compiler.push]
    rw [ih]
    simp [emit]
  | Cat x y ihx ihy =>
    intro c
    simp only [Compiler.compile]
    rw [ihy, ihx]
    simp [emit, emit_length]
  | Alt x y ihx ihy =>
    intro c
    have h2 : ((c.push (Inst.Split 0 0)).compile x).insts =
        c.insts ++ Inst.Split 0 0 :: emit x (c.insts.length + 1) := by
      rw [ihx]
      simp [Compiler.push]
    have h3 : (((c.push (Inst.Split 0 0)).compile x).push
        (Inst.Jump 0)).insts =
        c.insts ++ Inst.Split 0 0 ::
          (emit x (c.insts.length + 1) ++ [Inst.Jump 0]) := by
      show ((c.push (Inst.Split 0 0)).compile x).insts ++ [Inst.Jump 0] = _
      rw [h2]
      simp
    have hlen3 : (((c.push (Inst.Split 0 0)).compile x).push
        (Inst.Jump 0)).insts.length = c.insts.length + 2 + bLen x := by
      rw [h3]
      simp [emit_length]
      omega
    have h4 : ((((c.push (Inst.Split 0 0)).compile x).push
        (Inst.Jump 0)).compile y).insts =
        c.insts ++ Inst.Split 0 0 ::
          (emit x (c.insts.length + 1) ++
            (Inst.Jump 0 :: emit y (c.insts.length + 2 + bLen x))) := by
      rw [ihy, hlen3, h3]
      simp
    simp only [Compiler.compile, Compiler.emptySplit, Compiler.emptyJump]
    rw [setSplit_eq _ c.insts
      (emit x (c.insts.length + 1) ++
        (Inst.Jump 0 :: emit y (c.insts.length + 2 + bLen x)))
      0 0 _ _ _ h4 rfl]
    rw [setJump_eq _
      (c.insts ++ Inst.Split ((c.push (Inst.Split 0 0)).insts.length)
        ((((c.push (Inst.Split 0 0)).compile x).push (Inst.Jump 0)).insts.length) ::
        emit x (c.insts.length + 1))
      (emit y (c.insts.length + 2 + bLen x)) 0 _ _
      (by simp) (by rw [h2]; simp [Compiler.push, emit_length]; try omega)]
    have e1 : (c.push (Inst.Split 0 0)).insts.length = c.insts.length + 1 := by
      simp [Compiler.push]
    have e2 : ((((c.push (Inst.Split 0 0)).compile x).push
        (Inst.Jump 0)).compile y).insts.length =
        c.insts.length + 2 + bLen x + bLen y := by
      rw [h4]
      simp [emit_length]
      omega
    rw [e1, e2, hlen3]
    simp [emit]
  | Rep x r g ih =>
    intro c
    cases r with
    | ZeroOne =>
      have h2 : ((c.push (Inst.Split 0 0)).compile x).insts =
          c.insts ++ Inst.Split 0 0 :: emit x (c.insts.length + 1) := by
        rw [ih]
        simp [Compiler.push]
      have hlen2 : ((c.push (Inst.Split 0 0)).compile x).insts.length =
          c.insts.length + 1 + bLen x := by
        rw [h2]
        simp [emit_length]
        omega
      have e1 : (c.push (Inst.Split 0 0)).insts.length =
          c.insts.length + 1 := by simp [Compiler.push]
      simp only [Compiler.compile, Compiler.emptySplit]
      by_cases hg : g.is_greedy = true
      · simp only [hg, if_true]
        rw [setSplit_eq _ c.insts (emit x (c.insts.length + 1)) 0 0 _ _ _
          h2 rfl, hlen2, e1]
        simp [emit, hg]
        try omega
      · simp only [hg, Bool.false_eq_true, if_false]
        rw [setSplit_eq _ c.insts (emit x (c.insts.length + 1)) 0 0 _ _ _
          h2 rfl, hlen2, e1]
        simp [emit, hg]
        try omega
    | ZeroMore =>
      have h2 : ((c.push (Inst.Split 0 0)).compile x).insts =
          c.insts ++ Inst.Split 0 0 :: emit x (c.insts.length + 1) := by
        rw [ih]
        simp [Compiler.push]
      have h3 : (((c.push (Inst.Split 0 0)).compile x).push
          (Inst.Jump 0)).insts =
          c.insts ++ Inst.Split 0 0 ::
            (emit x (c.insts.length + 1) ++ [Inst.Jump 0]) := by
        show ((c.push (Inst.Split 0 0)).compile x).insts ++ [Inst.Jump 0] = _
        rw [h2]
        simp
      have hlen3 : (((c.push (Inst.Split 0 0)).compile x).push
          (Inst.Jump 0)).insts.length = c.insts.length + 2 + bLen x := by
        rw [h3]
        simp [emit_length]
        omega
      have hlen2 : ((c.push (Inst.Split 0 0)).compile x).insts.length =
          c.insts.length + 1 + bLen x := by
        rw [h2]
        simp [emit_length]
        omega
      have e1 : (c.push (Inst.Split 0 0)).insts.length =
          c.insts.length + 1 := by simp [Compiler.push]
      simp only [Compiler.compile, Compiler.emptySplit, Compiler.emptyJump]
      by_cases hg : g.is_greedy = true
      · simp only [hg, if_true]
        rw [setJump_eq _ (c.insts ++ Inst.Split 0 0 ::
            emit x (c.insts.length + 1)) [] 0 _ _
          (by rw [h3]; simp)
          (by rw [hlen2]; simp [emit_length]; omega)]
        rw [setSplit_eq _ c.insts
          (emit x (c.insts.length + 1) ++ [Inst.Jump c.insts.length]) 0 0 _ _ _
          (by simp) rfl]
        rw [hlen3, e1]
        simp [emit, hg]
      · simp only [hg, Bool.false_eq_true, if_false]
        rw [setJump_eq _ (c.insts ++ Inst.Split 0 0 ::
            emit x (c.insts.length + 1)) [] 0 _ _
          (by rw [h3]; simp)
          (by rw [hlen2]; simp [emit_length]; omega)]
        rw [setSplit_eq _ c.insts
          (emit x (c.insts.length + 1) ++ [Inst.Jump c.insts.length]) 0 0 _ _ _
          (by simp) rfl]
        rw [hlen3, e1]
        simp [emit, hg]
    | OneMore =>
      have h2 : (c.compile x).insts = c.insts ++ emit x c.insts.length := ih c
      have hlen2 : (c.compile x).insts.length =
          c.insts.length + bLen x := by
        rw [h2]
        simp [emit_length]
      have h3 : ((c.compile x).push (Inst.Split 0 0)).insts =
          c.insts ++ (emit x c.insts.length ++ [Inst.Split 0 0]) := by
        simp [Compiler.push, h2]
      have hlen3 : ((c.compile x).push (Inst.Split 0 0)).insts.length =
          c.insts.length + bLen x + 1 := by
        rw [h3]
        simp [emit_length]
        try omega
      simp only [Compiler.compile, Compiler.emptySplit]
      by_cases hg : g.is_greedy = true
      · simp only [hg, if_true]
        rw [setSplit_eq _ (c.insts ++ emit x c.insts.length) [] 0 0 _ _ _
          (by rw [h3]; simp)
          (by rw [hlen2]; simp [emit_length]; try omega), hlen3]
        simp [emit, hg]
        try omega
      · simp only [hg, Bool.false_eq_true, if_false]
        rw [setSplit_eq _ (c.insts ++ emit x c.insts.length) [] 0 0 _ _ _
          (by rw [h3]; simp)
          (by rw [hlen2]; simp [emit_length]; try omega), hlen3]
        simp [emit, hg]
        try omega

/-- The full instruction list `Program::new` builds around the body. -/
theorem progNew_insts (ast : Ast) :
    (Program.new ast).insts =
      Inst.Save 0 :: (emit ast 1 ++ [Inst.Save 1, Inst.Match]) := by
  simp only [Program.new]
  show ((((⟨[], []⟩ : Compiler).push (Inst.Save 0)).compile ast).insts ++
      [Inst.Save 1]) ++ [Inst.Match] = _
  rw [compile_insts]
  simp [Compiler.push]

theorem progNew_length (ast : Ast) :
    (Program.new ast).insts.length = bLen ast + 3 := by
  rw [progNew_insts]
  simp [emit_length]
  try omega

theorem progAnn_length (ast : Ast) :
    (progAnn ast).length = bLen ast + 3 := by
  simp [progAnn, annots_length]
  try omega

theorem bal_nil (o : Finset Nat) (g : List (Option Nat)) (h : g.length = 0) :
    Bal o g := by
  intro k hk
  rw [h] at hk
  exact absurd hk (by omega)

theorem paired_nil (g : List (Option Nat)) (h : g.length = 0) : Paired g := by
  intro k hk
  rw [h] at hk
  exact absurd hk (by omega)

theorem bal_empty_paired (g : List (Option Nat)) (h : Bal ∅ g) : Paired g :=
  fun k hk => (h k hk).2 (Finset.not_mem_empty k)

theorem bal_insert_write (o : Finset Nat) (g : List (Option Nat)) (k v : Nat)
    (hb : Bal o g) : Bal (insert k o) (g.set (2 * k) (some v)) := by
  intro k2 hk2
  rw [List.length_set] at hk2
  constructor
  · intro hk2o
    by_cases he : k2 = k
    · subst he
      rw [getD_set_self _ _ _ _ (by omega)]
      simp
    · have hne : 2 * k ≠ 2 * k2 := by omega
      rw [getD_set_ne _ _ _ hne]
      rcases Finset.mem_insert.1 hk2o with h | h
      · exact absurd h he
      · exact (hb k2 hk2).1 h
  · intro hk2no
    have hne : k2 ≠ k := fun he => hk2no (he ▸ Finset.mem_insert_self k o)
    rw [getD_set_ne _ _ _ (show 2 * k ≠ 2 * k2 by omega),
      getD_set_ne _ _ _ (show 2 * k ≠ 2 * k2 + 1 by omega)]
    exact (hb k2 hk2).2 (fun hi => hk2no (Finset.mem_insert_of_mem hi))

theorem bal_insert_nowrite (o : Finset Nat) (g : List (Option Nat)) (k : Nat)
    (hlen : g.length ≤ 2 * k + 1) (hb : Bal o g) : Bal (insert k o) g := by
  intro k2 hk2
  constructor
  · intro hk2o
    rcases Finset.mem_insert.1 hk2o with h | h
    · subst h
      exact absurd hk2 (by omega)
    · exact (hb k2 hk2).1 h
  · intro hk2no
    exact (hb k2 hk2).2 (fun hi => hk2no (Finset.mem_insert_of_mem hi))

theorem bal_erase_write (o : Finset Nat) (g : List (Option Nat)) (k v : Nat)
    (hb : Bal o g) (hk : k ∈ o) :
    Bal (o.erase k) (g.set (2 * k + 1) (some v)) := by
  intro k2 hk2
  rw [List.length_set] at hk2
  constructor
  · intro hk2o
    have hne : k2 ≠ k := Finset.ne_of_mem_erase hk2o
    rw [getD_set_ne _ _ _ (show 2 * k + 1 ≠ 2 * k2 by omega)]
    exact (hb k2 hk2).1 (Finset.mem_of_mem_erase hk2o)
  · intro hk2no
    by_cases he : k2 = k
    · subst he
      rw [getD_set_ne _ _ _ (show 2 * k2 + 1 ≠ 2 * k2 by omega),
        getD_set_self _ _ _ _ (by omega)]
      have h1 := (hb k2 hk2).1 hk
      simp [List.getD] at h1
      simp [h1]
    · have hno : k2 ∉ o := fun hi =>
        hk2no (Finset.mem_erase.2 ⟨he, hi⟩)
      rw [getD_set_ne _ _ _ (show 2 * k + 1 ≠ 2 * k2 by omega),
        getD_set_ne _ _ _ (show 2 * k + 1 ≠ 2 * k2 + 1 by omega)]
      exact (hb k2 hk2).2 hno

theorem getD_cons_eq_add {α : Type _} (a : α) (l : List α) (d : α)
    (n m : Nat) (h : n = m + 1) : (a :: l).getD n d = l.getD m d := by
  subst h
  induction l with
  | nil => simp [List.getD]
  | cons b bs ih => simp [List.getD]

theorem getD_append_len_add {α : Type _} (l1 l2 : List α) (d : α) (n k : Nat)
    (h : n = l1.length + k) : (l1 ++ l2).getD n d = l2.getD k d := by
  subst h
  exact getD_append_add l1 l2 d k

theorem bal_erase_nowrite (o : Finset Nat) (g : List (Option Nat)) (k : Nat)
    (hlen : g.length ≤ 2 * k + 1) (hb : Bal o g) (hk : k ∈ o) :
    Bal (o.erase k) g := by
  intro k2 hk2
  constructor
  · intro hk2o
    exact (hb k2 hk2).1 (Finset.mem_of_mem_erase hk2o)
  · intro hk2no
    by_cases he : k2 = k
    · subst he
      exact absurd hk2 (by omega)
    · have hno : k2 ∉ o := fun hi =>
        hk2no (Finset.mem_erase.2 ⟨he, hi⟩)
      exact (hb k2 hk2).2 hno

/-- The annotation verification conditions hold throughout a compiled block:
if the global program `gi` contains `emit x L` at positions `[L, L+bLen x)`,
the global annotation `ga` agrees with `annots x o` there and hands the
ambient open set `o` to the block exit, then every instruction of the block
satisfies its edge condition.  `anc` over-approximates the open groups
(`wfCapsB` keeps nested capture indices distinct). -/
theorem emit_annot_ok (gi : List Inst) (ga : List (Finset Nat)) (x : Ast) :
    ∀ (o : Finset Nat) (anc : List Nat) (L : Nat),
    wfCapsB x anc = true →
    (∀ j2, j2 ∈ o → anc.contains j2 = true) →
    (∀ j2, j2 < bLen x →
      gi.getD (L + j2) Inst.Match = (emit x L).getD j2 Inst.Match) →
    (∀ j2, j2 < bLen x → annAt ga (L + j2) = (annots x o).getD j2 ∅) →
    annAt ga (L + bLen x) = o →
    L + bLen x < gi.length →
    ∀ j, j < bLen x → EdgeOk gi ga (L + j) := by
  induction x with
  | Nothing =>
    intro o anc L hwf hanc hins hann hexit hlt j hj
    simp [bLen] at hj
  | Literal c casei =>
    intro o anc L hwf hanc hins hann hexit hlt j hj
    simp only [bLen] at hj hlt hexit
    have hj0 : j = 0 := by omega
    subst hj0
    have hi : gi.getD (L + 0) Inst.Match =
        Inst.OneChar c (boolFlag casei FLAG_NOCASE) := by
      rw [hins 0 (by simp [bLen])]
      rfl
    unfold EdgeOk
    rw [hi]
    simp only [instEdgeOk]
    constructor
    · omega
    · have h1 : annAt ga (L + 0) = o := by
        rw [hann 0 (by simp [bLen])]
        rfl
      have h2 : annAt ga (L + 0 + 1) = o := by
        have e : L + 0 + 1 = L + 1 := by omega
        rw [e, hexit]
      rw [h1, h2]
  | Dot nl =>
    intro o anc L hwf hanc hins hann hexit hlt j hj
    simp only [bLen] at hj hlt hexit
    have hj0 : j = 0 := by omega
    subst hj0
    have hi : gi.getD (L + 0) Inst.Match =
        Inst.Any (boolFlag nl FLAG_DOTNL) := by
      rw [hins 0 (by simp [bLen])]
      rfl
    unfold EdgeOk
    rw [hi]
    simp only [instEdgeOk]
    constructor
    · omega
    · have h1 : annAt ga (L + 0) = o := by
        rw [hann 0 (by simp [bLen])]
        rfl
      have h2 : annAt ga (L + 0 + 1) = o := by
        have e : L + 0 + 1 = L + 1 := by omega
        rw [e, hexit]
      rw [h1, h2]
  | Cls r neg casei =>
    intro o anc L hwf hanc hins hann hexit hlt j hj
    simp only [bLen] at hj hlt hexit
    have hj0 : j = 0 := by omega
    subst hj0
    have hi : gi.getD (L + 0) Inst.Match =
        Inst.CharClass r
          (boolFlag neg FLAG_NEGATED ||| boolFlag casei FLAG_NOCASE) := by
      rw [hins 0 (by simp [bLen])]
      rfl
    unfold EdgeOk
    rw [hi]
    simp only [instEdgeOk]
    constructor
    · omega
    · have h1 : annAt ga (L + 0) = o := by
        rw [hann 0 (by simp [bLen])]
        rfl
      have h2 : annAt ga (L + 0 + 1) = o := by
        have e : L + 0 + 1 = L + 1 := by omega
        rw [e, hexit]
      rw [h1, h2]
  | Begin m =>
    intro o anc L hwf hanc hins hann hexit hlt j hj
    simp only [bLen] at hj hlt hexit
    have hj0 : j = 0 := by omega
    subst hj0
    have hi : gi.getD (L + 0) Inst.Match =
        Inst.EmptyBegin (boolFlag m FLAG_MULTI) := by
      rw [hins 0 (by simp [bLen])]
      rfl
    unfold EdgeOk
    rw [hi]
    simp only [instEdgeOk]
    constructor
    · omega
    · have h1 : annAt ga (L + 0) = o := by
        rw [hann 0 (by simp [bLen])]
        rfl
      have h2 : annAt ga (L + 0 + 1) = o := by
        have e : L + 0 + 1 = L + 1 := by omega
        rw [e, hexit]
      rw [h1, h2]
  | End m =>
    intro o anc L hwf hanc hins hann hexit hlt j hj
    simp only [bLen] at hj hlt hexit
    have hj0 : j = 0 := by omega
    subst hj0
    have hi : gi.getD (L + 0) Inst.Match =
        Inst.EmptyEnd (boolFlag m FLAG_MULTI) := by
      rw [hins 0 (by simp [bLen])]
      rfl
    unfold EdgeOk
    rw [hi]
    simp only [instEdgeOk]
    constructor
    · omega
    · have h1 : annAt ga (L + 0) = o := by
        rw [hann 0 (by simp [bLen])]
        rfl
      have h2 : annAt ga (L + 0 + 1) = o := by
        have e : L + 0 + 1 = L + 1 := by omega
        rw [e, hexit]
      rw [h1, h2]
  | WordBoundary b =>
    intro o anc L hwf hanc hins hann hexit hlt j hj
    simp only [bLen] at hj hlt hexit
    have hj0 : j = 0 := by omega
    subst hj0
    have hi : gi.getD (L + 0) Inst.Match =
        Inst.EmptyWordBoundary (boolFlag (!b) FLAG_NEGATED) := by
      rw [hins 0 (by simp [bLen])]
      rfl
    unfold EdgeOk
    rw [hi]
    simp only [instEdgeOk]
    constructor
    · omega
    · have h1 : annAt ga (L + 0) = o := by
        rw [hann 0 (by simp [bLen])]
        rfl
      have h2 : annAt ga (L + 0 + 1) = o := by
        have e : L + 0 + 1 = L + 1 := by omega
        rw [e, hexit]
      rw [h1, h2]
  | Capture k name x ih =>
    intro o anc L hwf hanc hins hann hexit hlt j hj
    simp only [bLen] at hj hlt hexit
    simp only [wfCapsB, Bool.and_eq_true, Bool.not_eq_true'] at hwf
    obtain ⟨hknot', hwfx⟩ := hwf
    have hknot : k ∉ o := by
      intro hko
      rw [hanc k hko] at hknot'
      simp at hknot'
    have hann0 : annAt ga (L + 0) = o := by
      rw [hann 0 (by simp only [bLen]; omega)]
      rfl
    have hann1 : annAt ga (L + 1) = insert k o := by
      rw [hann 1 (by simp only [bLen]; omega)]
      simp only [annots]
      rw [getD_cons_eq_add _ _ _ 1 0 rfl]
      by_cases hbx : bLen x = 0
      · rw [annots_nil_of_bLen x _ hbx, List.nil_append]
        rfl
      · rw [getD_append_lt _ _ _ _ (by rw [annots_length]; omega)]
        exact annots_getD_zero x _ hbx
    have hannE : annAt ga (L + (bLen x + 1)) = insert k o := by
      rw [hann (bLen x + 1) (by simp only [bLen]; omega)]
      simp only [annots]
      rw [getD_cons_eq_add _ _ _ (bLen x + 1) (bLen x) rfl]
      rw [getD_append_len_add (annots x (insert k o)) [insert k o] ∅
        (bLen x) 0 (by rw [annots_length]; omega)]
      rfl
    rcases Nat.lt_or_ge j 1 with hj1 | hj1
    · have hj0 : j = 0 := by omega
      subst hj0
      have hi : gi.getD (L + 0) Inst.Match = Inst.Save (2 * k) := by
        rw [hins 0 (by simp only [bLen]; omega)]
        rfl
      unfold EdgeOk
      rw [hi]
      simp only [instEdgeOk]
      constructor
      · omega
      · rw [if_pos (show 2 * k % 2 = 0 by omega)]
        rw [show 2 * k / 2 = k by omega]
        have e : L + 0 + 1 = L + 1 := by omega
        rw [e, hann1, hann0]
    rcases Nat.lt_or_ge j (bLen x + 1) with hj2 | hj2
    · have hanc2 : ∀ j2, j2 ∈ insert k o → (k :: anc).contains j2 = true := by
        intro j2 hj2m
        rcases Finset.mem_insert.1 hj2m with h | h
        · subst h
          simp
        · have h1 := hanc j2 h
          simp [List.contains_cons]
          exact Or.inr (by simpa using h1)
      have hins2 : ∀ j2, j2 < bLen x →
          gi.getD (L + 1 + j2) Inst.Match =
            (emit x (L + 1)).getD j2 Inst.Match := by
        intro j2 hj2b
        have e : L + 1 + j2 = L + (j2 + 1) := by omega
        rw [e, hins (j2 + 1) (by simp only [bLen]; omega)]
        simp only [emit]
        rw [getD_cons_eq_add _ _ _ (j2 + 1) j2 rfl]
        rw [getD_append_lt _ _ _ _ (by rw [emit_length]; omega)]
      have hann2 : ∀ j2, j2 < bLen x →
          annAt ga (L + 1 + j2) = (annots x (insert k o)).getD j2 ∅ := by
        intro j2 hj2b
        have e : L + 1 + j2 = L + (j2 + 1) := by omega
        rw [e, hann (j2 + 1) (by simp only [bLen]; omega)]
        simp only [annots]
        rw [getD_cons_eq_add _ _ _ (j2 + 1) j2 rfl]
        rw [getD_append_lt _ _ _ _ (by rw [annots_length]; omega)]
      have hexit2 : annAt ga (L + 1 + bLen x) = insert k o := by
        have e : L + 1 + bLen x = L + (bLen x + 1) := by omega
        rw [e]
        exact hannE
      have hss := ih (insert k o) (k :: anc) (L + 1) hwfx hanc2 hins2 hann2
        hexit2 (by omega) (j - 1) (by omega)
      have e : L + 1 + (j - 1) = L + j := by omega
      rwa [e] at hss
    · have hj3 : j = bLen x + 1 := by omega
      subst hj3
      have hi : gi.getD (L + (bLen x + 1)) Inst.Match =
          Inst.Save (2 * k + 1) := by
        rw [hins (bLen x + 1) (by simp only [bLen]; omega)]
        simp only [emit]
        rw [getD_cons_eq_add _ _ _ (bLen x + 1) (bLen x) rfl]
        rw [getD_append_len_add (emit x (L + 1)) [Inst.Save (2 * k + 1)]
          Inst.Match (bLen x) 0 (by rw [emit_length]; omega)]
        rfl
      unfold EdgeOk
      rw [hi]
      simp only [instEdgeOk]
      constructor
      · omega
      · rw [if_neg (show ¬ (2 * k + 1) % 2 = 0 by omega)]
        rw [show (2 * k + 1) / 2 = k by omega]
        constructor
        · rw [hannE]
          exact Finset.mem_insert_self k o
        · have e : L + (bLen x + 1) + 1 = L + (bLen x + 2) := by omega
          rw [e, hexit, hannE]
          exact (Finset.erase_insert hknot).symm
  | Cat x y ihx ihy =>
    intro o anc L hwf hanc hins hann hexit hlt j hj
    simp only [bLen] at hj hlt hexit
    simp only [wfCapsB, Bool.and_eq_true] at hwf
    obtain ⟨hwfx, hwfy⟩ := hwf
    have hinsx : ∀ j2, j2 < bLen x →
        gi.getD (L + j2) Inst.Match = (emit x L).getD j2 Inst.Match := by
      intro j2 hj2
      rw [hins j2 (by simp only [bLen]; omega)]
      simp only [emit]
      rw [getD_append_lt _ _ _ _ (by rw [emit_length]; omega)]
    have hannx : ∀ j2, j2 < bLen x →
        annAt ga (L + j2) = (annots x o).getD j2 ∅ := by
      intro j2 hj2
      rw [hann j2 (by simp only [bLen]; omega)]
      simp only [annots]
      rw [getD_append_lt _ _ _ _ (by rw [annots_length]; omega)]
    have hexitx : annAt ga (L + bLen x) = o := by
      by_cases hby : bLen y = 0
      · have e : L + bLen x = L + (bLen x + bLen y) := by omega
        rw [e]
        exact hexit
      · rw [hann (bLen x) (by simp only [bLen]; omega)]
        simp only [annots]
        rw [getD_append_len_add (annots x o) (annots y o) ∅ (bLen x) 0
          (by rw [annots_length]; omega)]
        exact annots_getD_zero y o hby
    rcases Nat.lt_or_ge j (bLen x) with hjx | hjx
    · exact ihx o anc L hwfx hanc hinsx hannx hexitx (by omega) j hjx
    · have hinsy : ∀ j2, j2 < bLen y →
          gi.getD (L + bLen x + j2) Inst.Match =
            (emit y (L + bLen x)).getD j2 Inst.Match := by
        intro j2 hj2
        have e : L + bLen x + j2 = L + (bLen x + j2) := by omega
        rw [e, hins (bLen x + j2) (by simp only [bLen]; omega)]
        simp only [emit]
        rw [getD_append_len_add (emit x L) (emit y (L + bLen x)) Inst.Match
          (bLen x + j2) j2 (by rw [emit_length])]
      have hanny : ∀ j2, j2 < bLen y →
          annAt ga (L + bLen x + j2) = (annots y o).getD j2 ∅ := by
        intro j2 hj2
        have e : L + bLen x + j2 = L + (bLen x + j2) := by omega
        rw [e, hann (bLen x + j2) (by simp only [bLen]; omega)]
        simp only [annots]
        rw [getD_append_len_add (annots x o) (annots y o) ∅
          (bLen x + j2) j2 (by rw [annots_length])]
      have hexity : annAt ga (L + bLen x + bLen y) = o := by
        have e : L + bLen x + bLen y = L + (bLen x + bLen y) := by omega
        rw [e]
        exact hexit
      have hss := ihy o anc (L + bLen x) hwfy hanc hinsy hanny hexity
        (by omega) (j - bLen x) (by omega)
      have e : L + bLen x + (j - bLen x) = L + j := by omega
      rwa [e] at hss
  | Alt x y ihx ihy =>
    intro o anc L hwf hanc hins hann hexit hlt j hj
    simp only [bLen] at hj hlt hexit
    simp only [wfCapsB, Bool.and_eq_true] at hwf
    obtain ⟨hwfx, hwfy⟩ := hwf
    have hann0 : annAt ga (L + 0) = o := by
      rw [hann 0 (by simp only [bLen]; omega)]
      rfl
    have hann1 : annAt ga (L + 1) = o := by
      rw [hann 1 (by simp only [bLen]; omega)]
      simp only [annots]
      rw [getD_cons_eq_add _ _ _ 1 0 rfl]
      by_cases hbx : bLen x = 0
      · rw [annots_nil_of_bLen x o hbx, List.nil_append]
        rfl
      · rw [getD_append_lt _ _ _ _ (by rw [annots_length]; omega)]
        exact annots_getD_zero x o hbx
    have hannJ : annAt ga (L + (bLen x + 1)) = o := by
      rw [hann (bLen x + 1) (by simp only [bLen]; omega)]
      simp only [annots]
      rw [getD_cons_eq_add _ _ _ (bLen x + 1) (bLen x) rfl]
      rw [getD_append_len_add (annots x o) (o :: annots y o) ∅ (bLen x) 0
        (by rw [annots_length]; omega)]
      rfl
    have hannY : annAt ga (L + (bLen x + 2)) = o := by
      by_cases hby : bLen y = 0
      · have e : L + (bLen x + 2) = L + (bLen x + bLen y + 2) := by omega
        rw [e]
        exact hexit
      · rw [hann (bLen x + 2) (by simp only [bLen]; omega)]
        simp only [annots]
        rw [getD_cons_eq_add _ _ _ (bLen x + 2) (bLen x + 1) rfl]
        rw [getD_append_len_add (annots x o) (o :: annots y o) ∅
          (bLen x + 1) 1 (by rw [annots_length]; try omega)]
        rw [getD_cons_eq_add _ _ _ 1 0 rfl]
        exact annots_getD_zero y o hby
    rcases Nat.lt_or_ge j 1 with hj1 | hj1
    · have hj0 : j = 0 := by omega
      subst hj0
      have hi : gi.getD (L + 0) Inst.Match =
          Inst.Split (L + 1) (L + 2 + bLen x) := by
        rw [hins 0 (by simp only [bLen]; omega)]
        rfl
      unfold EdgeOk
      rw [hi]
      simp only [instEdgeOk]
      refine ⟨by omega, by omega, ?_, ?_⟩
      · rw [hann1, hann0]
      · have e : L + 2 + bLen x = L + (bLen x + 2) := by omega
        rw [e, hannY, hann0]
    rcases Nat.lt_or_ge j (bLen x + 1) with hj2 | hj2
    · have hins2 : ∀ j2, j2 < bLen x →
          gi.getD (L + 1 + j2) Inst.Match =
            (emit x (L + 1)).getD j2 Inst.Match := by
        intro j2 hj2b
        have e : L + 1 + j2 = L + (j2 + 1) := by omega
        rw [e, hins (j2 + 1) (by simp only [bLen]; omega)]
        simp only [emit]
        rw [getD_cons_eq_add _ _ _ (j2 + 1) j2 rfl]
        rw [getD_append_lt _ _ _ _ (by rw [emit_length]; omega)]
      have hann2 : ∀ j2, j2 < bLen x →
          annAt ga (L + 1 + j2) = (annots x o).getD j2 ∅ := by
        intro j2 hj2b
        have e : L + 1 + j2 = L + (j2 + 1) := by omega
        rw [e, hann (j2 + 1) (by simp only [bLen]; omega)]
        simp only [annots]
        rw [getD_cons_eq_add _ _ _ (j2 + 1) j2 rfl]
        rw [getD_append_lt _ _ _ _ (by rw [annots_length]; omega)]
      have hexit2 : annAt ga (L + 1 + bLen x) = o := by
        have e : L + 1 + bLen x = L + (bLen x + 1) := by omega
        rw [e]
        exact hannJ
      have hss := ihx o anc (L + 1) hwfx hanc hins2 hann2 hexit2
        (by omega) (j - 1) (by omega)
      have e : L + 1 + (j - 1) = L + j := by omega
      rwa [e] at hss
    rcases Nat.lt_or_ge j (bLen x + 2) with hj3 | hj3
    · have hjJ : j = bLen x + 1 := by omega
      subst hjJ
      have hi : gi.getD (L + (bLen x + 1)) Inst.Match =
          Inst.Jump (L + 2 + bLen x + bLen y) := by
        rw [hins (bLen x + 1) (by simp only [bLen]; omega)]
        simp only [emit]
        rw [getD_cons_eq_add _ _ _ (bLen x + 1) (bLen x) rfl]
        rw [getD_append_len_add (emit x (L + 1))
          (Inst.Jump (L + 2 + bLen x + bLen y) :: emit y (L + 2 + bLen x))
          Inst.Match (bLen x) 0 (by rw [emit_length]; omega)]
        rfl
      unfold EdgeOk
      rw [hi]
      simp only [instEdgeOk]
      refine ⟨by omega, ?_⟩
      have e : L + 2 + bLen x + bLen y = L + (bLen x + bLen y + 2) := by omega
      rw [e, hexit, hannJ]
    · have hins2 : ∀ j2, j2 < bLen y →
          gi.getD (L + 2 + bLen x + j2) Inst.Match =
            (emit y (L + 2 + bLen x)).getD j2 Inst.Match := by
        intro j2 hj2b
        have e : L + 2 + bLen x + j2 = L + (bLen x + 2 + j2) := by omega
        rw [e, hins (bLen x + 2 + j2) (by simp only [bLen]; omega)]
        simp only [emit]
        rw [getD_cons_eq_add _ _ _ (bLen x + 2 + j2) (bLen x + 1 + j2)
          (by omega)]
        rw [getD_append_len_add (emit x (L + 1))
          (Inst.Jump (L + 2 + bLen x + bLen y) :: emit y (L + 2 + bLen x))
          Inst.Match (bLen x + 1 + j2) (1 + j2) (by rw [emit_length]; omega)]
        rw [getD_cons_eq_add _ _ _ (1 + j2) j2 (by omega)]
      have hann2 : ∀ j2, j2 < bLen y →
          annAt ga (L + 2 + bLen x + j2) = (annots y o).getD j2 ∅ := by
        intro j2 hj2b
        have e : L + 2 + bLen x + j2 = L + (bLen x + 2 + j2) := by omega
        rw [e, hann (bLen x + 2 + j2) (by simp only [bLen]; omega)]
        simp only [annots]
        rw [getD_cons_eq_add _ _ _ (bLen x + 2 + j2) (bLen x + 1 + j2)
          (by omega)]
        rw [getD_append_len_add (annots x o) (o :: annots y o) ∅
          (bLen x + 1 + j2) (1 + j2) (by rw [annots_length]; omega)]
        rw [getD_cons_eq_add _ _ _ (1 + j2) j2 (by omega)]
      have hexit2 : annAt ga (L + 2 + bLen x + bLen y) = o := by
        have e : L + 2 + bLen x + bLen y = L + (bLen x + bLen y + 2) := by
          omega
        rw [e]
        exact hexit
      have hss := ihy o anc (L + 2 + bLen x) hwfy hanc hins2 hann2 hexit2
        (by omega) (j - (bLen x + 2)) (by omega)
      have e : L + 2 + bLen x + (j - (bLen x + 2)) = L + j := by omega
      rwa [e] at hss
  | Rep x r g ih =>
    intro o anc L hwf hanc hins hann hexit hlt j hj
    have hwfx : wfCapsB x anc = true := hwf
    cases r with
    | ZeroOne =>
      simp only [bLen] at hj hlt hexit
      have hann0 : annAt ga (L + 0) = o := by
        rw [hann 0 (by simp only [bLen]; omega)]
        rfl
      have hann1 : annAt ga (L + 1) = o := by
        by_cases hbx : bLen x = 0
        · have e : L + 1 = L + (bLen x + 1) := by omega
          rw [e]
          exact hexit
        · rw [hann 1 (by simp only [bLen]; omega)]
          simp only [annots]
          rw [getD_cons_eq_add _ _ _ 1 0 rfl]
          exact annots_getD_zero x o hbx
      have hannE : annAt ga (L + 1 + bLen x) = o := by
        have e : L + 1 + bLen x = L + (bLen x + 1) := by omega
        rw [e]
        exact hexit
      rcases Nat.lt_or_ge j 1 with hj1 | hj1
      · have hj0 : j = 0 := by omega
        subst hj0
        have hi : gi.getD (L + 0) Inst.Match =
            (if g.is_greedy then Inst.Split (L + 1) (L + 1 + bLen x)
             else Inst.Split (L + 1 + bLen x) (L + 1)) := by
          rw [hins 0 (by simp only [bLen]; omega)]
          rfl
        unfold EdgeOk
        by_cases hg : g.is_greedy = true
        · rw [hi, if_pos hg]
          simp only [instEdgeOk]
          refine ⟨by omega, by omega, ?_, ?_⟩
          · rw [hann1, hann0]
          · rw [hannE, hann0]
        · rw [hi, if_neg hg]
          simp only [instEdgeOk]
          refine ⟨by omega, by omega, ?_, ?_⟩
          · rw [hannE, hann0]
          · rw [hann1, hann0]
      · have hins2 : ∀ j2, j2 < bLen x →
            gi.getD (L + 1 + j2) Inst.Match =
              (emit x (L + 1)).getD j2 Inst.Match := by
          intro j2 hj2b
          have e : L + 1 + j2 = L + (j2 + 1) := by omega
          rw [e, hins (j2 + 1) (by simp only [bLen]; omega)]
          simp only [emit]
          rw [getD_cons_eq_add _ _ _ (j2 + 1) j2 rfl]
        have hann2 : ∀ j2, j2 < bLen x →
            annAt ga (L + 1 + j2) = (annots x o).getD j2 ∅ := by
          intro j2 hj2b
          have e : L + 1 + j2 = L + (j2 + 1) := by omega
          rw [e, hann (j2 + 1) (by simp only [bLen]; omega)]
          simp only [annots]
          rw [getD_cons_eq_add _ _ _ (j2 + 1) j2 rfl]
        have hss := ih o anc (L + 1) hwfx hanc hins2 hann2 hannE
          (by omega) (j - 1) (by omega)
        have e : L + 1 + (j - 1) = L + j := by omega
        rwa [e] at hss
    | ZeroMore =>
      simp only [bLen] at hj hlt hexit
      have hann0 : annAt ga (L + 0) = o := by
        rw [hann 0 (by simp only [bLen]; omega)]
        rfl
      have hann1 : annAt ga (L + 1) = o := by
        rw [hann 1 (by simp only [bLen]; omega)]
        simp only [annots]
        rw [getD_cons_eq_add _ _ _ 1 0 rfl]
        by_cases hbx : bLen x = 0
        · rw [annots_nil_of_bLen x o hbx, List.nil_append]
          rfl
        · rw [getD_append_lt _ _ _ _ (by rw [annots_length]; omega)]
          exact annots_getD_zero x o hbx
      have hannJ : annAt ga (L + (bLen x + 1)) = o := by
        rw [hann (bLen x + 1) (by simp only [bLen]; omega)]
        simp only [annots]
        rw [getD_cons_eq_add _ _ _ (bLen x + 1) (bLen x) rfl]
        rw [getD_append_len_add (annots x o) [o] ∅ (bLen x) 0
          (by rw [annots_length]; try omega)]
        rfl
      rcases Nat.lt_or_ge j 1 with hj1 | hj1
      · have hj0 : j = 0 := by omega
        subst hj0
        have hi : gi.getD (L + 0) Inst.Match =
            (if g.is_greedy then Inst.Split (L + 1) (L + 2 + bLen x)
             else Inst.Split (L + 2 + bLen x) (L + 1)) := by
          rw [hins 0 (by simp only [bLen]; omega)]
          rfl
        have hannX : annAt ga (L + 2 + bLen x) = o := by
          have e : L + 2 + bLen x = L + (bLen x + 2) := by omega
          rw [e]
          exact hexit
        unfold EdgeOk
        by_cases hg : g.is_greedy = true
        · rw [hi, if_pos hg]
          simp only [instEdgeOk]
          refine ⟨by omega, by omega, ?_, ?_⟩
          · rw [hann1, hann0]
          · rw [hannX, hann0]
        · rw [hi, if_neg hg]
          simp only [instEdgeOk]
          refine ⟨by omega, by omega, ?_, ?_⟩
          · rw [hannX, hann0]
          · rw [hann1, hann0]
      rcases Nat.lt_or_ge j (bLen x + 1) with hj2 | hj2
      · have hins2 : ∀ j2, j2 < bLen x →
            gi.getD (L + 1 + j2) Inst.Match =
              (emit x (L + 1)).getD j2 Inst.Match := by
          intro j2 hj2b
          have e : L + 1 + j2 = L + (j2 + 1) := by omega
          rw [e, hins (j2 + 1) (by simp only [bLen]; omega)]
          simp only [emit]
          rw [getD_cons_eq_add _ _ _ (j2 + 1) j2 rfl]
          rw [getD_append_lt _ _ _ _ (by rw [emit_length]; omega)]
        have hann2 : ∀ j2, j2 < bLen x →
            annAt ga (L + 1 + j2) = (annots x o).getD j2 ∅ := by
          intro j2 hj2b
          have e : L + 1 + j2 = L + (j2 + 1) := by omega
          rw [e, hann (j2 + 1) (by simp only [bLen]; omega)]
          simp only [annots]
          rw [getD_cons_eq_add _ _ _ (j2 + 1) j2 rfl]
          rw [getD_append_lt _ _ _ _ (by rw [annots_length]; omega)]
        have hexit2 : annAt ga (L + 1 + bLen x) = o := by
          have e : L + 1 + bLen x = L + (bLen x + 1) := by omega
          rw [e]
          exact hannJ
        have hss := ih o anc (L + 1) hwfx hanc hins2 hann2 hexit2
          (by omega) (j - 1) (by omega)
        have e : L + 1 + (j - 1) = L + j := by omega
        rwa [e] at hss
      · have hjJ : j = bLen x + 1 := by omega
        subst hjJ
        have hi : gi.getD (L + (bLen x + 1)) Inst.Match = Inst.Jump L := by
          rw [hins (bLen x + 1) (by simp only [bLen]; omega)]
          simp only [emit]
          rw [getD_cons_eq_add _ _ _ (bLen x + 1) (bLen x) rfl]
          rw [getD_append_len_add (emit x (L + 1)) [Inst.Jump L]
            Inst.Match (bLen x) 0 (by rw [emit_length]; try omega)]
          rfl
        unfold EdgeOk
        rw [hi]
        simp only [instEdgeOk]
        refine ⟨by omega, ?_⟩
        have e : annAt ga L = annAt ga (L + 0) := by
          rw [Nat.add_zero]
        rw [e, hann0, hannJ]
    | OneMore =>
      simp only [bLen] at hj hlt hexit
      have hins2 : ∀ j2, j2 < bLen x →
          gi.getD (L + j2) Inst.Match = (emit x L).getD j2 Inst.Match := by
        intro j2 hj2b
        rw [hins j2 (by simp only [bLen]; omega)]
        simp only [emit]
        rw [getD_append_lt _ _ _ _ (by rw [emit_length]; omega)]
      have hann2 : ∀ j2, j2 < bLen x →
          annAt ga (L + j2) = (annots x o).getD j2 ∅ := by
        intro j2 hj2b
        rw [hann j2 (by simp only [bLen]; omega)]
        simp only [annots]
        rw [getD_append_lt _ _ _ _ (by rw [annots_length]; omega)]
      have hexit2 : annAt ga (L + bLen x) = o := by
        rw [hann (bLen x) (by simp only [bLen]; omega)]
        simp only [annots]
        rw [getD_append_len_add (annots x o) [o] ∅ (bLen x) 0
          (by rw [annots_length]; try omega)]
        rfl
      have hann0 : annAt ga (L + 0) = o := by
        by_cases hbx : bLen x = 0
        · have e : L + 0 = L + bLen x := by omega
          rw [e]
          exact hexit2
        · rw [hann 0 (by simp only [bLen]; omega)]
          simp only [annots]
          rw [getD_append_lt _ _ _ _ (by rw [annots_length]; omega)]
          exact annots_getD_zero x o hbx
      rcases Nat.lt_or_ge j (bLen x) with hjx | hjx
      · exact ih o anc L hwfx hanc hins2 hann2 hexit2 (by omega) j hjx
      · have hjJ : j = bLen x := by omega
        subst hjJ
        have hi : gi.getD (L + bLen x) Inst.Match =
            (if g.is_greedy then Inst.Split L (L + 1 + bLen x)
             else Inst.Split (L + 1 + bLen x) L) := by
          rw [hins (bLen x) (by simp only [bLen]; omega)]
          simp only [emit]
          rw [getD_append_len_add (emit x L)
            [if g.is_greedy then Inst.Split L (L + 1 + bLen x)
             else Inst.Split (L + 1 + bLen x) L]
            Inst.Match (bLen x) 0 (by rw [emit_length]; try omega)]
          rfl
        have hannX : annAt ga (L + 1 + bLen x) = o := by
          have e : L + 1 + bLen x = L + (bLen x + 1) := by omega
          rw [e]
          exact hexit
        have hannL : annAt ga L = o := by
          have e : annAt ga L = annAt ga (L + 0) := by
            rw [Nat.add_zero]
          rw [e, hann0]
        unfold EdgeOk
        by_cases hg : g.is_greedy = true
        · rw [hi, if_pos hg]
          simp only [instEdgeOk]
          refine ⟨by omega, by omega, ?_, ?_⟩
          · rw [hannL, hexit2]
          · rw [hannX, hexit2]
        · rw [hi, if_neg hg]
          simp only [instEdgeOk]
          refine ⟨by omega, by omega, ?_, ?_⟩
          · rw [hannX, hexit2]
          · rw [hannL, hexit2]

/-- The whole compiled program is correctly annotated whenever the AST has
distinct capture indices along every nesting chain. -/
theorem progNew_annot (ast : Ast) (h : wfCapsB ast [0] = true) :
    OkAnnot (Program.new ast).insts (progAnn ast) := by
  have hlen : (Program.new ast).insts.length = bLen ast + 3 := progNew_length ast
  have hins : ∀ j, j < bLen ast →
      (Program.new ast).insts.getD (1 + j) Inst.Match =
        (emit ast 1).getD j Inst.Match := by
    intro j hj
    rw [progNew_insts]
    rw [getD_cons_eq_add _ _ _ (1 + j) j (by omega)]
    rw [getD_append_lt _ _ _ _ (by rw [emit_length]; omega)]
  have hann : ∀ j, j < bLen ast →
      annAt (progAnn ast) (1 + j) = (annots ast {0}).getD j ∅ := by
    intro j hj
    unfold progAnn annAt
    rw [getD_cons_eq_add _ _ _ (1 + j) j (by omega)]
    rw [getD_append_lt _ _ _ _ (by rw [annots_length]; omega)]
  have hann0 : annAt (progAnn ast) 0 = ∅ := rfl
  have hann1 : annAt (progAnn ast) 1 = {0} := by
    unfold progAnn annAt
    rw [getD_cons_eq_add _ _ _ 1 0 rfl]
    by_cases hb : bLen ast = 0
    · rw [annots_nil_of_bLen ast _ hb, List.nil_append]
      rfl
    · rw [getD_append_lt _ _ _ _ (by rw [annots_length]; omega)]
      exact annots_getD_zero ast _ hb
  have hannS : annAt (progAnn ast) (1 + bLen ast) = {0} := by
    unfold progAnn annAt
    rw [getD_cons_eq_add _ _ _ (1 + bLen ast) (bLen ast) (by omega)]
    rw [getD_append_len_add (annots ast {0}) [{0}, ∅] ∅ (bLen ast) 0
      (by rw [annots_length]; try omega)]
    rfl
  have hannM : annAt (progAnn ast) (2 + bLen ast) = ∅ := by
    unfold progAnn annAt
    rw [getD_cons_eq_add _ _ _ (2 + bLen ast) (1 + bLen ast) (by omega)]
    rw [getD_append_len_add (annots ast {0}) [{0}, ∅] ∅ (1 + bLen ast) 1
      (by rw [annots_length]; try omega)]
    rfl
  have hexit : annAt (progAnn ast) (1 + bLen ast) = ({0} : Finset Nat) :=
    hannS
  constructor
  · rw [progAnn_length, hlen]
  · intro pc hpc
    rw [hlen] at hpc
    rcases Nat.lt_or_ge pc 1 with hpc1 | hpc1
    · have hpc0 : pc = 0 := by omega
      subst hpc0
      have hi : (Program.new ast).insts.getD 0 Inst.Match = Inst.Save 0 := by
        rw [progNew_insts]
        rfl
      unfold EdgeOk
      rw [hi]
      simp only [instEdgeOk]
      refine ⟨by omega, ?_⟩
      simp [hann1, hann0]
    rcases Nat.lt_or_ge pc (1 + bLen ast) with hpc2 | hpc2
    · have hbody := emit_annot_ok (Program.new ast).insts (progAnn ast) ast
        {0} [0] 1 h
        (by
          intro j2 hj2
          have hj0 : j2 = 0 := Finset.mem_singleton.1 hj2
          subst hj0
          rfl)
        hins hann hexit (by omega) (pc - 1) (by omega)
      have e : 1 + (pc - 1) = pc := by omega
      rwa [e] at hbody
    rcases Nat.lt_or_ge pc (2 + bLen ast) with hpc3 | hpc3
    · have hpcS : pc = 1 + bLen ast := by omega
      subst hpcS
      have hi : (Program.new ast).insts.getD (1 + bLen ast) Inst.Match =
          Inst.Save 1 := by
        rw [progNew_insts]
        rw [getD_cons_eq_add _ _ _ (1 + bLen ast) (bLen ast) (by omega)]
        rw [getD_append_len_add (emit ast 1) [Inst.Save 1, Inst.Match]
          Inst.Match (bLen ast) 0 (by rw [emit_length]; try omega)]
        rfl
      unfold EdgeOk
      rw [hi]
      simp only [instEdgeOk]
      refine ⟨by omega, ?_⟩
      have e : 1 + bLen ast + 1 = 2 + bLen ast := by omega
      simp [e, hannS, hannM, Finset.erase_singleton]
    · have hpcM : pc = 2 + bLen ast := by omega
      subst hpcM
      have hi : (Program.new ast).insts.getD (2 + bLen ast) Inst.Match =
          Inst.Match := by
        rw [progNew_insts]
        rw [getD_cons_eq_add _ _ _ (2 + bLen ast) (1 + bLen ast) (by omega)]
        rw [getD_append_len_add (emit ast 1) [Inst.Save 1, Inst.Match]
          Inst.Match (1 + bLen ast) 1 (by rw [emit_length]; try omega)]
        rfl
      unfold EdgeOk
      rw [hi]
      simp only [instEdgeOk]
      exact hannM

theorem paired_bal (g : List (Option Nat)) (h : Paired g) :
    Bal ∅ g := by
  intro k hk
  exact ⟨fun hmem => absurd hmem (Finset.not_mem_empty k),
    fun _ => h k hk⟩

theorem getD_replicate {α : Type _} (a d : α) (n i : Nat) (h : i < n) :
    (List.replicate n a).getD i d = a := by
  induction n generalizing i with
  | zero => omega
  | succ m ih =>
    cases i with
    | zero => rfl
    | succ i2 =>
      show (List.replicate m a).getD i2 d = a
      exact ih i2 (by omega)

theorem paired_replicate (m : Nat) : Paired (List.replicate m none) := by
  intro k hk
  rw [List.length_replicate] at hk
  rw [getD_replicate _ _ _ _ (by omega), getD_replicate _ _ _ _ (by omega)]

theorem threadsNew_qbal (insts : List Inst) (ann : List (Finset Nat))
    (which : MatchKind) (numInsts numCaps : Nat) :
    QBal insts ann (numCaps * 2) (Threads.new which numInsts numCaps) := by
  refine ⟨by simp [Threads.new], ?_, ?_⟩
  · intro i hi
    simp only [Threads.new] at hi ⊢
    rw [List.length_replicate] at hi
    rw [getD_replicate _ _ _ _ hi]
    simp
  · intro i hi
    simp [Threads.new] at hi

theorem threadsEmpty_qbal (insts : List Inst) (ann : List (Finset Nat))
    (glen : Nat) (t : Threads) (h : QBal insts ann glen t) :
    QBal insts ann glen t.empty := by
  refine ⟨by simp [Threads.empty], ?_, ?_⟩
  · intro i hi
    exact h.2.1 i hi
  · intro i hi
    simp [Threads.empty] at hi

theorem threadsAdd_which (t : Threads) (pc : Nat)
    (groups : List (Option Nat)) (empty : Bool) :
    (t.add pc groups empty).which = t.which := by
  unfold Threads.add
  split
  · rfl
  · rfl

theorem threadsEmpty_which (t : Threads) : t.empty.which = t.which := rfl

/-- Writing one fresh entry at slot `size` preserves the queue balance
invariant, provided the new capture array is itself balanced (when the pc
carries a snapshot). -/
theorem qbal_set_entry (insts : List Inst) (ann : List (Finset Nat))
    (glen : Nat) (t : Threads) (pc : Nat) (g2 : List (Option Nat))
    (sp : List Nat)
    (hq : QBal insts ann glen t) (hroom : t.size < t.queue.length)
    (hg2len : g2.length = glen)
    (hg2 : snapshotInst insts pc = true → Bal (annAt ann pc) g2) :
    QBal insts ann glen
      { t with queue := t.queue.set t.size ⟨pc, g2⟩
               sparse := sp
               size := t.size + 1 } := by
  obtain ⟨hsz, hlen, hbal⟩ := hq
  refine ⟨?_, ?_, ?_⟩
  · show t.size + 1 ≤ (t.queue.set t.size ⟨pc, g2⟩).length
    simp only [List.length_set]
    omega
  · intro i hi
    replace hi : i < t.queue.length := by
      simpa using hi
    show ((t.queue.set t.size ⟨pc, g2⟩).getD i default).groups.length = glen
    by_cases hieq : i = t.size
    · subst hieq
      rw [getD_set_self _ _ _ _ hroom]
      exact hg2len
    · rw [getD_set_ne _ _ _ (fun he => hieq he.symm)]
      exact hlen i hi
  · intro i hi hsn
    replace hi : i < t.size + 1 := hi
    replace hsn : snapshotInst insts
        (((t.queue.set t.size ⟨pc, g2⟩).getD i default).pc) = true := hsn
    show Bal (annAt ann (((t.queue.set t.size ⟨pc, g2⟩).getD i default).pc))
      (((t.queue.set t.size ⟨pc, g2⟩).getD i default).groups)
    by_cases hieq : i = t.size
    · subst hieq
      rw [getD_set_self _ _ _ _ hroom] at hsn ⊢
      exact hg2 hsn
    · rw [getD_set_ne _ _ _ (fun he => hieq he.symm)] at hsn ⊢
      exact hbal i (by omega) hsn

/-- `Threads::add` preserves the queue balance invariant: the new slot is
either an `empty` (non-snapshot) thread, which the invariant ignores, or
carries capture groups balanced at its instruction. -/
theorem threadsAdd_qbal (insts : List Inst) (ann : List (Finset Nat))
    (glen : Nat) (t : Threads) (pc : Nat) (groups : List (Option Nat))
    (empty : Bool)
    (hq : QBal insts ann glen t)
    (hsnap : snapshotInst insts pc = true → empty = false)
    (hg : empty = false → groups.length = glen ∧ Bal (annAt ann pc) groups)
    (hloc : t.which = .Location → glen = 2)
    (hex : t.which = .Exists → glen = 0) :
    QBal insts ann glen (t.add pc groups empty) := by
  have hlen := hq.2.1
  by_cases hroom : t.size < t.queue.length
  · cases empty with
    | true =>
      have hEq : t.add pc groups true =
          { t with
            queue := (t.queue.set t.size
              ⟨pc, (t.queue.getD t.size default).groups⟩)
            sparse := t.sparse.set pc t.size
            size := t.size + 1 } := by
        unfold Threads.add
        rw [if_pos hroom]
        cases hwv : t.which <;> rfl
      rw [hEq]
      exact qbal_set_entry insts ann glen t pc _ _ hq hroom
        (hlen t.size hroom)
        (fun hs => absurd (hsnap hs) (by simp))
    | false =>
      cases hwv : t.which with
      | Exists =>
        have hEq : t.add pc groups false =
            { t with
              queue := (t.queue.set t.size
                ⟨pc, (t.queue.getD t.size default).groups⟩)
              sparse := t.sparse.set pc t.size
              size := t.size + 1 } := by
          unfold Threads.add
          rw [if_pos hroom, hwv]
        rw [hEq]
        exact qbal_set_entry insts ann glen t pc _ _ hq hroom
          (hlen t.size hroom)
          (fun _ => bal_nil _ _ (by rw [hlen t.size hroom, hex hwv]))
      | Location =>
        have hglen : glen = 2 := hloc hwv
        have hold : (t.queue.getD t.size default).groups.length = 2 := by
          rw [hlen t.size hroom, hglen]
        obtain ⟨hgl, hgb⟩ := hg rfl
        have hEq : t.add pc groups false =
            { t with
              queue := (t.queue.set t.size
                ⟨pc, ((t.queue.getD t.size default).groups.set 0
                  (groups.getD 0 none)).set 1 (groups.getD 1 none)⟩)
              sparse := t.sparse.set pc t.size
              size := t.size + 1 } := by
          unfold Threads.add
          rw [if_pos hroom, hwv]
        rw [hEq]
        refine qbal_set_entry insts ann glen t pc _ _ hq hroom
          (by rw [List.length_set, List.length_set, hglen]; exact hold)
          (fun _ => ?_)
        intro k hk
        rw [List.length_set, List.length_set, hold] at hk
        have hk0 : k = 0 := by omega
        subst hk0
        have he0 : (((t.queue.getD t.size default).groups.set 0
            (groups.getD 0 none)).set 1 (groups.getD 1 none)).getD 0 none =
            groups.getD 0 none := by
          rw [getD_set_ne _ _ _ (by omega),
            getD_set_self _ _ _ _ (by rw [hold]; omega)]
        have he1 : (((t.queue.getD t.size default).groups.set 0
            (groups.getD 0 none)).set 1 (groups.getD 1 none)).getD 1 none =
            groups.getD 1 none := by
          rw [getD_set_self _ _ _ _ (by rw [List.length_set, hold]; omega)]
        simp only [Nat.mul_zero, Nat.zero_add]
        rw [he0, he1]
        have hb0 := hgb 0 (by rw [hgl, hglen]; omega)
        simpa using hb0
      | Submatches =>
        have hEq : t.add pc groups false =
            { t with
              queue := t.queue.set t.size ⟨pc, groups⟩
              sparse := t.sparse.set pc t.size
              size := t.size + 1 } := by
          unfold Threads.add
          rw [if_pos hroom, hwv]
        rw [hEq]
        exact qbal_set_entry insts ann glen t pc _ _ hq hroom
          (hg rfl).1 (fun _ => (hg rfl).2)
  · have hEq : t.add pc groups empty = t := by
      unfold Threads.add
      rw [if_neg hroom]
    rw [hEq]
    exact hq

theorem getD_default_of_ge {α : Type _} (l : List α) (d : α) (n : Nat)
    (h : l.length ≤ n) : l.getD n d = d := by
  induction l generalizing n with
  | nil => rfl
  | cons a t ih =>
    cases n with
    | zero => simp at h
    | succ m =>
      show t.getD m d = d
      exact ih m (by simpa using h)

theorem nfaAddF_which (n : Nfa) (chars : CharReader) (ic : Nat) :
    ∀ (fuel : Nat) (nlist : Threads) (pc : Nat) (groups : List (Option Nat)),
    (nfaAddF n chars ic fuel nlist pc groups).which = nlist.which := by
  intro fuel
  induction fuel with
  | zero => intro nlist pc groups; rfl
  | succ fuel ih =>
    intro nlist pc groups
    rw [nfaAddF]
    by_cases hc : nlist.contains pc
    · rw [if_pos hc]
    · rw [if_neg hc]
      cases hinst : n.insts.getD pc Inst.Match
      · exact threadsAdd_which nlist pc groups false
      · exact threadsAdd_which nlist pc groups false
      · exact threadsAdd_which nlist pc groups false
      · exact threadsAdd_which nlist pc groups false
      · dsimp only
        split
        · rw [ih, threadsAdd_which]
        · exact threadsAdd_which nlist pc groups true
      · dsimp only
        split
        · rw [ih, threadsAdd_which]
        · exact threadsAdd_which nlist pc groups true
      · dsimp only
        split
        · rw [ih, threadsAdd_which]
        · exact threadsAdd_which nlist pc groups true
      · next slot =>
        dsimp only
        cases n.which
        · rw [ih, threadsAdd_which]
        · dsimp only
          split
          · rw [ih, threadsAdd_which]
          · rw [ih, threadsAdd_which]
        · rw [ih, threadsAdd_which]
      · next target =>
        rw [ih, threadsAdd_which]
      · next a b =>
        dsimp only
        rw [ih, ih, threadsAdd_which]

/-- The epsilon closure preserves the queue balance invariant: every thread
it enqueues at a snapshot instruction carries groups balanced at that
instruction's annotation. -/
theorem nfaAddF_qbal (n : Nfa) (chars : CharReader) (ic : Nat)
    (ann : List (Finset Nat)) (glen : Nat)
    (hok : OkAnnot n.insts ann)
    (hloc : n.which = .Location → glen = 2)
    (hex : n.which = .Exists → glen = 0) :
    ∀ (fuel : Nat) (nlist : Threads) (pc : Nat) (groups : List (Option Nat)),
    nlist.which = n.which →
    QBal n.insts ann glen nlist →
    groups.length = glen →
    Bal (annAt ann pc) groups →
    QBal n.insts ann glen (nfaAddF n chars ic fuel nlist pc groups) := by
  intro fuel
  induction fuel with
  | zero => intro nlist pc groups _ hq _ _; exact hq
  | succ fuel ih =>
    intro nlist pc groups hw hq hglen hbal
    have hlocT : nlist.which = MatchKind.Location → glen = 2 :=
      fun h2 => hloc (hw.symm.trans h2)
    have hexT : nlist.which = MatchKind.Exists → glen = 0 :=
      fun h2 => hex (hw.symm.trans h2)
    rw [nfaAddF]
    by_cases hc : nlist.contains pc
    · rw [if_pos hc]
      exact hq
    · rw [if_neg hc]
      cases hinst : n.insts.getD pc Inst.Match
      · exact threadsAdd_qbal _ _ _ _ _ _ _ hq (fun _ => rfl)
          (fun _ => ⟨hglen, hbal⟩) hlocT hexT
      · exact threadsAdd_qbal _ _ _ _ _ _ _ hq (fun _ => rfl)
          (fun _ => ⟨hglen, hbal⟩) hlocT hexT
      · exact threadsAdd_qbal _ _ _ _ _ _ _ hq (fun _ => rfl)
          (fun _ => ⟨hglen, hbal⟩) hlocT hexT
      · exact threadsAdd_qbal _ _ _ _ _ _ _ hq (fun _ => rfl)
          (fun _ => ⟨hglen, hbal⟩) hlocT hexT
      · next flags =>
        dsimp only
        have hpc : pc < n.insts.length := by
          by_contra hcon
          rw [getD_default_of_ge _ _ _ (by omega)] at hinst
          cases hinst
        have he := hok.2 pc hpc
        unfold EdgeOk at he
        rw [hinst] at he
        simp only [instEdgeOk] at he
        have hq1 : QBal n.insts ann glen (nlist.add pc groups true) :=
          threadsAdd_qbal _ _ _ _ _ _ _ hq
            (fun hs => by rw [snapshotInst, hinst] at hs; simp [isSnapshot] at hs)
            (fun h2 => absurd h2 (by simp)) hlocT hexT
        have hw1 : (nlist.add pc groups true).which = n.which := by
          rw [threadsAdd_which]
          exact hw
        split
        · apply ih _ _ _ hw1 hq1 hglen
          rw [he.2]
          exact hbal
        · exact hq1
      · next flags =>
        dsimp only
        have hpc : pc < n.insts.length := by
          by_contra hcon
          rw [getD_default_of_ge _ _ _ (by omega)] at hinst
          cases hinst
        have he := hok.2 pc hpc
        unfold EdgeOk at he
        rw [hinst] at he
        simp only [instEdgeOk] at he
        have hq1 : QBal n.insts ann glen (nlist.add pc groups true) :=
          threadsAdd_qbal _ _ _ _ _ _ _ hq
            (fun hs => by rw [snapshotInst, hinst] at hs; simp [isSnapshot] at hs)
            (fun h2 => absurd h2 (by simp)) hlocT hexT
        have hw1 : (nlist.add pc groups true).which = n.which := by
          rw [threadsAdd_which]
          exact hw
        split
        · apply ih _ _ _ hw1 hq1 hglen
          rw [he.2]
          exact hbal
        · exact hq1
      · next flags =>
        dsimp only
        have hpc : pc < n.insts.length := by
          by_contra hcon
          rw [getD_default_of_ge _ _ _ (by omega)] at hinst
          cases hinst
        have he := hok.2 pc hpc
        unfold EdgeOk at he
        rw [hinst] at he
        simp only [instEdgeOk] at he
        have hq1 : QBal n.insts ann glen (nlist.add pc groups true) :=
          threadsAdd_qbal _ _ _ _ _ _ _ hq
            (fun hs => by rw [snapshotInst, hinst] at hs; simp [isSnapshot] at hs)
            (fun h2 => absurd h2 (by simp)) hlocT hexT
        have hw1 : (nlist.add pc groups true).which = n.which := by
          rw [threadsAdd_which]
          exact hw
        split
        · apply ih _ _ _ hw1 hq1 hglen
          rw [he.2]
          exact hbal
        · exact hq1
      · next slot =>
        dsimp only
        have hpc : pc < n.insts.length := by
          by_contra hcon
          rw [getD_default_of_ge _ _ _ (by omega)] at hinst
          cases hinst
        have he := hok.2 pc hpc
        unfold EdgeOk at he
        rw [hinst] at he
        simp only [instEdgeOk] at he
        have hq1 : QBal n.insts ann glen (nlist.add pc groups true) :=
          threadsAdd_qbal _ _ _ _ _ _ _ hq
            (fun hs => by rw [snapshotInst, hinst] at hs; simp [isSnapshot] at hs)
            (fun h2 => absurd h2 (by simp)) hlocT hexT
        have hw1 : (nlist.add pc groups true).which = n.which := by
          rw [threadsAdd_which]
          exact hw
        cases hwn : n.which with
        | Location =>
          dsimp only
          split
          · next hslot =>
            apply ih _ _ _ hw1 hq1 (by rw [List.length_set]; exact hglen)
            rcases Nat.lt_or_ge slot 1 with hs0 | hs0
            · have hsl : slot = 0 := by omega
              subst hsl
              rw [if_pos (by omega)] at he
              have he2 := he.2
              rw [show (0 : Nat) / 2 = 0 from rfl] at he2
              rw [he2]
              simpa using bal_insert_write (annAt ann pc) groups 0 ic hbal
            · have hsl : slot = 1 := by omega
              subst hsl
              rw [if_neg (by omega)] at he
              have he2 := he.2.2
              have he1 := he.2.1
              rw [show (1 : Nat) / 2 = 0 from rfl] at he2
              rw [show (1 : Nat) / 2 = 0 from rfl] at he1
              rw [he2]
              simpa using bal_erase_write (annAt ann pc) groups 0 ic hbal he1
          · next hslot =>
            apply ih _ _ _ hw1 hq1 hglen
            have hglen2 : glen = 2 := hloc hwn
            have hs2 : 2 ≤ slot := by omega
            by_cases hpar : slot % 2 = 0
            · rw [if_pos hpar] at he
              rw [he.2]
              exact bal_insert_nowrite _ _ _ (by omega) hbal
            · rw [if_neg hpar] at he
              rw [he.2.2]
              exact bal_erase_nowrite _ _ _ (by omega) hbal he.2.1
        | Submatches =>
          apply ih _ _ _ hw1 hq1 (by rw [List.length_set]; exact hglen)
          by_cases hpar : slot % 2 = 0
          · rw [if_pos hpar] at he
            rw [he.2]
            have hbw := bal_insert_write (annAt ann pc) groups (slot / 2)
              ic hbal
            rw [show 2 * (slot / 2) = slot from by omega] at hbw
            exact hbw
          · rw [if_neg hpar] at he
            rw [he.2.2]
            have hbw := bal_erase_write (annAt ann pc) groups (slot / 2)
              ic hbal he.2.1
            rw [show 2 * (slot / 2) + 1 = slot from by omega] at hbw
            exact hbw
        | Exists =>
          apply ih _ _ _ hw1 hq1 hglen
          exact bal_nil _ _ (by rw [hglen, hex hwn])
      · next target =>
        dsimp only
        have hpc : pc < n.insts.length := by
          by_contra hcon
          rw [getD_default_of_ge _ _ _ (by omega)] at hinst
          cases hinst
        have he := hok.2 pc hpc
        unfold EdgeOk at he
        rw [hinst] at he
        simp only [instEdgeOk] at he
        have hq1 : QBal n.insts ann glen (nlist.add pc groups true) :=
          threadsAdd_qbal _ _ _ _ _ _ _ hq
            (fun hs => by rw [snapshotInst, hinst] at hs; simp [isSnapshot] at hs)
            (fun h2 => absurd h2 (by simp)) hlocT hexT
        have hw1 : (nlist.add pc groups true).which = n.which := by
          rw [threadsAdd_which]
          exact hw
        apply ih _ _ _ hw1 hq1 hglen
        rw [he.2]
        exact hbal
      · next a b =>
        dsimp only
        have hpc : pc < n.insts.length := by
          by_contra hcon
          rw [getD_default_of_ge _ _ _ (by omega)] at hinst
          cases hinst
        have he := hok.2 pc hpc
        unfold EdgeOk at he
        rw [hinst] at he
        simp only [instEdgeOk] at he
        have hq1 : QBal n.insts ann glen (nlist.add pc groups true) :=
          threadsAdd_qbal _ _ _ _ _ _ _ hq
            (fun hs => by rw [snapshotInst, hinst] at hs; simp [isSnapshot] at hs)
            (fun h2 => absurd h2 (by simp)) hlocT hexT
        have hw1 : (nlist.add pc groups true).which = n.which := by
          rw [threadsAdd_which]
          exact hw
        have hqa : QBal n.insts ann glen
            (nfaAddF n chars ic fuel (nlist.add pc groups true) a groups) := by
          apply ih _ _ _ hw1 hq1 hglen
          rw [he.2.2.1]
          exact hbal
        have hwa : (nfaAddF n chars ic fuel (nlist.add pc groups true)
            a groups).which = n.which := by
          rw [nfaAddF_which]
          exact hw1
        apply ih _ _ _ hwa hqa hglen
        rw [he.2.2.2]
        exact hbal

/-- One `Nfa::step` preserves the balance invariant of the next queue and
the pairedness of the final `groups`. -/
theorem step_qbal (n : Nfa) (chars : CharReader) (ic : Nat)
    (ann : List (Finset Nat)) (glen : Nat)
    (hok : OkAnnot n.insts ann)
    (hloc : n.which = .Location → glen = 2)
    (hex : n.which = .Exists → glen = 0)
    (groups : List (Option Nat)) (nlist : Threads)
    (caps : List (Option Nat)) (pc : Nat)
    (hnw : nlist.which = n.which)
    (hnq : QBal n.insts ann glen nlist)
    (hcaps : snapshotInst n.insts pc = true →
      caps.length = glen ∧ Bal (annAt ann pc) caps)
    (hga : groups.length = glen) (hgp : Paired groups) :
    QBal n.insts ann glen (n.step chars ic groups nlist caps pc).2.2 ∧
    (n.step chars ic groups nlist caps pc).2.2.which = n.which ∧
    (n.step chars ic groups nlist caps pc).2.1.length = glen ∧
    Paired (n.step chars ic groups nlist caps pc).2.1 := by
  have hann0 : n.insts.getD pc Inst.Match = Inst.Match →
      annAt ann pc = ∅ := by
    intro hinst
    rcases Nat.lt_or_ge pc n.insts.length with hpc | hpc
    · have he := hok.2 pc hpc
      unfold EdgeOk at he
      rw [hinst] at he
      simpa only [instEdgeOk] using he
    · unfold annAt
      exact getD_default_of_ge _ _ _ (by rw [hok.1]; omega)
  have haddq : ∀ (pc2 : Nat),
      annAt ann pc2 = annAt ann pc →
      snapshotInst n.insts pc = true →
      QBal n.insts ann glen (n.add chars ic nlist pc2 caps) ∧
      (n.add chars ic nlist pc2 caps).which = n.which := by
    intro pc2 hpc2 hsn
    obtain ⟨hcl, hcb⟩ := hcaps hsn
    constructor
    · apply nfaAddF_qbal n chars ic ann glen hok hloc hex _ _ _ _ hnw hnq hcl
      rw [hpc2]
      exact hcb
    · unfold Nfa.add
      rw [nfaAddF_which]
      exact hnw
  unfold Nfa.step
  cases hinst : n.insts.getD pc Inst.Match
  · -- Match
    dsimp only
    have hsn : snapshotInst n.insts pc = true := by
      rw [snapshotInst, hinst]
      rfl
    obtain ⟨hcl, hcb⟩ := hcaps hsn
    have hcp : Paired caps :=
      bal_empty_paired _ (hann0 hinst ▸ hcb)
    cases hwn : n.which with
    | Exists => exact ⟨hnq, hnw.trans hwn, hga, hgp⟩
    | Location =>
      refine ⟨hnq, hnw.trans hwn, ?_, ?_⟩
      · show ((groups.set 0 (caps.getD 0 none)).set 1
          (caps.getD 1 none)).length = glen
        simp [List.length_set, hga]
      · show Paired ((groups.set 0 (caps.getD 0 none)).set 1
          (caps.getD 1 none))
        have hg2 : glen = 2 := hloc hwn
        intro k hk
        rw [List.length_set, List.length_set, hga, hg2] at hk
        have hk0 : k = 0 := by omega
        subst hk0
        have hl0 : 0 < groups.length := by omega
        have hl1 : 1 < (groups.set 0 (caps.getD 0 none)).length := by
          rw [List.length_set]
          omega
        have he0 : ((groups.set 0 (caps.getD 0 none)).set 1
            (caps.getD 1 none)).getD 0 none = caps.getD 0 none := by
          rw [getD_set_ne _ _ _ (by omega),
            getD_set_self _ _ _ _ hl0]
        have he1 : ((groups.set 0 (caps.getD 0 none)).set 1
            (caps.getD 1 none)).getD 1 none = caps.getD 1 none := by
          rw [getD_set_self _ _ _ _ hl1]
        simp only [Nat.mul_zero, Nat.zero_add]
        rw [he0, he1]
        have := hcp 0 (by rw [hcl, hg2]; omega)
        simpa using this
    | Submatches =>
      exact ⟨hnq, hnw.trans hwn, hcl, hcp⟩
  · -- OneChar
    next c flags =>
    dsimp only
    have hsn : snapshotInst n.insts pc = true := by
      rw [snapshotInst, hinst]
      rfl
    have hpc : pc < n.insts.length := by
      by_contra hcon
      rw [getD_default_of_ge _ _ _ (by omega)] at hinst
      cases hinst
    have he := hok.2 pc hpc
    unfold EdgeOk at he
    rw [hinst] at he
    simp only [instEdgeOk] at he
    split
    · have hadd := haddq (pc + 1) he.2 hsn
      exact ⟨hadd.1, hadd.2, hga, hgp⟩
    · exact ⟨hnq, hnw, hga, hgp⟩
  · -- CharClass
    next ranges flags =>
    dsimp only
    have hsn : snapshotInst n.insts pc = true := by
      rw [snapshotInst, hinst]
      rfl
    have hpc : pc < n.insts.length := by
      by_contra hcon
      rw [getD_default_of_ge _ _ _ (by omega)] at hinst
      cases hinst
    have he := hok.2 pc hpc
    unfold EdgeOk at he
    rw [hinst] at he
    simp only [instEdgeOk] at he
    cases chars.prev with
    | some c =>
      dsimp only
      split
      · have hadd := haddq (pc + 1) he.2 hsn
        exact ⟨hadd.1, hadd.2, hga, hgp⟩
      · exact ⟨hnq, hnw, hga, hgp⟩
    | none => exact ⟨hnq, hnw, hga, hgp⟩
  · -- Any
    next flags =>
    dsimp only
    have hsn : snapshotInst n.insts pc = true := by
      rw [snapshotInst, hinst]
      rfl
    have hpc : pc < n.insts.length := by
      by_contra hcon
      rw [getD_default_of_ge _ _ _ (by omega)] at hinst
      cases hinst
    have he := hok.2 pc hpc
    unfold EdgeOk at he
    rw [hinst] at he
    simp only [instEdgeOk] at he
    split
    · have hadd := haddq (pc + 1) he.2 hsn
      exact ⟨hadd.1, hadd.2, hga, hgp⟩
    · exact ⟨hnq, hnw, hga, hgp⟩
  · exact ⟨hnq, hnw, hga, hgp⟩
  · exact ⟨hnq, hnw, hga, hgp⟩
  · exact ⟨hnq, hnw, hga, hgp⟩
  · exact ⟨hnq, hnw, hga, hgp⟩
  · exact ⟨hnq, hnw, hga, hgp⟩
  · exact ⟨hnq, hnw, hga, hgp⟩

/-- The inner thread loop preserves both queue invariants and the
pairedness of `groups`. -/
theorem stepAll_qbal (n : Nfa) (chars : CharReader) (ic : Nat)
    (ann : List (Finset Nat)) (glen : Nat)
    (hok : OkAnnot n.insts ann)
    (hloc : n.which = .Location → glen = 2)
    (hex : n.which = .Exists → glen = 0) :
    ∀ (m i : Nat) (clist nlist : Threads) (groups : List (Option Nat))
      (matched : Bool),
    clist.size - i ≤ m →
    clist.which = n.which → nlist.which = n.which →
    QBal n.insts ann glen clist → QBal n.insts ann glen nlist →
    groups.length = glen → Paired groups →
    QBal n.insts ann glen
      (stepAll n chars ic i clist nlist groups matched).2.1 ∧
    QBal n.insts ann glen
      (stepAll n chars ic i clist nlist groups matched).2.2.1 ∧
    (stepAll n chars ic i clist nlist groups matched).2.1.which = n.which ∧
    (stepAll n chars ic i clist nlist groups matched).2.2.1.which =
      n.which ∧
    (stepAll n chars ic i clist nlist groups matched).2.2.2.1.length =
      glen ∧
    Paired (stepAll n chars ic i clist nlist groups matched).2.2.2.1 := by
  intro m
  induction m with
  | zero =>
    intro i clist nlist groups matched hm hcw hnw hcq hnq hgl hgp
    rw [stepAll]
    rw [dif_neg (by omega)]
    exact ⟨hcq, hnq, hcw, hnw, hgl, hgp⟩
  | succ m ihm =>
    intro i clist nlist groups matched hm hcw hnw hcq hnq hgl hgp
    rw [stepAll]
    by_cases hlt : i < clist.size
    · rw [dif_pos hlt]
      dsimp only
      have hcaps : snapshotInst n.insts (clist.pcAt i) = true →
          (clist.groupsAt i).length = glen ∧
          Bal (annAt ann (clist.pcAt i)) (clist.groupsAt i) := by
        intro hs
        have hqlen : i < clist.queue.length := by
          have := hcq.1
          omega
        exact ⟨hcq.2.1 i hqlen, hcq.2.2 i hlt hs⟩
      have hsq := step_qbal n chars ic ann glen hok hloc hex groups nlist
        (clist.groupsAt i) (clist.pcAt i) hnw hnq hcaps hgl hgp
      rcases hstep : n.step chars ic groups nlist (clist.groupsAt i)
        (clist.pcAt i) with ⟨ss, g2, nl2⟩
      rw [hstep] at hsq
      obtain ⟨hq2, hw2, hl2, hp2⟩ := hsq
      cases ss with
      | StepMatchEarlyReturn =>
        exact ⟨hcq, hq2, hcw, hw2, hl2, hp2⟩
      | StepMatch =>
        apply ihm (i + 1) clist.empty nl2 g2 true
          (by simp [Threads.empty])
          (by rw [threadsEmpty_which]; exact hcw) hw2
          (threadsEmpty_qbal _ _ _ _ hcq) hq2 hl2 hp2
      | StepContinue =>
        apply ihm (i + 1) clist nl2 g2 matched (by omega) hcw hw2 hcq
          hq2 hl2 hp2
    · rw [dif_neg hlt]
      exact ⟨hcq, hnq, hcw, hnw, hgl, hgp⟩

/-- A paired, even-length capture array always unflattens successfully. -/
theorem unflatten_isSome :
    ∀ (m : Nat) (g : List (Option Nat)), g.length ≤ m → Paired g →
    g.length % 2 = 0 →
    (unflatten_capture_locations g).isSome = true := by
  intro m
  induction m with
  | zero =>
    intro g hm hp he
    cases g with
    | nil => rfl
    | cons a t => simp at hm
  | succ m ihm =>
    intro g hm hp he
    cases g with
    | nil => rfl
    | cons a t =>
      cases t with
      | nil => simp at he
      | cons b rest =>
        have h0 := hp 0 (by simp)
        have hrest : Paired rest := by
          intro k hk
          have hh := hp (k + 1) (by simp; omega)
          rw [getD_cons_eq_add _ _ _ (2 * (k + 1)) (2 * k + 1) (by omega),
            getD_cons_eq_add _ _ _ (2 * k + 1) (2 * k) (by omega)] at hh
          rw [getD_cons_eq_add _ _ _ (2 * (k + 1) + 1) (2 * k + 2) (by omega),
            getD_cons_eq_add _ _ _ (2 * k + 2) (2 * k + 1) (by omega)] at hh
          exact hh
        have hlrest : rest.length ≤ m := by
          simp at hm
          omega
        have herest : rest.length % 2 = 0 := by
          simp at he
          omega
        have hsome := ihm rest hlrest hrest herest
        cases a with
        | none =>
          cases b with
          | none =>
            show ((unflatten_capture_locations rest).map
              (none :: ·)).isSome = true
            simpa using hsome
          | some v =>
            exfalso
            simp [List.getD] at h0
        | some u =>
          cases b with
          | some v =>
            show ((unflatten_capture_locations rest).map
              (some (u, v) :: ·)).isSome = true
            simpa using hsome
          | none =>
            exfalso
            simp [List.getD] at h0

/-- The main loop of `Nfa::run` always returns a paired, even-length
capture array, given a correctly annotated program. -/
theorem runLoop_qbal (n : Nfa) (ann : List (Finset Nat)) (glen : Nat)
    (hok : OkAnnot n.insts ann)
    (hloc : n.which = .Location → glen = 2)
    (hex : n.which = .Exists → glen = 0)
    (hge : glen % 2 = 0)
    (hann0 : annAt ann 0 = ∅) :
    ∀ (m : Nat) (st : RunSt),
    n.endP + 1 - st.ic ≤ m →
    st.clist.which = n.which → st.nlist.which = n.which →
    QBal n.insts ann glen st.clist → QBal n.insts ann glen st.nlist →
    st.groups.length = glen → Paired st.groups →
    Paired (runLoop n st) ∧ (runLoop n st).length % 2 = 0 := by
  have hearly : Paired [some 0, some 0] ∧
      ([some 0, some 0] : List (Option Nat)).length % 2 = 0 := by
    constructor
    · intro k hk
      simp at hk
      have hk0 : k = 0 := by omega
      subst hk0
      simp [List.getD]
    · rfl
  have hfin : ∀ (mt : Bool) (g : List (Option Nat)), g.length = glen →
      Paired g →
      Paired (runFinish n.which mt g) ∧
      (runFinish n.which mt g).length % 2 = 0 := by
    intro mt g hl hp
    unfold runFinish
    cases n.which with
    | Exists =>
      dsimp only
      cases mt with
      | false =>
        rw [if_neg (by simp)]
        constructor
        · intro k hk
          simp at hk
          have hk0 : k = 0 := by omega
          subst hk0
          simp [List.getD]
        · rfl
      | true =>
        rw [if_pos rfl]
        exact hearly
    | Location =>
      dsimp only
      exact ⟨hp, by rw [hl]; exact hge⟩
    | Submatches =>
      dsimp only
      exact ⟨hp, by rw [hl]; exact hge⟩
  intro m
  induction m with
  | zero =>
    intro st hm hcw hnw hcq hnq hgl hgp
    unfold runLoop
    rw [if_neg (by omega)]
    exact hfin st.matched st.groups hgl hgp
  | succ m ihm =>
    intro st hm hcw hnw hcq hnq hgl hgp
    unfold runLoop
    split
    · next hic =>
      split
      · exact hfin st.matched st.groups hgl hgp
      · dsimp only
        split
        · exact hfin st.matched st.groups hgl hgp
        · next ic0 nIc0 ch0 heq =>
          have hcl2 : QBal n.insts ann glen
              (if startAddCond st.clist.size (prefixAnchor n.insts)
                  st.matched then n.add ch0 ic0 st.clist 0 st.groups
               else st.clist) ∧
              (if startAddCond st.clist.size (prefixAnchor n.insts)
                  st.matched then n.add ch0 ic0 st.clist 0 st.groups
               else st.clist).which = n.which := by
            split
            · constructor
              · apply nfaAddF_qbal n ch0 ic0 ann glen hok hloc hex _ _ _ _
                  hcw hcq hgl
                rw [hann0]
                exact paired_bal _ hgp
              · unfold Nfa.add
                rw [nfaAddF_which]
                exact hcw
            · exact ⟨hcq, hcw⟩
          rcases hadv : charsAdvance n.input ch0 with ⟨chars1, nIc1⟩
          dsimp only
          rcases hsa : stepAll n chars1 nIc0 0
            (if startAddCond st.clist.size (prefixAnchor n.insts)
                st.matched then n.add ch0 ic0 st.clist 0 st.groups
             else st.clist) st.nlist st.groups st.matched with
            ⟨early, cl1, nl1, g1, m1⟩
          have hres := stepAll_qbal n chars1 nIc0 ann glen hok hloc hex
            (if startAddCond st.clist.size (prefixAnchor n.insts)
                st.matched then n.add ch0 ic0 st.clist 0 st.groups
             else st.clist).size 0
            (if startAddCond st.clist.size (prefixAnchor n.insts)
                st.matched then n.add ch0 ic0 st.clist 0 st.groups
             else st.clist) st.nlist st.groups st.matched
            (by omega) hcl2.2 hnw hcl2.1 hnq hgl hgp
          rw [hsa] at hres
          obtain ⟨hq1, hq2, hw1, hw2, hl1, hp1⟩ := hres
          cases early with
          | true =>
            rw [if_pos rfl]
            exact hearly
          | false =>
            rw [if_neg (by simp)]
            split
            · next hlt2 =>
              apply ihm
              · show n.endP + 1 - nIc0 ≤ m
                omega
              · show nl1.which = n.which
                exact hw2
              · show cl1.empty.which = n.which
                rw [threadsEmpty_which]
                exact hw1
              · exact hq2
              · exact threadsEmpty_qbal _ _ _ _ hq1
              · exact hl1
              · exact hp1
            · exact hfin m1 g1 hl1 hp1
    · exact hfin st.matched st.groups hgl hgp

/-- C1: for every successful VM run over a program compiled from an AST
whose capture indices are distinct along every nesting chain (as the parser
guarantees), the returned capture slots `2k` and `2k+1` are both set or
both unset for every group `k`: `unflatten_capture_locations` (and hence
every pair read by `Captures::pos`) always receives both-`Some` or
both-`None` pairs, for every match kind, input and search window. -/
theorem claim_C1 (which : MatchKind) (ast : Ast) (input : List Char)
    (s e : Nat) (h : wfCapsB ast [0] = true) :
    (vmRun which (Program.new ast) input s e).isSome = true := by
  unfold vmRun nfaRun
  dsimp only
  rcases hcs : charsSet input s with ⟨cr0, ni0⟩
  have hrun := runLoop_qbal
    { which := which
      insts := (Program.new ast).insts
      prefixLit := (Program.new ast).prefixLit
      input := input
      start := s
      endP := e }
    (progAnn ast) (matchKindCaps which (Program.new ast) * 2)
    (progNew_annot ast h)
    (by
      intro hw
      have hw2 : which = MatchKind.Location := hw
      subst hw2
      rfl)
    (by
      intro hw
      have hw2 : which = MatchKind.Exists := hw
      subst hw2
      rfl)
    (by omega)
    rfl
    (e + 1)
    { clist := Threads.new which (Program.new ast).insts.length
        (matchKindCaps which (Program.new ast))
      nlist := Threads.new which (Program.new ast).insts.length
        (matchKindCaps which (Program.new ast))
      groups := List.replicate (matchKindCaps which (Program.new ast) * 2)
        none
      matched := false
      ic := s
      nextIc := ni0
      chars := cr0 }
    (by
      show e + 1 - s ≤ e + 1
      omega)
    rfl
    rfl
    (threadsNew_qbal _ _ _ _ _)
    (threadsNew_qbal _ _ _ _ _)
    (by simp)
    (paired_replicate _)
  exact unflatten_isSome _ _ le_rfl hrun.1 hrun.2

/-- Witness for C1 at a concrete capturing pattern, match kind and input. -/
theorem claim_C1_witness :
    wfCapsB (Ast.Capture 1 none (Ast.Literal 'a' false)) [0] = true ∧
    (vmRun MatchKind.Submatches
      (Program.new (Ast.Capture 1 none (Ast.Literal 'a' false)))
      ['a'] 0 1).isSome = true :=
  ⟨by decide,
   claim_C1 MatchKind.Submatches (Ast.Capture 1 none (Ast.Literal 'a' false))
     ['a'] 0 1 (by decide)⟩

/-! #### C6: no repeated consecutive matches from `find_iter`.

The key fact about the VM is that every byte offset it stores in a capture
slot is at least the search start (`GrpGE`); the iterator argument is then
purely structural. -/

theorem csize_pos (c : Char) : 1 ≤ csize c := by
  unfold csize
  split
  · omega
  · split
    · omega
    · split
      · omega
      · omega

theorem charAtB_go_eq (ic : Nat) (c : Char) (nxt : Nat) :
    ∀ (l : List Char) (pos : Nat),
    charAtB.go ic l pos = some (c, nxt) → nxt = ic + csize c := by
  intro l
  induction l with
  | nil => intro pos h; cases h
  | cons a rest ih =>
    intro pos h
    unfold charAtB.go at h
    split at h
    · next he =>
      cases h
      omega
    · exact ih _ h

theorem charAtB_gt (text : List Char) (ic : Nat) (c : Char) (nxt : Nat)
    (h : charAtB text ic = some (c, nxt)) : ic < nxt := by
  have h2 : charAtB.go ic text 0 = some (c, nxt) := h
  have he := charAtB_go_eq ic c nxt text 0 h2
  have hc := csize_pos c
  omega

theorem charsSet_facts (input : List Char) (ic s0 : Nat)
    (hs : s0 ≤ ic) (hlen : s0 ≤ byteLen input) :
    s0 ≤ (charsSet input ic).2 ∧
    ((charsSet input ic).1.next = (charsSet input ic).2 ∨
      (charsSet input ic).2 = byteLen input + 1) := by
  unfold charsSet
  split
  · next hz =>
    constructor
    · show s0 ≤ 1
      omega
    · right
      show (1 : Nat) = byteLen input + 1
      omega
  · cases hat : charAtB input ic with
    | some p =>
      rcases p with ⟨c, nxt⟩
      have hgt := charAtB_gt input ic c nxt hat
      split <;> split <;> dsimp only <;>
        first
          | exact ⟨by omega, Or.inl rfl⟩
          | exact ⟨by omega, Or.inr rfl⟩
    | none =>
      split <;> split <;> dsimp only <;>
        exact ⟨by omega, Or.inr rfl⟩

theorem charsAdvance_facts (input : List Char) (cr : CharReader) (s0 : Nat)
    (hnext : s0 ≤ cr.next) (hlen : s0 ≤ byteLen input) :
    s0 ≤ (charsAdvance input cr).2 ∧
    (charsAdvance input cr).1.next = (charsAdvance input cr).2 := by
  unfold charsAdvance
  cases hat : charAtB input cr.next with
  | some p =>
    rcases p with ⟨c, nxt⟩
    have hgt := charAtB_gt input cr.next c nxt hat
    split
    · dsimp only
      exact ⟨by omega, rfl⟩
    · dsimp only
      exact ⟨by omega, rfl⟩
  | none =>
    split
    · dsimp only
      exact ⟨by omega, rfl⟩
    · dsimp only
      exact ⟨by omega, rfl⟩

theorem set_of_len_le {α : Type _} (l : List α) (k : Nat) (a : α)
    (h : l.length ≤ k) : l.set k a = l := by
  induction l generalizing k with
  | nil => rfl
  | cons x xs ih =>
    cases k with
    | zero => simp at h
    | succ m =>
      show x :: xs.set m a = x :: xs
      rw [ih m (by simpa using h)]

theorem grpGE_set_opt (s : Nat) (g : List (Option Nat)) (k : Nat)
    (o : Option Nat) (hg : GrpGE s g)
    (ho : ∀ v, o = some v → s ≤ v) : GrpGE s (g.set k o) := by
  intro k2 v h
  by_cases hlt : k < g.length
  · by_cases heq : k2 = k
    · subst heq
      rw [getD_set_self _ _ _ _ hlt] at h
      exact ho v h
    · rw [getD_set_ne _ _ _ (fun he => heq he.symm)] at h
      exact hg k2 v h
  · rw [set_of_len_le _ _ _ (by omega)] at h
    exact hg k2 v h

theorem grpGE_set (s : Nat) (g : List (Option Nat)) (k v : Nat)
    (hg : GrpGE s g) (hv : s ≤ v) : GrpGE s (g.set k (some v)) :=
  grpGE_set_opt s g k (some v) hg (fun v2 h => by cases h; exact hv)

theorem qge_set_entry (s : Nat) (t : Threads) (pc : Nat)
    (g2 : List (Option Nat)) (sp : List Nat)
    (hq : QGE s t) (hg2 : GrpGE s g2) :
    QGE s { t with queue := t.queue.set t.size ⟨pc, g2⟩
                   sparse := sp
                   size := t.size + 1 } := by
  intro i hi
  replace hi : i < t.queue.length := by
    simpa using hi
  show GrpGE s ((t.queue.set t.size ⟨pc, g2⟩).getD i default).groups
  by_cases hieq : i = t.size
  · subst hieq
    rw [getD_set_self _ _ _ _ hi]
    exact hg2
  · rw [getD_set_ne _ _ _ (fun he => hieq he.symm)]
    exact hq i hi

theorem threadsAdd_qge (s : Nat) (t : Threads) (pc : Nat)
    (groups : List (Option Nat)) (empty : Bool)
    (hq : QGE s t) (hg : GrpGE s groups) :
    QGE s (t.add pc groups empty) := by
  by_cases hroom : t.size < t.queue.length
  · cases empty with
    | true =>
      have hEq : t.add pc groups true =
          { t with
            queue := (t.queue.set t.size
              ⟨pc, (t.queue.getD t.size default).groups⟩)
            sparse := t.sparse.set pc t.size
            size := t.size + 1 } := by
        unfold Threads.add
        rw [if_pos hroom]
        cases hwv : t.which <;> rfl
      rw [hEq]
      exact qge_set_entry s t pc _ _ hq (hq t.size hroom)
    | false =>
      cases hwv : t.which with
      | Exists =>
        have hEq : t.add pc groups false =
            { t with
              queue := (t.queue.set t.size
                ⟨pc, (t.queue.getD t.size default).groups⟩)
              sparse := t.sparse.set pc t.size
              size := t.size + 1 } := by
          unfold Threads.add
          rw [if_pos hroom, hwv]
        rw [hEq]
        exact qge_set_entry s t pc _ _ hq (hq t.size hroom)
      | Location =>
        have hEq : t.add pc groups false =
            { t with
              queue := (t.queue.set t.size
                ⟨pc, ((t.queue.getD t.size default).groups.set 0
                  (groups.getD 0 none)).set 1 (groups.getD 1 none)⟩)
              sparse := t.sparse.set pc t.size
              size := t.size + 1 } := by
          unfold Threads.add
          rw [if_pos hroom, hwv]
        rw [hEq]
        refine qge_set_entry s t pc _ _ hq ?_
        refine grpGE_set_opt s _ 1 _ (grpGE_set_opt s _ 0 _
          (hq t.size hroom) ?_) ?_
        · intro v h
          exact hg 0 v h
        · intro v h
          exact hg 1 v h
      | Submatches =>
        have hEq : t.add pc groups false =
            { t with
              queue := t.queue.set t.size ⟨pc, groups⟩
              sparse := t.sparse.set pc t.size
              size := t.size + 1 } := by
          unfold Threads.add
          rw [if_pos hroom, hwv]
        rw [hEq]
        exact qge_set_entry s t pc _ _ hq hg
  · have hEq : t.add pc groups empty = t := by
      unfold Threads.add
      rw [if_neg hroom]
    rw [hEq]
    exact hq

theorem nfaAddF_qge (n : Nfa) (chars : CharReader) (ic s0 : Nat)
    (hic : s0 ≤ ic) :
    ∀ (fuel : Nat) (nlist : Threads) (pc : Nat) (groups : List (Option Nat)),
    QGE s0 nlist → GrpGE s0 groups →
    QGE s0 (nfaAddF n chars ic fuel nlist pc groups) := by
  intro fuel
  induction fuel with
  | zero => intro nlist pc groups hq _; exact hq
  | succ fuel ih =>
    intro nlist pc groups hq hg
    rw [nfaAddF]
    by_cases hc : nlist.contains pc
    · rw [if_pos hc]
      exact hq
    · rw [if_neg hc]
      cases hinst : n.insts.getD pc Inst.Match
      · exact threadsAdd_qge _ _ _ _ _ hq hg
      · exact threadsAdd_qge _ _ _ _ _ hq hg
      · exact threadsAdd_qge _ _ _ _ _ hq hg
      · exact threadsAdd_qge _ _ _ _ _ hq hg
      · dsimp only
        split
        · exact ih _ _ _ (threadsAdd_qge _ _ _ _ _ hq hg) hg
        · exact threadsAdd_qge _ _ _ _ _ hq hg
      · dsimp only
        split
        · exact ih _ _ _ (threadsAdd_qge _ _ _ _ _ hq hg) hg
        · exact threadsAdd_qge _ _ _ _ _ hq hg
      · dsimp only
        split
        · exact ih _ _ _ (threadsAdd_qge _ _ _ _ _ hq hg) hg
        · exact threadsAdd_qge _ _ _ _ _ hq hg
      · next slot =>
        dsimp only
        cases n.which
        · exact ih _ _ _ (threadsAdd_qge _ _ _ _ _ hq hg) hg
        · dsimp only
          split
          · exact ih _ _ _ (threadsAdd_qge _ _ _ _ _ hq hg)
              (grpGE_set s0 groups slot ic hg hic)
          · exact ih _ _ _ (threadsAdd_qge _ _ _ _ _ hq hg) hg
        · exact ih _ _ _ (threadsAdd_qge _ _ _ _ _ hq hg)
            (grpGE_set s0 groups slot ic hg hic)
      · next target =>
        exact ih _ _ _ (threadsAdd_qge _ _ _ _ _ hq hg) hg
      · next a b =>
        dsimp only
        exact ih _ _ _ (ih _ _ _ (threadsAdd_qge _ _ _ _ _ hq hg) hg) hg

theorem step_qge (n : Nfa) (chars : CharReader) (ic s0 : Nat)
    (hic : s0 ≤ ic)
    (groups : List (Option Nat)) (nlist : Threads)
    (caps : List (Option Nat)) (pc : Nat)
    (hnq : QGE s0 nlist) (hgg : GrpGE s0 groups) (hgc : GrpGE s0 caps) :
    QGE s0 (n.step chars ic groups nlist caps pc).2.2 ∧
    GrpGE s0 (n.step chars ic groups nlist caps pc).2.1 ∧
    (n.which = .Location →
      (n.step chars ic groups nlist caps pc).1 ≠ .StepMatchEarlyReturn) := by
  unfold Nfa.step
  cases hinst : n.insts.getD pc Inst.Match
  · dsimp only
    cases hwn : n.which with
    | Exists =>
      exact ⟨hnq, hgg, fun hw => absurd hw (by decide)⟩
    | Location =>
      refine ⟨hnq, ?_, fun _ => by simp⟩
      exact grpGE_set_opt _ _ _ _
        (grpGE_set_opt _ _ _ _ hgg (fun v h => hgc 0 v h))
        (fun v h => hgc 1 v h)
    | Submatches =>
      exact ⟨hnq, hgc, fun hw => absurd hw (by decide)⟩
  · next c flags =>
    dsimp only
    split
    · refine ⟨?_, hgg, fun _ => by simp⟩
      show QGE s0 (n.add chars ic nlist (pc + 1) caps)
      unfold Nfa.add
      exact nfaAddF_qge n chars ic s0 hic _ _ _ _ hnq hgc
    · exact ⟨hnq, hgg, fun _ => by simp⟩
  · next ranges flags =>
    dsimp only
    cases chars.prev with
    | some c =>
      dsimp only
      split
      · refine ⟨?_, hgg, fun _ => by simp⟩
        show QGE s0 (n.add chars ic nlist (pc + 1) caps)
        unfold Nfa.add
        exact nfaAddF_qge n chars ic s0 hic _ _ _ _ hnq hgc
      · exact ⟨hnq, hgg, fun _ => by simp⟩
    | none => exact ⟨hnq, hgg, fun _ => by simp⟩
  · next flags =>
    dsimp only
    split
    · refine ⟨?_, hgg, fun _ => by simp⟩
      show QGE s0 (n.add chars ic nlist (pc + 1) caps)
      unfold Nfa.add
      exact nfaAddF_qge n chars ic s0 hic _ _ _ _ hnq hgc
    · exact ⟨hnq, hgg, fun _ => by simp⟩
  · exact ⟨hnq, hgg, fun _ => by simp⟩
  · exact ⟨hnq, hgg, fun _ => by simp⟩
  · exact ⟨hnq, hgg, fun _ => by simp⟩
  · exact ⟨hnq, hgg, fun _ => by simp⟩
  · exact ⟨hnq, hgg, fun _ => by simp⟩
  · exact ⟨hnq, hgg, fun _ => by simp⟩

theorem stepAll_qge (n : Nfa) (chars : CharReader) (ic s0 : Nat)
    (hic : s0 ≤ ic) :
    ∀ (m i : Nat) (clist nlist : Threads) (groups : List (Option Nat))
      (matched : Bool),
    clist.size - i ≤ m →
    QGE s0 clist → QGE s0 nlist → GrpGE s0 groups →
    QGE s0 (stepAll n chars ic i clist nlist groups matched).2.1 ∧
    QGE s0 (stepAll n chars ic i clist nlist groups matched).2.2.1 ∧
    GrpGE s0 (stepAll n chars ic i clist nlist groups matched).2.2.2.1 ∧
    (n.which = .Location →
      (stepAll n chars ic i clist nlist groups matched).1 = false) := by
  intro m
  induction m with
  | zero =>
    intro i clist nlist groups matched hm hcq hnq hgg
    rw [stepAll]
    rw [dif_neg (by omega)]
    exact ⟨hcq, hnq, hgg, fun _ => rfl⟩
  | succ m ihm =>
    intro i clist nlist groups matched hm hcq hnq hgg
    rw [stepAll]
    by_cases hlt : i < clist.size
    · rw [dif_pos hlt]
      dsimp only
      have hgc : GrpGE s0 (clist.groupsAt i) := by
        by_cases hql : i < clist.queue.length
        · exact hcq i hql
        · show GrpGE s0 (clist.queue.getD i default).groups
          rw [getD_default_of_ge _ _ _ (by omega)]
          intro k v h
          cases h
      have hsq := step_qge n chars ic s0 hic groups nlist
        (clist.groupsAt i) (clist.pcAt i) hnq hgg hgc
      rcases hstep : n.step chars ic groups nlist (clist.groupsAt i)
        (clist.pcAt i) with ⟨ss, g2, nl2⟩
      rw [hstep] at hsq
      obtain ⟨hq2, hg2, hne⟩ := hsq
      cases ss with
      | StepMatchEarlyReturn =>
        refine ⟨hcq, hq2, hg2, fun hw => ?_⟩
        exact absurd rfl (hne hw)
      | StepMatch =>
        have hres := ihm (i + 1) clist.empty nl2 g2 true
          (by simp [Threads.empty]) hcq hq2 hg2
        exact hres
      | StepContinue =>
        exact ihm (i + 1) clist nl2 g2 matched (by omega) hcq hq2 hg2
    · rw [dif_neg hlt]
      exact ⟨hcq, hnq, hgg, fun _ => rfl⟩

theorem grpGE_replicate (s m : Nat) :
    GrpGE s (List.replicate m none) := by
  intro k v h
  by_cases hk : k < m
  · rw [getD_replicate _ _ _ _ hk] at h
    cases h
  · rw [getD_default_of_ge _ _ _ (by simp; omega)] at h
    cases h

theorem qge_new (s : Nat) (which : MatchKind) (numInsts numCaps : Nat) :
    QGE s (Threads.new which numInsts numCaps) := by
  intro i hi
  show GrpGE s ((List.replicate numInsts
    (⟨0, List.replicate (numCaps * 2) none⟩ : Thread)).getD i default).groups
  simp only [Threads.new, List.length_replicate] at hi
  rw [getD_replicate _ _ _ _ hi]
  exact grpGE_replicate s _

/-- The main loop only ever stores byte offsets at or after the original
start position (Location mode). -/
theorem runLoop_ge (n : Nfa) (s0 : Nat)
    (hwn : n.which = .Location)
    (hend : n.endP ≤ byteLen n.input)
    (hs0 : s0 ≤ byteLen n.input) :
    ∀ (m : Nat) (st : RunSt),
    n.endP + 1 - st.ic ≤ m →
    s0 ≤ st.ic →
    (st.ic ≤ n.endP → s0 ≤ st.nextIc ∧
      (st.chars.next = st.nextIc ∨ st.nextIc = byteLen n.input + 1)) →
    QGE s0 st.clist → QGE s0 st.nlist → GrpGE s0 st.groups →
    GrpGE s0 (runLoop n st) := by
  have hfin : ∀ (mt : Bool) (g : List (Option Nat)), GrpGE s0 g →
      GrpGE s0 (runFinish n.which mt g) := by
    intro mt g hg
    unfold runFinish
    rw [hwn]
    exact hg
  intro m
  induction m with
  | zero =>
    intro st hm hici hnic hcq hnq hgg
    unfold runLoop
    rw [if_neg (by omega)]
    exact hfin st.matched st.groups hgg
  | succ m ihm =>
    intro st hm hici hnic hcq hnq hgg
    unfold runLoop
    split
    · next hic =>
      obtain ⟨hnic1, hnic2⟩ := hnic hic
      split
      · exact hfin st.matched st.groups hgg
      · dsimp only
        split
        · exact hfin st.matched st.groups hgg
        · next ic0 nIc0 ch0 heq =>
          have hfacts : s0 ≤ ic0 ∧ s0 ≤ nIc0 ∧
              (ch0.next = nIc0 ∨ nIc0 = byteLen n.input + 1) := by
            split at heq
            · cases hfp : findPrefixPos (allBytes n.prefixLit)
                (bytesFrom n.input st.ic) with
              | none =>
                rw [hfp] at heq
                cases heq
              | some i =>
                rw [hfp] at heq
                dsimp only at heq
                rw [Option.some_inj, Prod.mk.injEq, Prod.mk.injEq] at heq
                obtain ⟨h1, h2, h3⟩ := heq
                subst h1
                subst h2
                subst h3
                have hfc := charsSet_facts n.input (st.ic + i) s0
                  (by omega) hs0
                exact ⟨by omega, hfc.1, hfc.2⟩
            · cases heq
              exact ⟨hici, hnic1, hnic2⟩
          obtain ⟨hic0, hnico, hcho⟩ := hfacts
          have hcl2 : QGE s0
              (if startAddCond st.clist.size (prefixAnchor n.insts)
                  st.matched then n.add ch0 ic0 st.clist 0 st.groups
               else st.clist) := by
            split
            · show QGE s0 (n.add ch0 ic0 st.clist 0 st.groups)
              unfold Nfa.add
              exact nfaAddF_qge n ch0 ic0 s0 hic0 _ _ _ _ hcq hgg
            · exact hcq
          rcases hadv : charsAdvance n.input ch0 with ⟨chars1, nIc1⟩
          dsimp only
          rcases hsa : stepAll n chars1 nIc0 0
            (if startAddCond st.clist.size (prefixAnchor n.insts)
                st.matched then n.add ch0 ic0 st.clist 0 st.groups
             else st.clist) st.nlist st.groups st.matched with
            ⟨early, cl1, nl1, g1, m1⟩
          have hres := stepAll_qge n chars1 nIc0 s0 hnico
            (if startAddCond st.clist.size (prefixAnchor n.insts)
                st.matched then n.add ch0 ic0 st.clist 0 st.groups
             else st.clist).size 0
            (if startAddCond st.clist.size (prefixAnchor n.insts)
                st.matched then n.add ch0 ic0 st.clist 0 st.groups
             else st.clist) st.nlist st.groups st.matched
            (by omega) hcl2 hnq hgg
          rw [hsa] at hres
          obtain ⟨hq1, hq2, hg1, hearly⟩ := hres
          cases early with
          | true =>
            exact absurd (hearly hwn) (by simp)
          | false =>
            rw [if_neg (by simp)]
            split
            · next hlt2 =>
              apply ihm
              · show n.endP + 1 - nIc0 ≤ m
                omega
              · exact hnico
              · intro hic1
                rcases hcho with hcho | hcho
                · have hfc := charsAdvance_facts n.input ch0 s0
                    (by omega) hs0
                  rw [hadv] at hfc
                  exact ⟨hfc.1, Or.inl hfc.2⟩
                · exfalso
                  have hic2 : nIc0 ≤ n.endP := hic1
                  omega
              · exact hq2
              · intro i hi
                exact hq1 i (by simpa using hi)
              · exact hg1
            · exact hfin m1 g1 hg1
    · exact hfin st.matched st.groups hgg

/-- Every capture offset `Nfa::run` returns in Location mode is at least the
search start. -/
theorem nfaRun_ge (prog : Program) (input : List Char) (s : Nat)
    (hs : s ≤ byteLen input) :
    GrpGE s (nfaRun .Location prog input s (byteLen input)) := by
  unfold nfaRun
  dsimp only
  rcases hcs : charsSet input s with ⟨cr0, ni0⟩
  have hfc := charsSet_facts input s s le_rfl hs
  rw [hcs] at hfc
  apply runLoop_ge _ s rfl le_rfl hs (byteLen input + 1) _
    (by show byteLen input + 1 - s ≤ byteLen input + 1; omega)
    le_rfl
    (fun _ => ⟨hfc.1, hfc.2⟩)
    (qge_new s _ _ _)
    (qge_new s _ _ _)
    (grpGE_replicate s _)

theorem stepAllF_eq (n : Nfa) (chars : CharReader) (ic : Nat) :
    ∀ (fuel i : Nat) (clist nlist : Threads) (groups : List (Option Nat))
      (matched : Bool), clist.size - i < fuel →
    stepAllF n chars ic fuel i clist nlist groups matched =
      stepAll n chars ic i clist nlist groups matched := by
  intro fuel
  induction fuel with
  | zero =>
    intro i clist nlist groups matched hf
    omega
  | succ fuel ih =>
    intro i clist nlist groups matched hf
    unfold stepAll
    rw [stepAllF]
    by_cases hlt : i < clist.size
    · rw [if_pos hlt, dif_pos hlt]
      dsimp only
      rcases hst : n.step chars ic groups nlist (clist.groupsAt i)
        (clist.pcAt i) with ⟨ss, g2, nl2⟩
      cases ss with
      | StepMatchEarlyReturn => rfl
      | StepMatch =>
        apply ih
        show clist.empty.size - (i + 1) < fuel
        have hz : clist.empty.size = 0 := rfl
        omega
      | StepContinue =>
        apply ih
        omega
    · rw [if_neg hlt, dif_neg hlt]

theorem runLoopF_eq (n : Nfa) :
    ∀ (fuel : Nat) (st : RunSt), n.endP + 1 - st.ic < fuel →
    runLoopF n fuel st = runLoop n st := by
  intro fuel
  induction fuel with
  | zero =>
    intro st hf
    omega
  | succ fuel ih =>
    intro st hf
    unfold runLoop
    rw [runLoopF]
    split
    · next hic =>
      split
      · rfl
      · dsimp only
        split
        · rfl
        · next ic0 nIc0 ch0 heq =>
          rcases hadv : charsAdvance n.input ch0 with ⟨chars1, nIc1⟩
          dsimp only
          rw [stepAllF_eq n chars1 nIc0 _ 0 _ st.nlist st.groups st.matched
            (by omega)]
          rcases hsa : stepAll n chars1 nIc0 0
            (if startAddCond st.clist.size (prefixAnchor n.insts)
                st.matched then n.add ch0 ic0 st.clist 0 st.groups
             else st.clist) st.nlist st.groups st.matched with
            ⟨early, cl1, nl1, g1, m1⟩
          cases early with
          | true => rfl
          | false =>
            have hfe : ¬(false = true) := by simp
            rw [if_neg hfe, if_neg hfe]
            by_cases hlt : st.ic < nIc0
            · rw [if_pos hlt, dif_pos hlt]
              apply ih
              show n.endP + 1 - nIc0 < fuel
              omega
            · rw [if_neg hlt, dif_neg hlt]
    · rfl

theorem nfaRunF_eq (which : MatchKind) (prog : Program) (input : List Char)
    (start endp : Nat) :
    nfaRunF which prog input start endp = nfaRun which prog input start endp := by
  unfold nfaRunF nfaRun
  dsimp only
  rcases hcs : charsSet input start with ⟨chars, nextIc⟩
  apply runLoopF_eq
  show endp + 1 - start < endp + 2
  omega

theorem fmNextF_eq :
    ∀ (fuel : Nat) (f : FindMatches), byteLen f.search + 1 - f.last_end < fuel →
    fmNextF fuel f = FindMatches.next f := by
  intro fuel
  induction fuel with
  | zero =>
    intro f hf
    omega
  | succ fuel ih =>
    intro f hf
    unfold FindMatches.next
    rw [fmNextF]
    by_cases hgt : f.last_end > byteLen f.search
    · rw [if_pos hgt, if_pos hgt]
    · rw [if_neg hgt, if_neg hgt]
      dsimp only
      rw [show nfaRunF .Location f.re.prog f.search f.last_end
            (byteLen f.search) =
          Regex.execSlice f.re .Location f.search f.last_end
            (byteLen f.search) from nfaRunF_eq _ _ _ _ _]
      split
      · split
        · apply ih
          show byteLen f.search + 1 - (f.last_end + 1) < fuel
          omega
        · rfl
      · rfl

theorem fmNext_yield :
    ∀ (m : Nat) (f : FindMatches) (p : Nat × Nat) (f1 : FindMatches),
    byteLen f.search + 1 - f.last_end ≤ m →
    FindMatches.next f = (some p, f1) →
    f1.last_end = p.2 ∧ f1.last_match = some p.2 := by
  intro m
  induction m with
  | zero =>
    intro f p f1 hm h
    unfold FindMatches.next at h
    rw [if_pos (by omega)] at h
    simp at h
  | succ m ihm =>
    intro f p f1 hm h
    unfold FindMatches.next at h
    split at h
    · simp at h
    · next hgt =>
      dsimp only at h
      split at h
      · split at h
        · exact ihm { f with last_end := f.last_end + 1 } p f1
            (by show byteLen f.search + 1 - (f.last_end + 1) ≤ m; omega) h
        · rw [Prod.mk.injEq] at h
          obtain ⟨h1, h2⟩ := h
          subst h2
          rw [Option.some_inj] at h1
          subst h1
          exact ⟨rfl, rfl⟩
      · simp at h

theorem fmNext_gt :
    ∀ (m : Nat) (g : FindMatches) (e1 : Nat),
    byteLen g.search + 1 - g.last_end ≤ m →
    g.last_match = some e1 → e1 ≤ g.last_end →
    ∀ (s2 e2 : Nat) (g2 : FindMatches),
    FindMatches.next g = (some (s2, e2), g2) → e1 < e2 := by
  intro m
  induction m with
  | zero =>
    intro g e1 hm hlm hle s2 e2 g2 h
    unfold FindMatches.next at h
    rw [if_pos (by omega)] at h
    simp at h
  | succ m ihm =>
    intro g e1 hm hlm hle s2 e2 g2 h
    unfold FindMatches.next at h
    split at h
    · simp at h
    · next hgt =>
      dsimp only at h
      split at h
      · next hhm =>
        split at h
        · exact ihm { g with last_end := g.last_end + 1 } e1
            (by show byteLen g.search + 1 - (g.last_end + 1) ≤ m; omega)
            hlm (by show e1 ≤ g.last_end + 1; omega) s2 e2 g2 h
        · next hsk =>
          have hge : GrpGE g.last_end (Regex.execSlice g.re .Location
              g.search g.last_end (byteLen g.search)) := by
            show GrpGE g.last_end (nfaRun .Location g.re.prog g.search
              g.last_end (byteLen g.search))
            exact nfaRun_ge g.re.prog g.search g.last_end (by omega)
          simp only [has_match, Bool.and_eq_true, decide_eq_true_eq] at hhm
          obtain ⟨⟨hlen, h0s⟩, h1s⟩ := hhm
          obtain ⟨v0, hv0⟩ := Option.isSome_iff_exists.mp h0s
          obtain ⟨v1, hv1⟩ := Option.isSome_iff_exists.mp h1s
          have hge0 : g.last_end ≤ v0 := hge 0 v0 hv0
          have hge1 : g.last_end ≤ v1 := hge 1 v1 hv1
          rw [Prod.mk.injEq] at h
          obtain ⟨h1, h2⟩ := h
          rw [Option.some_inj, Prod.mk.injEq] at h1
          obtain ⟨hs2, he2⟩ := h1
          rw [hv0] at hs2
          rw [hv1] at he2
          simp only [Option.getD_some] at hs2 he2
          rw [hv0, hv1] at hsk
          simp only [Option.getD_some] at hsk
          by_cases heq : e2 = e1
          · exfalso
            apply hsk
            constructor
            · omega
            · rw [hlm]
              have hv : g.last_end = e1 := by omega
              rw [hv]
          · omega
      · simp at h

/-- C6: `find_iter` never yields the same `(start, end)` pair twice in a
row; when the candidate match is empty and starts exactly at the end of the
previously yielded match, `FindMatches::next` skips it by bumping the
search start one byte and retrying. -/
theorem claim_C6 :
    (∀ (f f1 f2 : FindMatches) (s1 e1 s2 e2 : Nat),
      FindMatches.next f = (some (s1, e1), f1) →
      FindMatches.next f1 = (some (s2, e2), f2) →
      (s2, e2) ≠ (s1, e1)) ∧
    (∀ f : FindMatches,
      ¬ f.last_end > byteLen f.search →
      has_match (Regex.execSlice f.re .Location f.search f.last_end
        (byteLen f.search)) = true →
      ((Regex.execSlice f.re .Location f.search f.last_end
          (byteLen f.search)).getD 1 none).getD 0 -
        ((Regex.execSlice f.re .Location f.search f.last_end
          (byteLen f.search)).getD 0 none).getD 0 = 0 →
      some f.last_end = f.last_match →
      FindMatches.next f =
        FindMatches.next { f with last_end := f.last_end + 1 }) := by
  constructor
  · intro f f1 f2 s1 e1 s2 e2 h1 h2
    have hy := fmNext_yield (byteLen f.search + 1) f (s1, e1) f1
      (by omega) h1
    have hgt := fmNext_gt (byteLen f1.search + 1) f1 e1
      (by omega) hy.2 (by rw [hy.1]) s2 e2 f2 h2
    intro hc
    rw [Prod.mk.injEq] at hc
    omega
  · intro f hgt hhm hes hlm
    conv_lhs => unfold FindMatches.next
    rw [if_neg hgt]
    dsimp only
    rw [if_pos hhm, if_pos ⟨hes, hlm⟩]

/-- The two first yields of `a*` over `ab` are `(0, 1)` and `(2, 2)` (an
empty match at 1 is skipped), so the claim theorem applies with all
hypotheses discharged on this concrete run. -/
theorem claim_C6_witness :
    (((2 : Nat), (2 : Nat)) ≠ ((0 : Nat), (1 : Nat))) ∧
    FindMatches.next fmStar1 =
      FindMatches.next { fmStar1 with last_end := fmStar1.last_end + 1 } :=
  ⟨claim_C6.1 fmStar0 fmStar1 fmStar2 0 1 2 2
     (by rw [← fmNextF_eq 4 fmStar0 (by decide)]; decide)
     (by rw [← fmNextF_eq 4 fmStar1 (by decide)]; decide),
   claim_C6.2 fmStar1 (by decide)
     (by rw [show Regex.execSlice fmStar1.re .Location fmStar1.search
            fmStar1.last_end (byteLen fmStar1.search) =
          nfaRunF .Location fmStar1.re.prog fmStar1.search fmStar1.last_end
            (byteLen fmStar1.search) from (nfaRunF_eq _ _ _ _ _).symm]
         decide)
     (by rw [show Regex.execSlice fmStar1.re .Location fmStar1.search
            fmStar1.last_end (byteLen fmStar1.search) =
          nfaRunF .Location fmStar1.re.prog fmStar1.search fmStar1.last_end
            (byteLen fmStar1.search) from (nfaRunF_eq _ _ _ _ _).symm]
         decide)
     (by decide)⟩

theorem getd_mid (A B : List Char) (c d : Char) :
    (A ++ c :: B).getD A.length d = c := by
  induction A with
  | nil => rfl
  | cons a A ih =>
    simp only [List.cons_append, List.length_cons, List.getD_cons_succ]
    exact ih

theorem quote_punct (c : Char) (rest : List Char) (hp : is_punct c = true) :
    quote (c :: rest) = '\\' :: c :: quote rest := by
  show (if is_punct c then ['\\', c] else [c]) ++ quote rest = _
  rw [if_pos hp]
  rfl

theorem quote_nonpunct (c : Char) (rest : List Char)
    (hp : is_punct c = false) :
    quote (c :: rest) = c :: quote rest := by
  show (if is_punct c then ['\\', c] else [c]) ++ quote rest = _
  rw [if_neg (by simp [hp])]
  rfl

theorem parseEscape_lit (p : Parser) (c : Char)
    (hcur : p.nextChar.cur = c) (hp : is_punct c = true) :
    p.parseEscape = .ok (Ast.Literal c false, p.nextChar) := by
  unfold Parser.parseEscape
  dsimp only
  rw [hcur, if_pos hp]

theorem parseLoop_quote :
    ∀ (S : List Char) (fuel : Nat) (done : List Char) (st : List BuildAst),
    (quote S).length < fuel →
    Parser.parseLoop fuel
      { chars := done ++ quote S, chari := done.length, stack := st
        flags := FLAG_EMPTY, caps := 0 } =
      .ok { chars := done ++ quote S, chari := done.length + (quote S).length
            stack := litStack S st, flags := FLAG_EMPTY, caps := 0 } := by
  intro S
  induction S with
  | nil =>
    intro fuel done st hf
    cases fuel with
    | zero => omega
    | succ f =>
      rw [Parser.parseLoop]
      split
      · next hlt => simp [quote] at hlt
      · show Except.ok _ = _
        simp [quote, litStack]
  | cons c rest ih =>
    intro fuel done st hf
    cases fuel with
    | zero => omega
    | succ f =>
      by_cases hp : is_punct c = true
      · rw [quote_punct c rest hp] at hf ⊢
        rw [Parser.parseLoop]
        split
        · next hlt =>
          have hcur : Parser.cur
              { chars := done ++ '\\' :: c :: quote rest
                chari := done.length, stack := st
                flags := FLAG_EMPTY, caps := 0 } = '\\' := by
            show (done ++ '\\' :: c :: quote rest).getD done.length default = '\\'
            exact getd_mid done _ _ _
          rw [hcur]
          split
          · next heq => exact absurd heq (by decide)
          · next heq => exact absurd heq (by decide)
          · next heq => exact absurd heq (by decide)
          · -- the backslash arm
            have hesc := parseEscape_lit
              { chars := done ++ '\\' :: c :: quote rest
                chari := done.length, stack := st
                flags := FLAG_EMPTY, caps := 0 } c
              (by
                show (done ++ '\\' :: c :: quote rest).getD
                  (done.length + 1) default = c
                rw [show done ++ '\\' :: c :: quote rest =
                  (done ++ ['\\']) ++ c :: quote rest by simp]
                rw [show done.length + 1 = (done ++ ['\\']).length by simp]
                exact getd_mid _ _ _ _) hp
            rw [hesc]
            simp only [bind, Except.bind]
            show Parser.parseLoop f
              { chars := done ++ '\\' :: c :: quote rest
                chari := done.length + 1 + 1
                stack := BuildAst.Ast (Ast.Literal c false) :: st
                flags := FLAG_EMPTY, caps := 0 } = _
            have hres := ih f (done ++ ['\\', c])
              (BuildAst.Ast (Ast.Literal c false) :: st)
              (by simp at hf ⊢; omega)
            rw [show (done ++ ['\\', c]) ++ quote rest =
              done ++ '\\' :: c :: quote rest by simp] at hres
            rw [show (done ++ ['\\', c]).length = done.length + 1 + 1
              by simp] at hres
            rw [hres]
            show Except.ok _ = Except.ok _
            rw [show done.length + 1 + 1 + (quote rest).length =
              done.length + ('\\' :: c :: quote rest).length by simp; omega]
            rfl
          · next heq => exact absurd heq (by decide)
          · next heq => exact absurd heq (by decide)
          · next heq => exact absurd heq (by decide)
          · next heq => exact absurd heq (by decide)
          · next heq => exact absurd heq (by decide)
          · next h1 h2 h3 h4 h5 h6 h7 h8 h9 => exact absurd rfl h4
        · next hlt =>
          exfalso
          simp at hlt
      · rw [quote_nonpunct c rest (by simpa using hp)] at hf ⊢
        rw [Parser.parseLoop]
        split
        · next hlt =>
          have hcur : Parser.cur
              { chars := done ++ c :: quote rest
                chari := done.length, stack := st
                flags := FLAG_EMPTY, caps := 0 } = c := by
            show (done ++ c :: quote rest).getD done.length default = c
            exact getd_mid done _ _ _
          rw [hcur]
          split
          · exact absurd (by decide) hp
          · exact absurd (by decide) hp
          · exact absurd (by decide) hp
          · exact absurd (by decide) hp
          · exact absurd (by decide) hp
          · exact absurd (by decide) hp
          · exact absurd (by decide) hp
          · exact absurd (by decide) hp
          · exact absurd (by decide) hp
          · -- default: an ordinary literal character
            unfold Parser.pushLiteral
            split
            · exact absurd (by decide) hp
            · exact absurd (by decide) hp
            · exact absurd (by decide) hp
            · dsimp only
              rw [show flagIsSet FLAG_EMPTY FLAG_NOCASE = false from rfl]
              show Parser.parseLoop f
                { chars := done ++ c :: quote rest
                  chari := done.length + 1
                  stack := BuildAst.Ast (Ast.Literal c false) :: st
                  flags := FLAG_EMPTY, caps := 0 } = _
              have hres := ih f (done ++ [c])
                (BuildAst.Ast (Ast.Literal c false) :: st)
                (by simp at hf ⊢; omega)
              rw [show (done ++ [c]) ++ quote rest =
                done ++ c :: quote rest by simp] at hres
              rw [show (done ++ [c]).length = done.length + 1 by simp] at hres
              rw [hres]
              show Except.ok _ = Except.ok _
              rw [show done.length + 1 + (quote rest).length =
                done.length + (c :: quote rest).length by simp; omega]
              rfl
        · next hlt =>
          exfalso
          simp at hlt

theorem litStack_eq :
    ∀ (S : List Char) (st : List BuildAst),
    litStack S st =
      (S.map (fun c => BuildAst.Ast (Ast.Literal c false))).reverse ++ st := by
  intro S
  induction S with
  | nil => intro st; rfl
  | cons c rest ih =>
    intro st
    show litStack rest (BuildAst.Ast (Ast.Literal c false) :: st) = _
    rw [ih]
    simp

theorem litMap_noParen (S : List Char) :
    (S.map (fun c => BuildAst.Ast (Ast.Literal c false))).any
      BuildAst.isParen = false := by
  induction S with
  | nil => rfl
  | cons c rest ih => simpa [BuildAst.isParen] using ih

theorem litMap_noBar (S : List Char) :
    (S.map (fun c => BuildAst.Ast (Ast.Literal c false))).findIdx?
      BuildAst.isBar = none := by
  induction S with
  | nil => rfl
  | cons c rest ih =>
    rw [List.map_cons, List.findIdx?_cons]
    rw [show BuildAst.isBar (BuildAst.Ast (Ast.Literal c false)) = false
      from rfl]
    simp [ih]

theorem buildFromLoop_lits (mk : Ast → Ast → Ast) :
    ∀ (T : List Char) (st : List BuildAst) (n : Nat) (comb : Ast),
    buildFromLoop mk
      (T.map (fun c => BuildAst.Ast (Ast.Literal c false)) ++ st)
      (T.length + n) comb =
      buildFromLoop mk st n
        (T.foldl (fun a c => mk (Ast.Literal c false) a) comb) := by
  intro T
  induction T with
  | nil =>
    intro st n comb
    simp only [List.map_nil, List.nil_append, List.length_nil, Nat.zero_add,
      List.foldl_nil]
  | cons c rest ih =>
    intro st n comb
    rw [List.map_cons, List.cons_append]
    rw [show (c :: rest).length + n = (rest.length + n) + 1 by simp; omega]
    show buildFromLoop mk
      (rest.map (fun c => BuildAst.Ast (Ast.Literal c false)) ++ st)
      (rest.length + n) (mk (Ast.Literal c false) comb) = _
    rw [ih]
    rfl

theorem litCat_cons (c : Char) (A : List Char) (h : A ≠ []) :
    litCat (c :: A) = Ast.Cat (Ast.Literal c false) (litCat A) := by
  cases A with
  | nil => exact absurd rfl h
  | cons a A2 => rfl

theorem foldl_litCat :
    ∀ (T A : List Char), A ≠ [] →
    T.foldl (fun a c => Ast.Cat (Ast.Literal c false) a) (litCat A) =
      litCat (T.reverse ++ A) := by
  intro T
  induction T with
  | nil => intro A h; rfl
  | cons c rest ih =>
    intro A h
    rw [List.foldl_cons, ← litCat_cons c A h]
    rw [ih (c :: A) (by simp)]
    simp

theorem posLast_noBar (p : Parser)
    (h : p.stack.findIdx? BuildAst.isBar = none) :
    p.posLast true BuildAst.isBar = .ok 0 := by
  unfold Parser.posLast
  rw [h]
  rfl

theorem concat_lits (chars : List Char) (chari flags caps : Nat) (d : Char)
    (R2 : List Char) :
    Parser.concat
      { chars := chars
        chari := chari
        stack := (d :: R2).map (fun c => BuildAst.Ast (Ast.Literal c false))
        flags := flags
        caps := caps } 0 =
      .ok { chars := chars
            chari := chari
            stack := [BuildAst.Ast (litCat ((d :: R2).reverse))]
            flags := flags
            caps := caps } := by
  unfold Parser.concat Parser.buildFrom
  rw [if_neg (by simp)]
  rw [show Parser.popAst
      { chars := chars
        chari := chari
        stack := (d :: R2).map (fun c => BuildAst.Ast (Ast.Literal c false))
        flags := flags
        caps := caps } =
      .ok (Ast.Literal d false,
        { chars := chars
          chari := chari
          stack := R2.map (fun c => BuildAst.Ast (Ast.Literal c false))
          flags := flags
          caps := caps }) from rfl]
  simp only [bind, Except.bind]
  try dsimp only
  rw [show (R2.map (fun c => BuildAst.Ast (Ast.Literal c false))).length - 0
      = R2.length + 0 by simp]
  rw [show R2.map (fun c => BuildAst.Ast (Ast.Literal c false)) =
    R2.map (fun c => BuildAst.Ast (Ast.Literal c false)) ++ [] by simp]
  rw [buildFromLoop_lits]
  show Except.ok _ = _
  rw [show R2.foldl (fun a c => Ast.Cat (Ast.Literal c false) a)
      (Ast.Literal d false) = litCat ((d :: R2).reverse) from by
    rw [show (Ast.Literal d false) = litCat [d] from rfl]
    rw [foldl_litCat R2 [d] (by simp)]
    simp]
  rfl

theorem alternate_single (chars : List Char) (chari flags caps : Nat)
    (x : Ast) :
    Parser.alternate
      { chars := chars
        chari := chari
        stack := [BuildAst.Ast x]
        flags := flags
        caps := caps } 0 =
      .ok { chars := chars
            chari := chari
            stack := [BuildAst.Ast x]
            flags := flags
            caps := caps } := by
  unfold Parser.alternate Parser.buildFrom
  rw [if_neg (by omega)]
  dsimp only
  rw [if_neg (by simp)]
  rfl

theorem parseFinish_lits (S : List Char) (hS : S ≠ []) (chars : List Char)
    (chari flags caps : Nat) :
    Parser.parseFinish
      { chars := chars
        chari := chari
        stack := litStack S []
        flags := flags
        caps := caps } = .ok (litCat S) := by
  have hst : litStack S [] =
      (S.reverse.map (fun c => BuildAst.Ast (Ast.Literal c false))) := by
    rw [litStack_eq]
    simp [List.map_reverse]
  cases hR : S.reverse with
  | nil => exact absurd (by simpa using congrArg List.reverse hR) hS
  | cons d R2 =>
    have hS2 : S = (d :: R2).reverse := by rw [← hR, List.reverse_reverse]
    rw [hR] at hst
    unfold Parser.parseFinish
    rw [hst]
    dsimp only
    rw [if_neg (by rw [litMap_noParen]; simp)]
    rw [posLast_noBar _ (litMap_noBar (d :: R2))]
    simp only [bind, Except.bind]
    rw [concat_lits]
    simp only [bind, Except.bind]
    rw [alternate_single]
    simp only [bind, Except.bind]
    rw [show Parser.popAst
        { chars := chars
          chari := chari
          stack := [BuildAst.Ast (litCat ((d :: R2).reverse))]
          flags := flags
          caps := caps } =
        .ok (litCat ((d :: R2).reverse),
          { chars := chars
            chari := chari
            stack := []
            flags := flags
            caps := caps }) from rfl]
  
    rw [← hS2]

theorem parse_quote (S : List Char) (h : S ≠ []) :
    parse (quote S) = .ok (litCat S) := by
  unfold parse
  have hl := parseLoop_quote S ((quote S).length + 1) [] [] (by omega)
  simp only [List.nil_append, List.length_nil, Nat.zero_add] at hl
  simp only [bind, Except.bind]
  rw [hl]
  exact parseFinish_lits S h (quote S) (quote S).length FLAG_EMPTY 0

theorem emit_litCat : ∀ (S : List Char) (L : Nat), S ≠ [] →
    emit (litCat S) L = S.map (fun c => Inst.OneChar c 0) := by
  intro S
  induction S with
  | nil => intro L h; exact absurd rfl h
  | cons c rest ih =>
    intro L h
    cases rest with
    | nil =>
      show emit (Ast.Literal c false) L = _
      simp [emit, boolFlag]
    | cons d rest2 =>
      show emit (Ast.Cat (Ast.Literal c false) (litCat (d :: rest2))) L = _
      show emit (Ast.Literal c false) L ++
        emit (litCat (d :: rest2)) (L + bLen (Ast.Literal c false)) = _
      rw [ih (L + bLen (Ast.Literal c false)) (by simp)]
      simp [emit, boolFlag]

theorem progNew_litInsts (S : List Char) (h : S ≠ []) :
    (Program.new (litCat S)).insts = litInsts S := by
  rw [progNew_insts, emit_litCat S 1 h]
  rfl

theorem prefixScan_lits (S : List Char) :
    prefixScan (S.map (fun c => Inst.OneChar c 0) ++
      [Inst.Save 1, Inst.Match]) = S := by
  induction S with
  | nil => rfl
  | cons c rest ih =>
    show c :: prefixScan (rest.map (fun c => Inst.OneChar c 0) ++
      [Inst.Save 1, Inst.Match]) = c :: rest
    rw [ih]

theorem progNew_prefixLit (S : List Char) (h : S ≠ []) :
    (Program.new (litCat S)).prefixLit = S := by
  rw [show (Program.new (litCat S)).prefixLit =
    prefixScan ((Program.new (litCat S)).insts.drop 1) from rfl]
  rw [progNew_litInsts S h]
  show prefixScan (S.map (fun c => Inst.OneChar c 0) ++
    [Inst.Save 1, Inst.Match]) = S
  exact prefixScan_lits S

theorem regexNew_quote (S : List Char) (h : S ≠ []) :
    Regex.new (quote S) =
      .ok { names := (Program.new (litCat S)).names
            prog := Program.new (litCat S) } := by
  unfold Regex.new
  rw [parse_quote S h]
  simp only [bind, Except.bind]

theorem byteLen_append (A B : List Char) :
    byteLen (A ++ B) = byteLen A + byteLen B := by
  simp [byteLen]

theorem charAtB_go_boundary (d : Char) (R : List Char) :
    ∀ (A : List Char) (pos ic : Nat), ic = pos + byteLen A →
    charAtB.go ic (A ++ d :: R) pos = some (d, ic + csize d) := by
  intro A
  induction A with
  | nil =>
    intro pos ic h
    simp [byteLen] at h
    rw [h]
    show (if pos = pos then some (d, pos + csize d) else _) = _
    rw [if_pos rfl]
  | cons a A2 ih =>
    intro pos ic h
    show (if ic = pos then _ else charAtB.go ic (A2 ++ d :: R) (pos + csize a))
      = _
    rw [if_neg (by have := csize_pos a; simp [byteLen] at h; omega)]
    exact ih (pos + csize a) ic (by simp [byteLen] at h ⊢; omega)

theorem charAtB_boundary (A : List Char) (d : Char) (R : List Char) :
    charAtB (A ++ d :: R) (byteLen A) =
      some (d, byteLen A + csize d) := by
  show charAtB.go (byteLen A) (A ++ d :: R) 0 = _
  exact charAtB_go_boundary d R A 0 (byteLen A) (by omega)

theorem byteLen_nil : byteLen ([] : List Char) = 0 := rfl

theorem byteLen_cons (c : Char) (l : List Char) :
    byteLen (c :: l) = csize c + byteLen l := by
  simp [byteLen]

theorem charsSet_zero (c : Char) (rest : List Char) :
    charsSet (c :: rest) 0 =
      ({ prev := none, cur := some c, next := csize c }, csize c) := by
  have hbl := byteLen_cons c rest
  have hc := csize_pos c
  unfold charsSet
  rw [if_neg (by omega)]
  dsimp only
  rw [if_neg (show ¬((0 : Nat) > 0) by omega)]
  rw [if_pos (show (0 : Nat) < byteLen (c :: rest) by omega)]
  have hb := charAtB_boundary [] c rest
  simp only [List.nil_append] at hb
  rw [show byteLen ([] : List Char) = 0 from rfl] at hb
  rw [hb]
  simp

theorem charsAdvance_mid (P : List Char) (c d : Char) (R2 : List Char)
    (cr : CharReader) (hnext : cr.next = byteLen (P ++ [c])) :
    charsAdvance (P ++ c :: d :: R2) cr =
      ({ prev := cr.cur, cur := some d
         next := byteLen (P ++ [c]) + csize d },
       byteLen (P ++ [c]) + csize d) := by
  unfold charsAdvance
  rw [hnext]
  rw [if_pos (by
    have := csize_pos d
    simp only [byteLen_append, byteLen_cons, byteLen_nil]
    omega)]
  rw [show P ++ c :: d :: R2 = (P ++ [c]) ++ d :: R2 by simp]
  rw [charAtB_boundary (P ++ [c]) d R2]

theorem charsAdvance_end (P : List Char) (c : Char) (cr : CharReader)
    (hnext : cr.next = byteLen (P ++ [c])) :
    charsAdvance (P ++ [c]) cr =
      ({ prev := cr.cur, cur := none, next := byteLen (P ++ [c]) + 1 },
       byteLen (P ++ [c]) + 1) := by
  unfold charsAdvance
  rw [hnext]
  rw [if_neg (by omega)]

theorem isPrefixOf_self (l : List Nat) : l.isPrefixOf l = true := by
  induction l with
  | nil => rfl
  | cons a l ih => simp [List.isPrefixOf, ih]

theorem findPrefixPos_self (b : List Nat) (hb : b ≠ []) :
    findPrefixPos b b = some 0 := by
  unfold findPrefixPos
  rw [if_neg (by simp [hb])]
  unfold findPrefixPos.go
  rw [if_neg (by omega)]
  rw [if_pos (by rw [List.drop_zero]; exact isPrefixOf_self b)]

theorem utf8C_ne_nil (c : Char) : utf8C c ≠ [] := by
  intro h
  unfold utf8C at h
  dsimp only at h
  split at h
  · simp at h
  · split at h
    · simp at h
    · split at h
      · simp at h
      · simp at h

theorem allBytes_ne_nil (c : Char) (rest : List Char) :
    allBytes (c :: rest) ≠ [] := by
  unfold allBytes
  rw [List.map_cons, List.flatten_cons]
  intro h
  exact utf8C_ne_nil c (List.append_eq_nil.mp h).1

theorem litInsts_length (S : List Char) :
    (litInsts S).length = S.length + 3 := by
  simp [litInsts]

theorem litInsts_zero (S : List Char) :
    (litInsts S).getD 0 Inst.Match = Inst.Save 0 := rfl

theorem litInsts_onechar (P : List Char) (c : Char) (R : List Char) :
    (litInsts (P ++ c :: R)).getD (P.length + 1) Inst.Match =
      Inst.OneChar c 0 := by
  show (Inst.Save 0 :: ((P ++ c :: R).map (fun x => Inst.OneChar x 0) ++
    [Inst.Save 1, Inst.Match])).getD (P.length + 1) Inst.Match = _
  rw [List.getD_cons_succ]
  rw [List.map_append, List.map_cons]
  rw [show (P.map (fun x => Inst.OneChar x 0) ++
      (Inst.OneChar c 0 :: R.map (fun x => Inst.OneChar x 0))) ++
      [Inst.Save 1, Inst.Match] =
    P.map (fun x => Inst.OneChar x 0) ++
      (Inst.OneChar c 0 :: (R.map (fun x => Inst.OneChar x 0) ++
        [Inst.Save 1, Inst.Match])) by simp]
  rw [getD_append_len_add _ _ _ _ 0 (by simp)]
  rfl

theorem litInsts_save1 (S : List Char) :
    (litInsts S).getD (S.length + 1) Inst.Match = Inst.Save 1 := by
  show (Inst.Save 0 :: (S.map (fun x => Inst.OneChar x 0) ++
    [Inst.Save 1, Inst.Match])).getD (S.length + 1) Inst.Match = _
  rw [List.getD_cons_succ]
  rw [getD_append_len_add _ _ _ _ 0 (by simp)]
  rfl

theorem litInsts_matchI (S : List Char) :
    (litInsts S).getD (S.length + 2) Inst.Match = Inst.Match := by
  show (Inst.Save 0 :: (S.map (fun x => Inst.OneChar x 0) ++
    [Inst.Save 1, Inst.Match])).getD (S.length + 2) Inst.Match = _
  rw [List.getD_cons_succ]
  rw [getD_append_len_add _ _ _ _ 1 (by simp)]
  rfl

theorem threadsAdd_shape (numI glen : Nat) (w : MatchKind) (t : Threads)
    (pc : Nat) (g : List (Option Nat)) (e : Bool)
    (hok : LiveOk numI glen w t) (hg : g.length = glen) :
    LiveOk numI glen w (t.add pc g e) ∧
    t.size ≤ (t.add pc g e).size ∧
    (t.add pc g e).size ≤ t.size + 1 ∧
    (∀ i, i < t.size →
      (t.add pc g e).queue.getD i default = t.queue.getD i default) ∧
    (∀ i, t.size ≤ i → i < (t.add pc g e).size →
      ((t.add pc g e).queue.getD i default).pc = pc) ∧
    (t.size < numI → (t.add pc g e).size = t.size + 1) := by
  obtain ⟨hw, hql, hsz, hgl⟩ := hok
  unfold Threads.add
  by_cases hlt : t.size < t.queue.length
  · rw [if_pos hlt]
    dsimp only
    have hsz2 : t.size + 1 ≤ numI := by omega
    refine ⟨⟨hw, by simpa using hql, hsz2, ?_⟩, ?_, ?_, ?_, ?_, ?_⟩
    · intro i hi
      by_cases hie : i = t.size
      · subst hie
        rw [getD_set_self _ _ _ _ hlt]
        cases e with
        | true => cases hw2 : t.which <;> simpa using hgl t.size hi
        | false =>
          cases hw2 : t.which
          · simpa using hgl t.size hi
          · simpa using hgl t.size hi
          · simpa using hg
      · rw [getD_set_ne _ _ _ (fun he => hie he.symm)]
        exact hgl i hi
    · show t.size ≤ t.size + 1
      omega
    · show t.size + 1 ≤ t.size + 1
      omega
    · intro i hi
      exact getD_set_ne _ _ _ (by omega)
    · intro i hi1 hi2
      have hi3 : i < t.size + 1 := hi2
      have hie : i = t.size := by omega
      subst hie
      rw [getD_set_self _ _ _ _ hlt]
    · intro hcap
      rfl
  · rw [if_neg hlt]
    refine ⟨⟨hw, hql, hsz, hgl⟩, le_rfl, by omega, fun i _ => rfl,
      fun i h1 h2 => by omega, fun hcap => by omega⟩

theorem contains_false_of_pcs (t : Threads) (pc : Nat)
    (h : ∀ i, i < t.size → (t.queue.getD i default).pc ≠ pc) :
    t.contains pc = false := by
  unfold Threads.contains
  dsimp only
  by_cases hs : t.sparse.getD pc 0 < t.size
  · have hne := h _ hs
    rw [show ((t.queue.getD (t.sparse.getD pc 0) default).pc == pc) = false
      from beq_eq_false_iff_ne.mpr hne]
    rw [Bool.and_false]
  · rw [decide_eq_false hs, Bool.false_and]

theorem set01_len2 (l : List (Option Nat)) (h : l.length = 2)
    (a b : Option Nat) : (l.set 0 a).set 1 b = [a, b] := by
  match l, h with
  | [x, y], _ => rfl

theorem threadsAdd_groups_loc (t : Threads) (pc : Nat)
    (g : List (Option Nat))
    (hw : t.which = .Location) (hcap : t.size < t.queue.length)
    (hold : ((t.queue.getD t.size default).groups).length = 2) :
    (t.add pc g false).queue.getD t.size default =
      ⟨pc, [g.getD 0 none, g.getD 1 none]⟩ := by
  unfold Threads.add
  rw [if_pos hcap]
  dsimp only
  rw [getD_set_self _ _ _ _ hcap]
  rw [hw]
  rw [set01_len2 _ hold]

theorem drop_decomp {α : Type _} (d : α) :
    ∀ (l : List α) (k : Nat), k < l.length →
    l.take k ++ l.getD k d :: l.drop (k + 1) = l := by
  intro l
  induction l with
  | nil =>
    intro k h
    simp at h
  | cons a l2 ih =>
    intro k h
    cases k with
    | zero => rfl
    | succ k2 =>
      show a :: (l2.take k2 ++ l2.getD k2 d :: l2.drop (k2 + 1)) = a :: l2
      rw [ih k2 (by simpa using h)]

theorem litInsts_onechar_ex (S : List Char) (p : Nat) (h1 : 1 ≤ p)
    (h2 : p ≤ S.length) :
    ∃ c, (litInsts S).getD p Inst.Match = Inst.OneChar c 0 := by
  have hp1 : p - 1 < S.length := by omega
  obtain ⟨A, c, R, hdec, hlen⟩ :
      ∃ A c R, S = A ++ c :: R ∧ A.length = p - 1 :=
    ⟨S.take (p - 1), S.getD (p - 1) default, S.drop ((p - 1) + 1),
      (drop_decomp default S (p - 1) hp1).symm,
      by rw [List.length_take]; omega⟩
  subst hdec
  refine ⟨c, ?_⟩
  rw [show p = A.length + 1 by omega]
  exact litInsts_onechar _ _ _

theorem nfaAddF_lit_shape (n : Nfa) (S : List Char)
    (hins : n.insts = litInsts S) (chars : CharReader) (ic : Nat)
    (numI glen : Nat) (w : MatchKind) (hw : n.which = w)
    (hnum : numI = S.length + 3) (hS : 1 ≤ S.length) :
    ∀ (fuel p : Nat) (g : List (Option Nat)) (t : Threads),
    (p = 0 ∨ (1 ≤ p ∧ p ≤ S.length)) →
    LiveOk numI glen w t → g.length = glen →
    LiveOk numI glen w (nfaAddF n chars ic fuel t p g) ∧
    t.size ≤ (nfaAddF n chars ic fuel t p g).size ∧
    (∀ i, i < t.size →
      (nfaAddF n chars ic fuel t p g).queue.getD i default =
        t.queue.getD i default) ∧
    (∀ i, t.size ≤ i → i < (nfaAddF n chars ic fuel t p g).size →
      ((nfaAddF n chars ic fuel t p g).queue.getD i default).pc ≤
        max p 1) := by
  intro fuel
  induction fuel with
  | zero =>
    intro p g t hp hok hg
    exact ⟨hok, le_rfl, fun i hi => rfl, fun i h1 h2 => by
      have h3 : i < t.size := h2
      omega⟩
  | succ fuel ih =>
    intro p g t hp hok hg
    rw [nfaAddF]
    by_cases hc : t.contains p = true
    · rw [if_pos hc]
      exact ⟨hok, le_rfl, fun i hi => rfl, fun i h1 h2 => by omega⟩
    · rw [if_neg hc]
      have hadd := threadsAdd_shape numI glen w t p g true hok hg
      rcases hp with hp0 | ⟨hp1, hp2⟩
      · subst hp0
        rw [hins, litInsts_zero]
        dsimp only
        rw [hw]
        have hok1 := hadd.1
        have hsz1 := hadd.2.1
        have hunch1 := hadd.2.2.2.1
        have hnew1 := hadd.2.2.2.2.1
        cases w with
        | Exists =>
          dsimp only
          have hrec := ih 1 g (t.add 0 g true) (Or.inr ⟨le_rfl, hS⟩) hok1 hg
          refine ⟨hrec.1, le_trans hsz1 hrec.2.1, ?_, ?_⟩
          · intro i hi
            rw [hrec.2.2.1 i (by omega), hunch1 i hi]
          · intro i h1 h2
            by_cases hi1 : i < (t.add 0 g true).size
            · rw [hrec.2.2.1 i hi1]
              rw [hnew1 i h1 hi1]
              simp
            · have hb := hrec.2.2.2 i (by omega) h2
              simpa using hb
        | Location =>
          dsimp only
          rw [if_pos (by omega)]
          have hg1 : (g.set 0 (some ic)).length = glen := by simpa using hg
          have hrec := ih 1 (g.set 0 (some ic)) (t.add 0 g true)
            (Or.inr ⟨le_rfl, hS⟩) hok1 hg1
          refine ⟨hrec.1, le_trans hsz1 hrec.2.1, ?_, ?_⟩
          · intro i hi
            rw [hrec.2.2.1 i (by omega), hunch1 i hi]
          · intro i h1 h2
            by_cases hi1 : i < (t.add 0 g true).size
            · rw [hrec.2.2.1 i hi1]
              rw [hnew1 i h1 hi1]
              simp
            · have hb := hrec.2.2.2 i (by omega) h2
              simpa using hb
        | Submatches =>
          dsimp only
          have hg1 : (g.set 0 (some ic)).length = glen := by simpa using hg
          have hrec := ih 1 (g.set 0 (some ic)) (t.add 0 g true)
            (Or.inr ⟨le_rfl, hS⟩) hok1 hg1
          refine ⟨hrec.1, le_trans hsz1 hrec.2.1, ?_, ?_⟩
          · intro i hi
            rw [hrec.2.2.1 i (by omega), hunch1 i hi]
          · intro i h1 h2
            by_cases hi1 : i < (t.add 0 g true).size
            · rw [hrec.2.2.1 i hi1]
              rw [hnew1 i h1 hi1]
              simp
            · have hb := hrec.2.2.2 i (by omega) h2
              simpa using hb
      · obtain ⟨c, hcc⟩ := litInsts_onechar_ex S p hp1 hp2
        rw [hins, hcc]
        dsimp only
        have haddf := threadsAdd_shape numI glen w t p g false hok hg
        refine ⟨haddf.1, haddf.2.1, haddf.2.2.2.1, ?_⟩
        intro i h1 h2
        rw [haddf.2.2.2.2.1 i h1 h2]
        exact le_max_left p 1

theorem nfaAdd_one_empty (n : Nfa) (chars : CharReader) (ic : Nat)
    (numI glen : Nat) (w : MatchKind) (hw : n.which = w)
    (t : Threads) (p : Nat) (c : Char) (f : Nat)
    (hpc : n.insts.getD p Inst.Match = Inst.OneChar c f)
    (g : List (Option Nat))
    (hok : LiveOk numI glen w t) (hsz : t.size = 0) (hg : g.length = glen)
    (hnum : 1 ≤ numI) :
    LiveOk numI glen w (n.add chars ic t p g) ∧
    (n.add chars ic t p g).size = 1 ∧
    ((n.add chars ic t p g).queue.getD 0 default).pc = p ∧
    (w = .Location → glen = 2 →
      ((n.add chars ic t p g).queue.getD 0 default).groups =
        [g.getD 0 none, g.getD 1 none]) := by
  have hszn : t.size ≤ numI := hok.2.2.1
  have hql : t.queue.length = numI := hok.2.1
  unfold Nfa.add
  rw [nfaAddF]
  rw [if_neg (by
    rw [contains_false_of_pcs t p (by intro i hi; rw [hsz] at hi; omega)]
    simp)]
  rw [hpc]
  dsimp only
  have hts := threadsAdd_shape numI glen w t p g false hok hg
  have h1 : (t.add p g false).size = t.size + 1 :=
    hts.2.2.2.2.2 (by omega)
  refine ⟨hts.1, by rw [h1, hsz], ?_, ?_⟩
  · exact hts.2.2.2.2.1 0 (by omega) (by rw [h1]; omega)
  · intro hwl hg2
    have hloc : t.which = .Location := by rw [hok.1, hwl]
    have hcap : t.size < t.queue.length := by omega
    have hold : ((t.queue.getD t.size default).groups).length = 2 := by
      rw [hok.2.2.2 t.size (by omega), hg2]
    have hgg := threadsAdd_groups_loc t p g hloc hcap hold
    rw [hsz] at hgg
    rw [hgg]

theorem nfaAdd_save1_empty (n : Nfa) (S : List Char)
    (hins : n.insts = litInsts S) (chars : CharReader) (ic : Nat)
    (numI glen : Nat) (w : MatchKind) (hw : n.which = w)
    (hnum : numI = S.length + 3)
    (t : Threads) (g : List (Option Nat))
    (hok : LiveOk numI glen w t) (hsz : t.size = 0) (hg : g.length = glen) :
    LiveOk numI glen w (n.add chars ic t (S.length + 1) g) ∧
    (n.add chars ic t (S.length + 1) g).size = 2 ∧
    ((n.add chars ic t (S.length + 1) g).queue.getD 0 default).pc =
      S.length + 1 ∧
    ((n.add chars ic t (S.length + 1) g).queue.getD 1 default).pc =
      S.length + 2 ∧
    (w = .Location → glen = 2 →
      ((n.add chars ic t (S.length + 1) g).queue.getD 1 default).groups =
        [g.getD 0 none, some ic]) := by
  have hql : t.queue.length = numI := hok.2.1
  unfold Nfa.add
  rw [nfaAddF]
  rw [if_neg (by
    rw [contains_false_of_pcs t (S.length + 1)
      (by intro i hi; rw [hsz] at hi; omega)]
    simp)]
  rw [hins, litInsts_save1]
  dsimp only
  rw [hw]
  have hts1 := threadsAdd_shape numI glen w t (S.length + 1) g true hok hg
  have h1 : (t.add (S.length + 1) g true).size = t.size + 1 :=
    hts1.2.2.2.2.2 (by omega)
  have h1' : (t.add (S.length + 1) g true).size = 1 := by rw [h1, hsz]
  have hslot0 : ((t.add (S.length + 1) g true).queue.getD 0 default).pc =
      S.length + 1 :=
    hts1.2.2.2.2.1 0 (by omega) (by omega)
  have hok1 := hts1.1
  have hcont2 : (t.add (S.length + 1) g true).contains (S.length + 2) =
      false := by
    apply contains_false_of_pcs
    intro i hi
    rw [h1'] at hi
    have hi0 : i = 0 := by omega
    rw [hi0, hslot0]
    omega
  have hstep2 : ∀ (g2 : List (Option Nat)), g2.length = glen →
      LiveOk numI glen w
        ((t.add (S.length + 1) g true).add (S.length + 2) g2 false) ∧
      ((t.add (S.length + 1) g true).add (S.length + 2) g2 false).size = 2 ∧
      (((t.add (S.length + 1) g true).add (S.length + 2) g2
          false).queue.getD 0 default).pc = S.length + 1 ∧
      (((t.add (S.length + 1) g true).add (S.length + 2) g2
          false).queue.getD 1 default).pc = S.length + 2 ∧
      (w = .Location → glen = 2 →
        (((t.add (S.length + 1) g true).add (S.length + 2) g2
            false).queue.getD 1 default).groups =
          [g2.getD 0 none, g2.getD 1 none]) := by
    intro g2 hg2
    have hts2 := threadsAdd_shape numI glen w _ (S.length + 2) g2 false
      hok1 hg2
    have h2 : ((t.add (S.length + 1) g true).add (S.length + 2) g2
        false).size = 2 := by
      rw [hts2.2.2.2.2.2 (by omega), h1']
    refine ⟨hts2.1, h2, ?_, ?_, ?_⟩
    · rw [hts2.2.2.2.1 0 (by omega)]
      exact hslot0
    · exact hts2.2.2.2.2.1 1 (by omega) (by omega)
    · intro hwl hgl2
      have hloc1 : (t.add (S.length + 1) g true).which = .Location := by
        rw [hok1.1, hwl]
      have hcap1 : (t.add (S.length + 1) g true).size <
          (t.add (S.length + 1) g true).queue.length := by
        rw [h1', hok1.2.1]
        omega
      have hold1 : (((t.add (S.length + 1) g true).queue.getD
          (t.add (S.length + 1) g true).size default).groups).length = 2 := by
        rw [hok1.2.2.2 _ (by rw [h1', hnum]; omega), hgl2]
      have hgg := threadsAdd_groups_loc _ (S.length + 2) g2 hloc1 hcap1 hold1
      rw [h1'] at hgg
      rw [hgg]
  rw [show t.queue.length = (S.length + 2) + 1 from by rw [hql, hnum]]
  cases w with
  | Exists =>
    dsimp only
    rw [nfaAddF]
    rw [if_neg (by rw [hcont2]; simp)]
    rw [hins, litInsts_matchI]
    dsimp only
    have hr := hstep2 g hg
    exact ⟨hr.1, hr.2.1, hr.2.2.1, hr.2.2.2.1,
      fun hwl => absurd hwl (by simp)⟩
  | Location =>
    dsimp only
    rw [if_pos (by omega)]
    rw [nfaAddF]
    rw [if_neg (by rw [hcont2]; simp)]
    rw [hins, litInsts_matchI]
    dsimp only
    have hg2 : (g.set 1 (some ic)).length = glen := by simpa using hg
    have hr := hstep2 (g.set 1 (some ic)) hg2
    refine ⟨hr.1, hr.2.1, hr.2.2.1, hr.2.2.2.1, ?_⟩
    intro hwl hgl2
    rw [hr.2.2.2.2 hwl hgl2]
    rw [getD_set_ne _ _ _ (by omega)]
    rw [getD_set_self _ _ _ _ (by omega)]
  | Submatches =>
    dsimp only
    rw [nfaAddF]
    rw [if_neg (by rw [hcont2]; simp)]
    rw [hins, litInsts_matchI]
    dsimp only
    have hg2 : (g.set 1 (some ic)).length = glen := by simpa using hg
    have hr := hstep2 (g.set 1 (some ic)) hg2
    exact ⟨hr.1, hr.2.1, hr.2.2.1, hr.2.2.2.1,
      fun hwl => absurd hwl (by simp)⟩

theorem nfaAdd_start_empty (n : Nfa) (S : List Char)
    (hins : n.insts = litInsts S) (chars : CharReader) (ic : Nat)
    (numI glen : Nat) (w : MatchKind) (hw : n.which = w)
    (hnum : numI = S.length + 3) (c1 : Char) (f1 : Nat)
    (hc1 : (litInsts S).getD 1 Inst.Match = Inst.OneChar c1 f1)
    (t : Threads) (g : List (Option Nat))
    (hok : LiveOk numI glen w t) (hsz : t.size = 0) (hg : g.length = glen) :
    LiveOk numI glen w (n.add chars ic t 0 g) ∧
    (n.add chars ic t 0 g).size = 2 ∧
    ((n.add chars ic t 0 g).queue.getD 0 default).pc = 0 ∧
    ((n.add chars ic t 0 g).queue.getD 1 default).pc = 1 ∧
    (w = .Location → glen = 2 →
      ((n.add chars ic t 0 g).queue.getD 1 default).groups =
        [some ic, g.getD 1 none]) := by
  have hql : t.queue.length = numI := hok.2.1
  unfold Nfa.add
  rw [nfaAddF]
  rw [if_neg (by
    rw [contains_false_of_pcs t 0 (by intro i hi; rw [hsz] at hi; omega)]
    simp)]
  rw [hins, litInsts_zero]
  dsimp only
  rw [hw]
  have hts1 := threadsAdd_shape numI glen w t 0 g true hok hg
  have h1 : (t.add 0 g true).size = t.size + 1 :=
    hts1.2.2.2.2.2 (by omega)
  have h1' : (t.add 0 g true).size = 1 := by rw [h1, hsz]
  have hslot0 : ((t.add 0 g true).queue.getD 0 default).pc = 0 :=
    hts1.2.2.2.2.1 0 (by omega) (by omega)
  have hok1 := hts1.1
  have hcont2 : (t.add 0 g true).contains 1 = false := by
    apply contains_false_of_pcs
    intro i hi
    rw [h1'] at hi
    have hi0 : i = 0 := by omega
    rw [hi0, hslot0]
    omega
  have hstep2 : ∀ (g2 : List (Option Nat)), g2.length = glen →
      LiveOk numI glen w ((t.add 0 g true).add 1 g2 false) ∧
      ((t.add 0 g true).add 1 g2 false).size = 2 ∧
      (((t.add 0 g true).add 1 g2 false).queue.getD 0 default).pc = 0 ∧
      (((t.add 0 g true).add 1 g2 false).queue.getD 1 default).pc = 1 ∧
      (w = .Location → glen = 2 →
        (((t.add 0 g true).add 1 g2 false).queue.getD 1 default).groups =
          [g2.getD 0 none, g2.getD 1 none]) := by
    intro g2 hg2
    have hts2 := threadsAdd_shape numI glen w _ 1 g2 false hok1 hg2
    have h2 : ((t.add 0 g true).add 1 g2 false).size = 2 := by
      rw [hts2.2.2.2.2.2 (by omega), h1']
    refine ⟨hts2.1, h2, ?_, ?_, ?_⟩
    · rw [hts2.2.2.2.1 0 (by omega)]
      exact hslot0
    · exact hts2.2.2.2.2.1 1 (by omega) (by omega)
    · intro hwl hgl2
      have hloc1 : (t.add 0 g true).which = .Location := by
        rw [hok1.1, hwl]
      have hcap1 : (t.add 0 g true).size <
          (t.add 0 g true).queue.length := by
        rw [h1', hok1.2.1]
        omega
      have hold1 : (((t.add 0 g true).queue.getD
          (t.add 0 g true).size default).groups).length = 2 := by
        rw [hok1.2.2.2 _ (by rw [h1', hnum]; omega), hgl2]
      have hgg := threadsAdd_groups_loc _ 1 g2 hloc1 hcap1 hold1
      rw [h1'] at hgg
      rw [hgg]
  rw [show t.queue.length = (S.length + 2) + 1 from by rw [hql, hnum]]
  cases w with
  | Exists =>
    dsimp only
    rw [nfaAddF]
    rw [if_neg (by rw [hcont2]; simp)]
    rw [hins, hc1]
    dsimp only
    have hr := hstep2 g hg
    exact ⟨hr.1, hr.2.1, hr.2.2.1, hr.2.2.2.1,
      fun hwl => absurd hwl (by simp)⟩
  | Location =>
    dsimp only
    rw [if_pos (by omega)]
    rw [nfaAddF]
    rw [if_neg (by rw [hcont2]; simp)]
    rw [hins, hc1]
    dsimp only
    have hg2 : (g.set 0 (some ic)).length = glen := by simpa using hg
    have hr := hstep2 (g.set 0 (some ic)) hg2
    refine ⟨hr.1, hr.2.1, hr.2.2.1, hr.2.2.2.1, ?_⟩
    intro hwl hgl2
    rw [hr.2.2.2.2 hwl hgl2]
    rw [getD_set_self _ _ _ _ (by omega)]
    rw [getD_set_ne _ _ _ (by omega)]
  | Submatches =>
    dsimp only
    rw [nfaAddF]
    rw [if_neg (by rw [hcont2]; simp)]
    rw [hins, hc1]
    dsimp only
    have hg2 : (g.set 0 (some ic)).length = glen := by simpa using hg
    have hr := hstep2 (g.set 0 (some ic)) hg2
    exact ⟨hr.1, hr.2.1, hr.2.2.1, hr.2.2.2.1,
      fun hwl => absurd hwl (by simp)⟩

theorem step_onechar (n : Nfa) (chars : CharReader) (ic : Nat)
    (groups : List (Option Nat)) (nlist : Threads)
    (caps : List (Option Nat)) (pc : Nat) (c : Char)
    (hpc : n.insts.getD pc Inst.Match = Inst.OneChar c 0) :
    n.step chars ic groups nlist caps pc =
      (.StepContinue, groups,
        if char_eq false chars.prev c then
          n.add chars ic nlist (pc + 1) caps
        else nlist) := by
  unfold Nfa.step
  rw [hpc]
  dsimp only
  rw [show (decide (0 &&& FLAG_NOCASE > 0)) = false from rfl]
  by_cases hce : char_eq false chars.prev c = true
  · rw [if_pos hce, if_pos hce]
  · rw [if_neg hce, if_neg hce]

theorem step_save (n : Nfa) (chars : CharReader) (ic : Nat)
    (groups : List (Option Nat)) (nlist : Threads)
    (caps : List (Option Nat)) (pc s : Nat)
    (hpc : n.insts.getD pc Inst.Match = Inst.Save s) :
    n.step chars ic groups nlist caps pc =
      (.StepContinue, groups, nlist) := by
  unfold Nfa.step
  rw [hpc]

theorem step_match_loc (n : Nfa) (chars : CharReader) (ic : Nat)
    (groups : List (Option Nat)) (nlist : Threads)
    (caps : List (Option Nat)) (pc : Nat)
    (hpc : n.insts.getD pc Inst.Match = Inst.Match)
    (hw : n.which = .Location) :
    n.step chars ic groups nlist caps pc =
      (.StepMatch,
       (groups.set 0 (caps.getD 0 none)).set 1 (caps.getD 1 none),
       nlist) := by
  unfold Nfa.step
  rw [hpc, hw]

theorem step_match_ex (n : Nfa) (chars : CharReader) (ic : Nat)
    (groups : List (Option Nat)) (nlist : Threads)
    (caps : List (Option Nat)) (pc : Nat)
    (hpc : n.insts.getD pc Inst.Match = Inst.Match)
    (hw : n.which = .Exists) :
    n.step chars ic groups nlist caps pc =
      (.StepMatchEarlyReturn, groups, nlist) := by
  unfold Nfa.step
  rw [hpc, hw]

theorem stepAll_junk (n : Nfa) (S : List Char)
    (hins : n.insts = litInsts S) (chars : CharReader) (ic : Nat)
    (numI glen : Nat) (w : MatchKind) (hw : n.which = w)
    (hnum : numI = S.length + 3) (hS : 1 ≤ S.length) (kb : Nat)
    (hkb : kb + 1 ≤ S.length) :
    ∀ (m i : Nat) (clist nlist : Threads) (groups : List (Option Nat))
      (matched : Bool),
    clist.size - i ≤ m →
    LiveOk numI glen w clist → LiveOk numI glen w nlist →
    (∀ j, i ≤ j → j < clist.size → (clist.queue.getD j default).pc ≤ kb) →
    ∃ nlist2,
      stepAll n chars ic i clist nlist groups matched =
        (false, clist, nlist2, groups, matched) ∧
      LiveOk numI glen w nlist2 ∧
      nlist.size ≤ nlist2.size ∧
      (∀ q, q < nlist.size →
        nlist2.queue.getD q default = nlist.queue.getD q default) ∧
      (∀ q, nlist.size ≤ q → q < nlist2.size →
        (nlist2.queue.getD q default).pc ≤ kb + 1) := by
  intro m
  induction m with
  | zero =>
    intro i clist nlist groups matched hm hcl hnl hpcs
    refine ⟨nlist, ?_, hnl, le_rfl, fun q hq => rfl, fun q h1 h2 => by omega⟩
    unfold stepAll
    rw [dif_neg (by omega)]
  | succ m ih =>
    intro i clist nlist groups matched hm hcl hnl hpcs
    by_cases hlt : i < clist.size
    · unfold stepAll
      rw [dif_pos hlt]
      dsimp only
      have hpci : (clist.queue.getD i default).pc ≤ kb := hpcs i le_rfl hlt
      have hpci2 : clist.pcAt i ≤ kb := hpci
      have hcapl : (clist.groupsAt i).length = glen :=
        hcl.2.2.2 i (by have := hcl.2.2.1; omega)
      by_cases hpc0 : clist.pcAt i = 0
      · rw [step_save n chars ic groups nlist (clist.groupsAt i)
          (clist.pcAt i) 0 (by rw [hpc0, hins]; exact litInsts_zero S)]
        dsimp only
        exact ih (i + 1) clist nlist groups matched (by omega) hcl hnl
          (fun j h1 h2 => hpcs j (by omega) h2)
      · have hpc1 : 1 ≤ clist.pcAt i := by omega
        obtain ⟨c, hcc⟩ := litInsts_onechar_ex S (clist.pcAt i) hpc1
          (by omega)
        rw [step_onechar n chars ic groups nlist (clist.groupsAt i)
          (clist.pcAt i) c (by rw [hins]; exact hcc)]
        dsimp only
        by_cases hmt : char_eq false chars.prev c = true
        · rw [if_pos hmt]
          have hshape := nfaAddF_lit_shape n S hins chars ic numI glen w
            hw hnum hS (nlist.queue.length + 1) (clist.pcAt i + 1)
            (clist.groupsAt i) nlist
            (Or.inr ⟨by omega, by omega⟩)
            hnl hcapl
          obtain ⟨hs1, hs2, hs3, hs4⟩ := hshape
          have hadd_eq : n.add chars ic nlist (clist.pcAt i + 1)
              (clist.groupsAt i) =
            nfaAddF n chars ic (nlist.queue.length + 1) nlist
              (clist.pcAt i + 1) (clist.groupsAt i) := rfl
          rw [← hadd_eq] at hs1 hs2 hs3 hs4
          have hrec := ih (i + 1) clist
            (n.add chars ic nlist (clist.pcAt i + 1) (clist.groupsAt i))
            groups matched (by omega) hcl hs1
            (fun j h1 h2 => hpcs j (by omega) h2)
          obtain ⟨nlist2, hr1, hr2, hr3, hr4, hr5⟩ := hrec
          refine ⟨nlist2, hr1, hr2, le_trans hs2 hr3, ?_, ?_⟩
          · intro q hq
            rw [hr4 q (by omega), hs3 q hq]
          · intro q h1 h2
            by_cases hq1 : q <
                (n.add chars ic nlist (clist.pcAt i + 1)
                  (clist.groupsAt i)).size
            · rw [hr4 q hq1]
              have hb := hs4 q h1 hq1
              have hmax : max (clist.pcAt i + 1) 1 = clist.pcAt i + 1 :=
                Nat.max_eq_left (by omega)
              rw [hmax] at hb
              omega
            · have hb := hr5 q (by omega) h2
              omega
        · rw [if_neg hmt]
          exact ih (i + 1) clist nlist groups matched (by omega) hcl hnl
            (fun j h1 h2 => hpcs j (by omega) h2)
    · refine ⟨nlist, ?_, hnl, le_rfl, fun q hq => rfl, fun q h1 h2 => by omega⟩
      unfold stepAll
      rw [dif_neg hlt]

theorem prefixAnchor_lits (S : List Char) (hS : 1 ≤ S.length) :
    prefixAnchor (litInsts S) = false := by
  obtain ⟨c, hcc⟩ := litInsts_onechar_ex S 1 le_rfl hS
  unfold prefixAnchor
  rw [hcc]

theorem startAddCond_lit (x : Nat) :
    startAddCond x false false = true := by
  simp [startAddCond]

theorem liveOk_empty (numI glen : Nat) (w : MatchKind) (t : Threads)
    (h : LiveOk numI glen w t) :
    LiveOk numI glen w t.empty := by
  obtain ⟨h1, h2, h3, h4⟩ := h
  exact ⟨h1, h2, by show (0 : Nat) ≤ numI; omega, h4⟩

theorem runLoop_final (n : Nfa) (S : List Char)
    (hins : n.insts = litInsts S) (hpre : n.prefixLit = S)
    (hinp : n.input = S) (hend : n.endP = byteLen S)
    (numI glen : Nat) (w : MatchKind) (hw : n.which = w)
    (hwx : w = .Exists ∨ w = .Location)
    (hnum : numI = S.length + 3) (hS : 1 ≤ S.length)
    (hglenL : w = .Location → glen = 2) :
    ∀ (st : RunSt),
    st.ic = byteLen S →
    st.nextIc = byteLen S + 1 →
    st.chars.next = byteLen S + 1 →
    LiveOk numI glen w st.clist →
    LiveOk numI glen w st.nlist →
    st.nlist.size = 0 →
    2 ≤ st.clist.size →
    (st.clist.queue.getD 0 default).pc = S.length + 1 →
    (st.clist.queue.getD 1 default).pc = S.length + 2 →
    (w = .Location →
      (st.clist.queue.getD 1 default).groups = [some 0, some (byteLen S)]) →
    st.groups = List.replicate glen none →
    st.matched = false →
    runLoop n st =
      (if w = .Exists then [some 0, some 0]
       else [some 0, some (byteLen S)]) := by
  intro st hic hnic hchn hcl hnl hnls hsz2 hq0 hq1 hq1g hgr hmt
  have hql : st.clist.queue.length = numI := hcl.2.1
  have hszn : st.clist.size ≤ numI := hcl.2.2.1
  unfold runLoop
  rw [if_pos (show st.ic ≤ n.endP by omega)]
  rw [if_neg (show ¬(st.clist.size = 0 ∧ st.matched = true) from
    fun hcon => by have := hcon.1; omega)]
  dsimp only
  rw [if_neg (show ¬(st.clist.size = 0 ∧ n.prefixLit.length > 0) from
    fun hcon => by have := hcon.1; omega)]
  dsimp only
  rw [hins, prefixAnchor_lits S hS, hmt, startAddCond_lit]
  rw [if_pos rfl]
  have hshape := nfaAddF_lit_shape n S hins st.chars st.ic numI glen w
    hw hnum hS (st.clist.queue.length + 1) 0 st.groups st.clist
    (Or.inl rfl) hcl (by rw [hgr]; simp)
  have hadd_eq : n.add st.chars st.ic st.clist 0 st.groups =
      nfaAddF n st.chars st.ic (st.clist.queue.length + 1) st.clist 0
        st.groups := rfl
  obtain ⟨hc2ok, hc2sz, hc2un, hc2new⟩ := hshape
  rw [← hadd_eq] at hc2ok hc2sz hc2un hc2new
  have hc2q0 : ((n.add st.chars st.ic st.clist 0 st.groups).queue.getD 0
      default).pc = S.length + 1 := by
    rw [hc2un 0 (by omega)]
    exact hq0
  have hc2q1 : ((n.add st.chars st.ic st.clist 0 st.groups).queue.getD 1
      default).pc = S.length + 2 := by
    rw [hc2un 1 (by omega)]
    exact hq1
  have hc2sz2 : 2 ≤ (n.add st.chars st.ic st.clist 0 st.groups).size :=
    le_trans hsz2 hc2sz
  have hadv : charsAdvance n.input st.chars =
      ({ prev := st.chars.cur, cur := none, next := byteLen S + 1 },
       byteLen S + 1) := by
    rw [hinp]
    unfold charsAdvance
    rw [hchn]
    rw [if_neg (by omega)]
  rw [hadv]
  dsimp only
  rcases hwx with hwe | hwl
  · subst hwe
    have hsa : stepAll n
        { prev := st.chars.cur, cur := none, next := byteLen S + 1 }
        st.nextIc 0 (n.add st.chars st.ic st.clist 0 st.groups) st.nlist
        st.groups false =
        (true, n.add st.chars st.ic st.clist 0 st.groups, st.nlist,
          st.groups, false) := by
      unfold stepAll
      rw [dif_pos (by omega)]
      dsimp only
      rw [show (n.add st.chars st.ic st.clist 0 st.groups).pcAt 0 =
        S.length + 1 from hc2q0]
      rw [step_save n _ st.nextIc st.groups st.nlist _ (S.length + 1) 1
        (by rw [hins]; exact litInsts_save1 S)]
      dsimp only
      unfold stepAll
      rw [dif_pos (by omega)]
      dsimp only
      rw [show (n.add st.chars st.ic st.clist 0 st.groups).pcAt (0 + 1) =
        S.length + 2 from hc2q1]
      rw [step_match_ex n _ st.nextIc st.groups st.nlist _ (S.length + 2)
        (by rw [hins]; exact litInsts_matchI S) hw]
    rw [hsa]
    dsimp only
    rw [if_pos rfl, if_pos rfl]
  · subst hwl
    have hglen2 := hglenL rfl
    have hcg : ((n.add st.chars st.ic st.clist 0 st.groups).queue.getD 1
        default).groups = [some 0, some (byteLen S)] := by
      rw [hc2un 1 (by omega)]
      exact hq1g rfl
    have hsa : stepAll n
        { prev := st.chars.cur, cur := none, next := byteLen S + 1 }
        st.nextIc 0 (n.add st.chars st.ic st.clist 0 st.groups) st.nlist
        st.groups false =
        (false, (n.add st.chars st.ic st.clist 0 st.groups).empty,
          st.nlist, [some 0, some (byteLen S)], true) := by
      unfold stepAll
      rw [dif_pos (by omega)]
      dsimp only
      rw [show (n.add st.chars st.ic st.clist 0 st.groups).pcAt 0 =
        S.length + 1 from hc2q0]
      rw [step_save n _ st.nextIc st.groups st.nlist _ (S.length + 1) 1
        (by rw [hins]; exact litInsts_save1 S)]
      dsimp only
      unfold stepAll
      rw [dif_pos (by omega)]
      dsimp only
      rw [show (n.add st.chars st.ic st.clist 0 st.groups).pcAt (0 + 1) =
        S.length + 2 from hc2q1]
      rw [show (n.add st.chars st.ic st.clist 0 st.groups).groupsAt (0 + 1)
        = [some 0, some (byteLen S)] from hcg]
      rw [step_match_loc n _ st.nextIc st.groups st.nlist _ (S.length + 2)
        (by rw [hins]; exact litInsts_matchI S) hw]
      dsimp only
      unfold stepAll
      rw [dif_neg (show ¬(0 + 1 + 1 <
        ((n.add st.chars st.ic st.clist 0 st.groups).empty).size) from
        fun hcon => by
          have hcon2 : 0 + 1 + 1 < 0 := hcon
          omega)]
      rw [hgr, hglen2]
      rw [show (([some 0, some (byteLen S)] : List (Option Nat)).getD 0
        none) = some 0 from rfl]
      rw [show (([some 0, some (byteLen S)] : List (Option Nat)).getD 1
        none) = some (byteLen S) from rfl]
      rw [set01_len2 _ (by simp)]
    rw [hsa]
    dsimp only
    rw [if_neg (show ¬(false = true) by simp)]
    rw [dif_pos (show st.ic < st.nextIc by omega)]
    unfold runLoop
    rw [if_neg (show ¬(st.nextIc ≤ n.endP) by omega)]
    unfold runFinish
    rw [hw]
    rw [if_neg (show ¬(MatchKind.Location = MatchKind.Exists) by simp)]

theorem runLoop_lits (n : Nfa) (S : List Char)
    (hins : n.insts = litInsts S) (hpre : n.prefixLit = S)
    (hinp : n.input = S) (hend : n.endP = byteLen S)
    (numI glen : Nat) (w : MatchKind) (hw : n.which = w)
    (hwx : w = .Exists ∨ w = .Location)
    (hnum : numI = S.length + 3) (hS : 1 ≤ S.length)
    (hglenL : w = .Location → glen = 2) :
    ∀ (R P : List Char) (c : Char) (gP : List (Option Nat)) (st : RunSt),
    S = P ++ c :: R → 1 ≤ P.length →
    st.ic = byteLen P →
    st.nextIc = byteLen P + csize c →
    st.chars.cur = some c →
    st.chars.next = byteLen P + csize c →
    LiveOk numI glen w st.clist →
    LiveOk numI glen w st.nlist →
    st.nlist.size = 0 →
    1 ≤ st.clist.size →
    st.clist.queue.getD 0 default = ⟨P.length + 1, gP⟩ →
    (w = .Location → gP.getD 0 none = some 0) →
    (∀ j, 1 ≤ j → j < st.clist.size →
      (st.clist.queue.getD j default).pc ≤ P.length) →
    st.groups = List.replicate glen none →
    st.matched = false →
    runLoop n st =
      (if w = .Exists then [some 0, some 0]
       else [some 0, some (byteLen S)]) := by
  intro R
  induction R with
  | nil =>
    intro P c gP st hSeq hP1 hic hnic hccur hchn hcl hnl hnls hsz1 hprim
      hgPloc hjunk hgr hmt
    have hble : byteLen S = byteLen P + csize c := by
      rw [hSeq, byteLen_append, byteLen_cons, byteLen_nil]
      omega
    have hlenS : S.length = P.length + 1 := by rw [hSeq]; simp
    have hcsp := csize_pos c
    have hql : st.clist.queue.length = numI := hcl.2.1
    have hszn : st.clist.size ≤ numI := hcl.2.2.1
    have hgPlen : gP.length = glen := by
      have := hcl.2.2.2 0 (by omega)
      rw [hprim] at this
      exact this
    unfold runLoop
    rw [if_pos (show st.ic ≤ n.endP by omega)]
    rw [if_neg (show ¬(st.clist.size = 0 ∧ st.matched = true) from
      fun hcon => by have := hcon.1; omega)]
    dsimp only
    rw [if_neg (show ¬(st.clist.size = 0 ∧ n.prefixLit.length > 0) from
      fun hcon => by have := hcon.1; omega)]
    dsimp only
    rw [hins, prefixAnchor_lits S hS, hmt, startAddCond_lit]
    rw [if_pos rfl]
    have hshape := nfaAddF_lit_shape n S hins st.chars st.ic numI glen w
      hw hnum hS (st.clist.queue.length + 1) 0 st.groups st.clist
      (Or.inl rfl) hcl (by rw [hgr]; simp)
    have hadd_eq : n.add st.chars st.ic st.clist 0 st.groups =
        nfaAddF n st.chars st.ic (st.clist.queue.length + 1) st.clist 0
          st.groups := rfl
    obtain ⟨hc2ok, hc2sz, hc2un, hc2new⟩ := hshape
    rw [← hadd_eq] at hc2ok hc2sz hc2un hc2new
    have hc2q0 : (n.add st.chars st.ic st.clist 0 st.groups).queue.getD 0
        default = ⟨P.length + 1, gP⟩ := by
      rw [hc2un 0 (by omega)]
      exact hprim
    have hadv : charsAdvance n.input st.chars =
        ({ prev := st.chars.cur, cur := none, next := byteLen (P ++ [c]) + 1 },
         byteLen (P ++ [c]) + 1) := by
      rw [hinp, hSeq]
      exact charsAdvance_end P c st.chars
        (by rw [hchn, byteLen_append, byteLen_cons, byteLen_nil]; omega)
    rw [hadv, hccur]
    dsimp only
    have hbPc : byteLen (P ++ [c]) = byteLen P + csize c := by
      rw [byteLen_append, byteLen_cons, byteLen_nil]
      omega
    -- the primary thread consumes `c` and queues the Save 1 / Match closure
    have hlk1 : (litInsts S).getD (P.length + 1) Inst.Match =
        Inst.OneChar c 0 := by
      rw [hSeq]
      exact litInsts_onechar P c []
    have hNsv := nfaAdd_save1_empty n S hins
      { prev := some c, cur := none, next := byteLen (P ++ [c]) + 1 }
      st.nextIc numI glen w hw hnum st.nlist gP hnl hnls hgPlen
    have hidx : P.length + 1 + 1 = S.length + 1 := by omega
    have hjr := stepAll_junk n S hins
      { prev := some c, cur := none, next := byteLen (P ++ [c]) + 1 }
      st.nextIc numI glen w hw hnum hS P.length (by omega)
      ((n.add st.chars st.ic st.clist 0 st.groups).size) (0 + 1)
      (n.add st.chars st.ic st.clist 0 st.groups)
      (n.add { prev := some c, cur := none, next := byteLen (P ++ [c]) + 1 } st.nextIc st.nlist (S.length + 1) gP)
      st.groups false (by omega) hc2ok hNsv.1
      (by
        intro j h1 h2
        by_cases hj : j < st.clist.size
        · rw [hc2un j hj]
          exact hjunk j h1 hj
        · have hb := hc2new j (by omega) h2
          have h01 : max 0 1 = 1 := by simp
          rw [h01] at hb
          omega)
    obtain ⟨nlist3, hj1, hj2, hj3, hj4, hj5⟩ := hjr
    have hsa : stepAll n
        { prev := some c, cur := none, next := byteLen (P ++ [c]) + 1 }
        st.nextIc 0 (n.add st.chars st.ic st.clist 0 st.groups) st.nlist
        st.groups false =
        (false, n.add st.chars st.ic st.clist 0 st.groups, nlist3,
          st.groups, false) := by
      unfold stepAll
      rw [dif_pos (by omega)]
      dsimp only
      rw [show (n.add st.chars st.ic st.clist 0 st.groups).pcAt 0 =
        P.length + 1 from by
        show ((n.add st.chars st.ic st.clist 0 st.groups).queue.getD 0
          default).pc = _
        rw [hc2q0]]
      rw [show (n.add st.chars st.ic st.clist 0 st.groups).groupsAt 0 =
        gP from by
        show ((n.add st.chars st.ic st.clist 0 st.groups).queue.getD 0
          default).groups = _
        rw [hc2q0]]
      rw [step_onechar n _ st.nextIc st.groups st.nlist gP (P.length + 1) c
        (by rw [hins]; exact hlk1)]
      dsimp only
      rw [if_pos (by simp [char_eq])]
      rw [hidx]
      exact hj1
    rw [hsa]
    dsimp only
    rw [if_neg (show ¬(false = true) by simp)]
    rw [dif_pos (show st.ic < st.nextIc by omega)]
    apply runLoop_final n S hins hpre hinp hend numI glen w hw hwx hnum hS
      hglenL
    · show st.nextIc = byteLen S
      omega
    · show byteLen (P ++ [c]) + 1 = byteLen S + 1
      omega
    · show byteLen (P ++ [c]) + 1 = byteLen S + 1
      omega
    · exact hj2
    · exact liveOk_empty _ _ _ _ hc2ok
    · rfl
    · show 2 ≤ nlist3.size
      have := hNsv.2.1
      omega
    · rw [hj4 0 (by rw [hNsv.2.1]; omega)]
      exact hNsv.2.2.1
    · rw [hj4 1 (by rw [hNsv.2.1]; omega)]
      exact hNsv.2.2.2.1
    · intro hwl
      rw [hj4 1 (by rw [hNsv.2.1]; omega)]
      rw [hNsv.2.2.2.2 hwl (hglenL hwl)]
      rw [hgPloc hwl]
      rw [show st.nextIc = byteLen S by omega]
    · exact hgr
    · rfl
  | cons d R2 ih =>
    intro P c gP st hSeq hP1 hic hnic hccur hchn hcl hnl hnls hsz1 hprim
      hgPloc hjunk hgr hmt
    have hble : byteLen S = byteLen P + (csize c + (csize d + byteLen R2)) := by
      rw [hSeq, byteLen_append, byteLen_cons, byteLen_cons]
    have hlenS : S.length = P.length + 1 + (R2.length + 1) := by
      rw [hSeq]
      simp
      omega
    have hcsp := csize_pos c
    have hcsd := csize_pos d
    have hql : st.clist.queue.length = numI := hcl.2.1
    have hszn : st.clist.size ≤ numI := hcl.2.2.1
    have hgPlen : gP.length = glen := by
      have := hcl.2.2.2 0 (by omega)
      rw [hprim] at this
      exact this
    unfold runLoop
    rw [if_pos (show st.ic ≤ n.endP by omega)]
    rw [if_neg (show ¬(st.clist.size = 0 ∧ st.matched = true) from
      fun hcon => by have := hcon.1; omega)]
    dsimp only
    rw [if_neg (show ¬(st.clist.size = 0 ∧ n.prefixLit.length > 0) from
      fun hcon => by have := hcon.1; omega)]
    dsimp only
    rw [hins, prefixAnchor_lits S hS, hmt, startAddCond_lit]
    rw [if_pos rfl]
    have hshape := nfaAddF_lit_shape n S hins st.chars st.ic numI glen w
      hw hnum hS (st.clist.queue.length + 1) 0 st.groups st.clist
      (Or.inl rfl) hcl (by rw [hgr]; simp)
    have hadd_eq : n.add st.chars st.ic st.clist 0 st.groups =
        nfaAddF n st.chars st.ic (st.clist.queue.length + 1) st.clist 0
          st.groups := rfl
    obtain ⟨hc2ok, hc2sz, hc2un, hc2new⟩ := hshape
    rw [← hadd_eq] at hc2ok hc2sz hc2un hc2new
    have hc2q0 : (n.add st.chars st.ic st.clist 0 st.groups).queue.getD 0
        default = ⟨P.length + 1, gP⟩ := by
      rw [hc2un 0 (by omega)]
      exact hprim
    have hadv : charsAdvance n.input st.chars =
        ({ prev := st.chars.cur, cur := some d
           next := byteLen (P ++ [c]) + csize d },
         byteLen (P ++ [c]) + csize d) := by
      rw [hinp, hSeq]
      exact charsAdvance_mid P c d R2 st.chars
        (by rw [hchn, byteLen_append, byteLen_cons, byteLen_nil]; omega)
    rw [hadv, hccur]
    dsimp only
    have hbPc : byteLen (P ++ [c]) = byteLen P + csize c := by
      rw [byteLen_append, byteLen_cons, byteLen_nil]
      omega
    have hlk1 : (litInsts S).getD (P.length + 1) Inst.Match =
        Inst.OneChar c 0 := by
      rw [hSeq]
      exact litInsts_onechar P c (d :: R2)
    have hlk2 : (litInsts S).getD (P.length + 1 + 1) Inst.Match =
        Inst.OneChar d 0 := by
      rw [hSeq, show P ++ c :: d :: R2 = (P ++ [c]) ++ d :: R2 by simp]
      rw [show P.length + 1 + 1 = (P ++ [c]).length + 1 by simp]
      exact litInsts_onechar (P ++ [c]) d R2
    have hNone := nfaAdd_one_empty n
      { prev := some c, cur := some d, next := byteLen (P ++ [c]) + csize d }
      st.nextIc numI glen w hw st.nlist (P.length + 1 + 1) d 0
      (by rw [hins]; exact hlk2) gP hnl hnls hgPlen (by omega)
    have hjr := stepAll_junk n S hins
      { prev := some c, cur := some d, next := byteLen (P ++ [c]) + csize d }
      st.nextIc numI glen w hw hnum hS P.length (by omega)
      ((n.add st.chars st.ic st.clist 0 st.groups).size) (0 + 1)
      (n.add st.chars st.ic st.clist 0 st.groups)
      (n.add { prev := some c, cur := some d, next := byteLen (P ++ [c]) + csize d } st.nextIc st.nlist (P.length + 1 + 1) gP)
      st.groups false (by omega) hc2ok hNone.1
      (by
        intro j h1 h2
        by_cases hj : j < st.clist.size
        · rw [hc2un j hj]
          exact hjunk j h1 hj
        · have hb := hc2new j (by omega) h2
          have h01 : max 0 1 = 1 := by simp
          rw [h01] at hb
          omega)
    obtain ⟨nlist3, hj1, hj2, hj3, hj4, hj5⟩ := hjr
    have hsa : stepAll n
        { prev := some c, cur := some d, next := byteLen (P ++ [c]) + csize d }
        st.nextIc 0 (n.add st.chars st.ic st.clist 0 st.groups) st.nlist
        st.groups false =
        (false, n.add st.chars st.ic st.clist 0 st.groups, nlist3,
          st.groups, false) := by
      unfold stepAll
      rw [dif_pos (by omega)]
      dsimp only
      rw [show (n.add st.chars st.ic st.clist 0 st.groups).pcAt 0 =
        P.length + 1 from by
        show ((n.add st.chars st.ic st.clist 0 st.groups).queue.getD 0
          default).pc = _
        rw [hc2q0]]
      rw [show (n.add st.chars st.ic st.clist 0 st.groups).groupsAt 0 =
        gP from by
        show ((n.add st.chars st.ic st.clist 0 st.groups).queue.getD 0
          default).groups = _
        rw [hc2q0]]
      rw [step_onechar n _ st.nextIc st.groups st.nlist gP (P.length + 1) c
        (by rw [hins]; exact hlk1)]
      dsimp only
      rw [if_pos (by simp [char_eq])]
      exact hj1
    rw [hsa]
    dsimp only
    rw [if_neg (show ¬(false = true) by simp)]
    rw [dif_pos (show st.ic < st.nextIc by omega)]
    apply ih (P ++ [c]) d
      ((nlist3.queue.getD 0 default).groups)
    · rw [hSeq]
      simp
    · simp
    · show st.nextIc = byteLen (P ++ [c])
      omega
    · show byteLen (P ++ [c]) + csize d = byteLen (P ++ [c]) + csize d
      rfl
    · rfl
    · rfl
    · exact hj2
    · exact liveOk_empty _ _ _ _ hc2ok
    · rfl
    · show 1 ≤ nlist3.size
      have := hNone.2.1
      omega
    · have hpcv : (nlist3.queue.getD 0 default).pc =
          (P ++ [c]).length + 1 := by
        rw [hj4 0 (by rw [hNone.2.1]; omega), hNone.2.2.1]
        simp
      rw [← hpcv]
    · intro hwl
      rw [hj4 0 (by rw [hNone.2.1]; omega)]
      rw [hNone.2.2.2 hwl (hglenL hwl)]
      exact hgPloc hwl
    · intro j h1 h2
      by_cases hj : j < (n.add { prev := some c, cur := some d, next := byteLen (P ++ [c]) + csize d } st.nextIc st.nlist (P.length + 1 + 1) gP).size
      · rw [hNone.2.1] at hj
        omega
      · have hb := hj5 j (by omega) h2
        rw [show (P ++ [c]).length = P.length + 1 by simp]
        exact hb
    · exact hgr
    · rfl

theorem liveOk_new (w : MatchKind) (nI nC : Nat) :
    LiveOk nI (nC * 2) w (Threads.new w nI nC) := by
  refine ⟨rfl, by simp [Threads.new], by simp [Threads.new], ?_⟩
  intro i hi
  show ((List.replicate nI
    (⟨0, List.replicate (nC * 2) none⟩ : Thread)).getD i
      default).groups.length = nC * 2
  rw [getD_replicate _ _ _ _ hi]
  simp

theorem startAddCond_zero (a m : Bool) : startAddCond 0 a m = true := by
  simp [startAddCond]

theorem getD_replicate_none (k m : Nat) :
    (List.replicate m (none : Option Nat)).getD k none = none := by
  induction m generalizing k with
  | zero => simp
  | succ m ih =>
    cases k with
    | zero => rfl
    | succ k => exact ih k

theorem nfaRun_lits (S : List Char) (hS : S ≠ [])
    (w : MatchKind) (hwx : w = .Exists ∨ w = .Location) :
    nfaRun w (Program.new (litCat S)) S 0 (byteLen S) =
      (if w = .Exists then [some 0, some 0]
       else [some 0, some (byteLen S)]) := by
  obtain ⟨c1, rest, rfl⟩ : ∃ c1 rest, S = c1 :: rest := by
    cases S with
    | nil => exact absurd rfl hS
    | cons a b => exact ⟨a, b, rfl⟩
  have hSne : (c1 :: rest : List Char) ≠ [] := by simp
  have hppI : (Program.new (litCat (c1 :: rest))).insts =
      litInsts (c1 :: rest) := progNew_litInsts _ hSne
  have hppL : (Program.new (litCat (c1 :: rest))).prefixLit =
      c1 :: rest := progNew_prefixLit _ hSne
  have hIlen : (Program.new (litCat (c1 :: rest))).insts.length =
      (c1 :: rest).length + 3 := by
    rw [hppI]
    exact litInsts_length _
  have hc1 : (litInsts (c1 :: rest)).getD 1 Inst.Match =
      Inst.OneChar c1 0 := by
    have := litInsts_onechar [] c1 rest
    simpa using this
  have hcs1 := csize_pos c1
  have hglenL : w = .Location →
      matchKindCaps w (Program.new (litCat (c1 :: rest))) * 2 = 2 := by
    intro h
    rw [h]
    rfl
  have hnew := liveOk_new w (Program.new (litCat (c1 :: rest))).insts.length
    (matchKindCaps w (Program.new (litCat (c1 :: rest))))
  unfold nfaRun
  dsimp only
  rw [charsSet_zero c1 rest]
  dsimp only
  unfold runLoop
  dsimp only
  rw [if_pos (show (0 : Nat) ≤ byteLen (c1 :: rest) by omega)]
  rw [if_neg (by intro hcon; exact absurd hcon.2 (by decide))]
  rw [if_pos (show (Threads.new w
      (Program.new (litCat (c1 :: rest))).insts.length
      (matchKindCaps w (Program.new (litCat (c1 :: rest))))).size = 0 ∧
      (Program.new (litCat (c1 :: rest))).prefixLit.length > 0 from
    ⟨rfl, by rw [hppL]; simp⟩)]
  rw [hppL]
  rw [show bytesFrom (c1 :: rest) 0 = allBytes (c1 :: rest) from by
    simp [bytesFrom]]
  rw [findPrefixPos_self _ (allBytes_ne_nil c1 rest)]
  dsimp only
  rw [show (0 : Nat) + 0 = 0 from rfl]
  rw [charsSet_zero c1 rest]
  dsimp only
  rw [show (Threads.new w
    (Program.new (litCat (c1 :: rest))).insts.length
    (matchKindCaps w (Program.new (litCat (c1 :: rest))))).size = 0
    from rfl]
  rw [startAddCond_zero]
  rw [if_pos rfl]
  generalize hgN :
    ({ which := w, insts := (Program.new (litCat (c1 :: rest))).insts
       prefixLit := c1 :: rest, input := c1 :: rest, start := 0
       endP := byteLen (c1 :: rest) } : Nfa) = nn
  generalize hgT : Threads.new w
    (Program.new (litCat (c1 :: rest))).insts.length
    (matchKindCaps w (Program.new (litCat (c1 :: rest)))) = t0
  generalize hgG : List.replicate
    (matchKindCaps w (Program.new (litCat (c1 :: rest))) * 2) none = g0
  have hnnI : nn.insts = litInsts (c1 :: rest) := by
    rw [← hgN]
    exact hppI
  have hnnP : nn.prefixLit = c1 :: rest := by rw [← hgN]
  have hnnIn : nn.input = c1 :: rest := by rw [← hgN]
  have hnnE : nn.endP = byteLen (c1 :: rest) := by rw [← hgN]
  have hnnW : nn.which = w := by rw [← hgN]
  have ht0ok : LiveOk (Program.new (litCat (c1 :: rest))).insts.length
      (matchKindCaps w (Program.new (litCat (c1 :: rest))) * 2) w t0 := by
    rw [← hgT]
    exact hnew
  have ht0sz : t0.size = 0 := by rw [← hgT]; rfl
  have hg0len : g0.length =
      matchKindCaps w (Program.new (litCat (c1 :: rest))) * 2 := by
    rw [← hgG]
    simp
  have hg0getD : g0.getD 1 none = none := by
    rw [← hgG]
    exact getD_replicate_none 1 _
  have hstart := nfaAdd_start_empty nn (c1 :: rest) hnnI
    { prev := none, cur := some c1, next := csize c1 } 0
    (Program.new (litCat (c1 :: rest))).insts.length
    (matchKindCaps w (Program.new (litCat (c1 :: rest))) * 2) w hnnW
    hIlen c1 0 hc1 t0 g0 ht0ok ht0sz hg0len
  generalize hgC : nn.add { prev := none, cur := some c1, next := csize c1 }
    0 t0 0 g0 = cl2
  rw [hgC] at hstart
  have hgQlen : ((cl2.queue.getD 1 default).groups).length =
      matchKindCaps w (Program.new (litCat (c1 :: rest))) * 2 := by
    have := hstart.1.2.2.2 1 (by rw [hIlen]; omega)
    exact this
  have hgQloc : w = .Location →
      (cl2.queue.getD 1 default).groups = [some 0, g0.getD 1 none] := by
    intro hwl
    exact hstart.2.2.2.2 hwl (hglenL hwl)
  have hlk1 : nn.insts.getD 1 Inst.Match = Inst.OneChar c1 0 := by
    rw [hnnI]
    exact hc1
  have hlk0 : nn.insts.getD 0 Inst.Match = Inst.Save 0 := by
    rw [hnnI]
    exact litInsts_zero (c1 :: rest)
  cases rest with
  | cons d R2 =>
    have hcsd := csize_pos d
    have hadv : charsAdvance (c1 :: d :: R2)
        { prev := none, cur := some c1, next := csize c1 } =
        ({ prev := some c1, cur := some d
           next := byteLen [c1] + csize d },
         byteLen [c1] + csize d) := by
      have h0 := charsAdvance_mid [] c1 d R2
        { prev := none, cur := some c1, next := csize c1 }
        (by
          show csize c1 = byteLen ([] ++ [c1])
          rw [List.nil_append, byteLen_cons, byteLen_nil]
          omega)
      simpa using h0
    rw [hadv]
    dsimp only
    have hlk2 : nn.insts.getD (1 + 1) Inst.Match = Inst.OneChar d 0 := by
      rw [hnnI]
      have h1 := litInsts_onechar [c1] d R2
      simpa using h1
    have hNone := nfaAdd_one_empty nn
      { prev := some c1, cur := some d, next := byteLen [c1] + csize d }
      (csize c1) (Program.new (litCat (c1 :: d :: R2))).insts.length
      (matchKindCaps w (Program.new (litCat (c1 :: d :: R2))) * 2) w hnnW
      t0 (1 + 1) d 0 hlk2 ((cl2.queue.getD 1 default).groups)
      ht0ok ht0sz hgQlen (by rw [hIlen]; omega)
    have hsa : stepAll nn
        { prev := some c1, cur := some d, next := byteLen [c1] + csize d }
        (csize c1) 0 cl2 t0 g0 false =
        (false, cl2,
          nn.add { prev := some c1, cur := some d
                   next := byteLen [c1] + csize d }
            (csize c1) t0 (1 + 1) ((cl2.queue.getD 1 default).groups),
          g0, false) := by
      unfold stepAll
      rw [dif_pos (show 0 < cl2.size from by rw [hstart.2.1]; omega)]
      dsimp only
      rw [show cl2.pcAt 0 = 0 from by
        show (cl2.queue.getD 0 default).pc = 0
        exact hstart.2.2.1]
      rw [step_save nn
        { prev := some c1, cur := some d, next := byteLen [c1] + csize d }
        (csize c1) g0 t0 (cl2.groupsAt 0) 0 0 hlk0]
      dsimp only
      unfold stepAll
      rw [dif_pos (show 0 + 1 < cl2.size from by rw [hstart.2.1]; omega)]
      dsimp only
      rw [show (0 : Nat) + 1 = 1 from rfl]
      rw [show cl2.pcAt 1 = 1 from by
        show (cl2.queue.getD 1 default).pc = 1
        exact hstart.2.2.2.1]
      rw [show cl2.groupsAt 1 = (cl2.queue.getD 1 default).groups from rfl]
      rw [step_onechar nn
        { prev := some c1, cur := some d, next := byteLen [c1] + csize d }
        (csize c1) g0 t0 ((cl2.queue.getD 1 default).groups) 1 c1 hlk1]
      dsimp only
      rw [if_pos (by simp [char_eq])]
      unfold stepAll
      rw [dif_neg (show ¬(1 + 1 < cl2.size) from by rw [hstart.2.1]; omega)]
    rw [hsa]
    dsimp only
    rw [if_neg (show ¬(false = true) from by simp)]
    rw [dif_pos (show (0 : Nat) < csize c1 from by omega)]
    apply runLoop_lits nn (c1 :: d :: R2) hnnI hnnP hnnIn hnnE _ _ w hnnW
      hwx hIlen (by simp) hglenL R2 [c1] d
      ((nn.add { prev := some c1, cur := some d
                 next := byteLen [c1] + csize d }
          (csize c1) t0 (1 + 1)
          ((cl2.queue.getD 1 default).groups)).queue.getD 0 default).groups
    · simp
    · simp
    · show csize c1 = byteLen [c1]
      rw [byteLen_cons, byteLen_nil]
      omega
    · show byteLen [c1] + csize d = byteLen [c1] + csize d
      rfl
    · rfl
    · rfl
    · exact hNone.1
    · exact liveOk_empty _ _ _ _ hstart.1
    · rfl
    · show 1 ≤ (nn.add
          { prev := some c1, cur := some d
            next := byteLen [c1] + csize d }
          (csize c1) t0 (1 + 1)
          ((cl2.queue.getD 1 default).groups)).size
      have h3 := hNone.2.1
      omega
    · have hpcv : ((nn.add
          { prev := some c1, cur := some d
            next := byteLen [c1] + csize d }
          (csize c1) t0 (1 + 1)
          ((cl2.queue.getD 1 default).groups)).queue.getD 0 default).pc =
          ([c1] : List Char).length + 1 := by
        rw [hNone.2.2.1]
        simp
      rw [← hpcv]
    · intro hwl
      rw [hNone.2.2.2 hwl (hglenL hwl)]
      rw [hgQloc hwl]
      simp
    · intro j h1 h2
      have h3 : j < (nn.add
          { prev := some c1, cur := some d
            next := byteLen [c1] + csize d }
          (csize c1) t0 (1 + 1)
          ((cl2.queue.getD 1 default).groups)).size := h2
      rw [hNone.2.1] at h3
      omega
    · exact hgG.symm
    · rfl
  | nil =>
    have hadv : charsAdvance [c1]
        { prev := none, cur := some c1, next := csize c1 } =
        ({ prev := some c1, cur := none, next := byteLen [c1] + 1 },
         byteLen [c1] + 1) := by
      have h0 := charsAdvance_end [] c1
        { prev := none, cur := some c1, next := csize c1 }
        (by
          show csize c1 = byteLen ([] ++ [c1])
          rw [List.nil_append, byteLen_cons, byteLen_nil]
          omega)
      simpa using h0
    rw [hadv]
    dsimp only
    have hNsv := nfaAdd_save1_empty nn [c1] hnnI
      { prev := some c1, cur := none, next := byteLen [c1] + 1 }
      (csize c1) (Program.new (litCat [c1])).insts.length
      (matchKindCaps w (Program.new (litCat [c1])) * 2) w hnnW
      hIlen t0 ((cl2.queue.getD 1 default).groups) ht0ok ht0sz hgQlen
    have hsa : stepAll nn
        { prev := some c1, cur := none, next := byteLen [c1] + 1 }
        (csize c1) 0 cl2 t0 g0 false =
        (false, cl2,
          nn.add { prev := some c1, cur := none
                   next := byteLen [c1] + 1 }
            (csize c1) t0 (1 + 1) ((cl2.queue.getD 1 default).groups),
          g0, false) := by
      unfold stepAll
      rw [dif_pos (show 0 < cl2.size from by rw [hstart.2.1]; omega)]
      dsimp only
      rw [show cl2.pcAt 0 = 0 from by
        show (cl2.queue.getD 0 default).pc = 0
        exact hstart.2.2.1]
      rw [step_save nn
        { prev := some c1, cur := none, next := byteLen [c1] + 1 }
        (csize c1) g0 t0 (cl2.groupsAt 0) 0 0 hlk0]
      dsimp only
      unfold stepAll
      rw [dif_pos (show 0 + 1 < cl2.size from by rw [hstart.2.1]; omega)]
      dsimp only
      rw [show (0 : Nat) + 1 = 1 from rfl]
      rw [show cl2.pcAt 1 = 1 from by
        show (cl2.queue.getD 1 default).pc = 1
        exact hstart.2.2.2.1]
      rw [show cl2.groupsAt 1 = (cl2.queue.getD 1 default).groups from rfl]
      rw [step_onechar nn
        { prev := some c1, cur := none, next := byteLen [c1] + 1 }
        (csize c1) g0 t0 ((cl2.queue.getD 1 default).groups) 1 c1 hlk1]
      dsimp only
      rw [if_pos (by simp [char_eq])]
      unfold stepAll
      rw [dif_neg (show ¬(1 + 1 < cl2.size) from by rw [hstart.2.1]; omega)]
    rw [hsa]
    dsimp only
    rw [if_neg (show ¬(false = true) from by simp)]
    rw [dif_pos (show (0 : Nat) < csize c1 from by omega)]
    apply runLoop_final nn [c1] hnnI hnnP hnnIn hnnE _ _ w hnnW
      hwx hIlen (by simp) hglenL
    · show csize c1 = byteLen [c1]
      rw [byteLen_cons, byteLen_nil]
      omega
    · show byteLen [c1] + 1 = byteLen [c1] + 1
      rfl
    · rfl
    · exact hNsv.1
    · exact liveOk_empty _ _ _ _ hstart.1
    · rfl
    · show 2 ≤ (nn.add
          { prev := some c1, cur := none
            next := byteLen [c1] + 1 }
          (csize c1) t0 (1 + 1)
          ((cl2.queue.getD 1 default).groups)).size
      have h3 : (nn.add
          { prev := some c1, cur := none
            next := byteLen [c1] + 1 }
          (csize c1) t0 (1 + 1)
          ((cl2.queue.getD 1 default).groups)).size = 2 := hNsv.2.1
      omega
    · exact hNsv.2.2.1
    · exact hNsv.2.2.2.1
    · intro hwl
      have h5 : ((nn.add
          { prev := some c1, cur := none
            next := byteLen [c1] + 1 }
          (csize c1) t0 (1 + 1)
          ((cl2.queue.getD 1 default).groups)).queue.getD 1
            default).groups =
          [((cl2.queue.getD 1 default).groups).getD 0 none,
           some (csize c1)] := hNsv.2.2.2.2 hwl (hglenL hwl)
      rw [h5, hgQloc hwl]
      simp [byteLen_cons, byteLen_nil]
    · exact hgG.symm
    · rfl

/-- C7, counterexample: for the empty string, `quote("")` is `""`, and
`Regexp::new("")` does not succeed: the parser rejects the empty pattern
with a `BadSyntax` error ("Empty group or alternate not allowed."), so
`is_match`/`find` are never reached.  The claim's "any string S" fails at
S = "". -/
theorem claim_C7_counterexample :
    quote ([] : List Char) = [] ∧
    Regex.new (quote ([] : List Char)) =
      .error { pos := 0, kind := ErrorKind.BadSyn
               msg := "Empty group or alternate not allowed." } :=
  ⟨rfl, rfl⟩

/-- C7 (amended to nonempty strings): for every nonempty string S,
compiling `quote S` succeeds, and the resulting regex both matches S
(`is_match` is true) and `find`s the full-width match `(0, byteLen S)`:
every punctuation character is escaped by `quote`, the parser reduces the
escaped literals back to a concatenation of `Literal` ASTs, and the Pike
VM matches the compiled literal program against S itself from offset 0 to
the end. -/
theorem claim_C7 (S : List Char) (h : S ≠ []) :
    ∃ re : Regex, Regex.new (quote S) = .ok re ∧
      re.is_match S = true ∧ re.find S = some (0, byteLen S) := by
  refine ⟨{ names := (Program.new (litCat S)).names
            prog := Program.new (litCat S) }, regexNew_quote S h, ?_, ?_⟩
  · unfold Regex.is_match Regex.exec Regex.execSlice
    dsimp only
    rw [nfaRun_lits S h .Exists (Or.inl rfl)]
    rfl
  · unfold Regex.find Regex.exec Regex.execSlice
    dsimp only
    rw [nfaRun_lits S h .Location (Or.inr rfl)]
    rfl

/-- C7, witness: instantiating the amended claim at S = "a". -/
theorem claim_C7_witness :
    (['a'] : List Char) ≠ [] ∧
    ∃ re : Regex, Regex.new (quote ['a']) = .ok re ∧
      re.is_match ['a'] = true ∧ re.find ['a'] = some (0, byteLen ['a']) :=
  ⟨by decide, claim_C7 ['a'] (by decide)⟩

end Regexp
